import Mathlib

/-!
Verification of the Microsoft-Rewards-Bot core against its specification.

The definitions in this file are shallow embeddings of the TypeScript
sources under `src/`.  Each definition names the source function it
embeds.  JavaScript strings are modelled as Lean `String`/`List Char`,
JavaScript numbers as `Nat`/`Int`/`Rat` as appropriate, and absent
(`undefined`) values as `Option`.
-/

set_option maxRecDepth 10000

namespace RewardsBot

/-! ### Generic string helpers (models of JS string primitives) -/

/-- Model of `needle` being a prefix of `hay` (JS `String.startsWith`). -/
def startsWithChars : List Char → List Char → Bool
  | [], _ => true
  | _ :: _, [] => false
  | n :: ns, h :: hs => n = h && startsWithChars ns hs

/-- Model of JS `String.includes`: substring search. -/
def hasSubChars (needle : List Char) : List Char → Bool
  | [] => startsWithChars needle []
  | h :: hs => startsWithChars needle (h :: hs) || hasSubChars needle hs

/-- Model of JS `String.includes` on `String`. -/
def hasSub (hay needle : String) : Bool := hasSubChars needle.data hay.data

/-- ASCII lower-casing, modelling JS `String.toLowerCase` on the ASCII
strings that occur in the classifier and the recovery check. -/
def jsLower (s : String) : String := ⟨s.data.map Char.toLower⟩

/-- Model of JS `String.slice(0, n)` for non-negative `n`. -/
def strTake (s : String) (n : Nat) : String := ⟨s.data.take n⟩

/-- Splitter on a single character, modelling JS `String.split(sep)`. -/
def splitAtChar (sep : Char) : List Char → List (List Char)
  | [] => [[]]
  | c :: cs =>
      if c = sep then [] :: splitAtChar sep cs
      else
        match splitAtChar sep cs with
        | [] => [[c]]
        | t :: ts => (c :: t) :: ts

/-- Model of JS `String.split(sep)` on `String`. -/
def jsSplit (sep : Char) (s : String) : List String :=
  (splitAtChar sep s.data).map (fun l => ⟨l⟩)

/-- JS truthiness of a possibly-absent string (`undefined` or `""` are falsy). -/
def jsTruthy : Option String → Bool
  | none => false
  | some s => s ≠ ""

/-! ### Ban severity and detection results

Embeds `BanDetectionResult` from `EnhancedBanDetector`
(`src/unnamed/part_001`). -/

inductive Severity where
  | none
  | warning
  | softBan
  | hardBan
deriving DecidableEq, Repr

structure BanDetectionResult where
  detected : Bool
  severity : Severity
  reason : String
  details : Option String
  recoverable : Bool
deriving DecidableEq, Repr

/-- Embeds `BAN_STATUS_CODES` from `src/unnamed/part_001`. -/
def BAN_STATUS_CODES : List Nat := [403, 429, 451]

/-- Embeds `detectBanFromResponse` (`src/unnamed/part_001`, lines 225–262).
The Playwright response is abstracted to its status code, its
`retry-after` and `x-rate-limit-remaining` headers (absent keys are
`none`) and its URL. -/
def detectBanFromResponse (status : Nat) (retryAfter xRateLimitRemaining : Option String)
    (url : String) : BanDetectionResult :=
  if BAN_STATUS_CODES.contains status then
    let severity := if status = 403 then Severity.hardBan else Severity.warning
    { detected := true
      severity := severity
      reason := s!"HTTP {status} response"
      details := some s!"Received {status} status code from {url}"
      recoverable := status ≠ 403 }
  else if jsTruthy retryAfter || xRateLimitRemaining = some "0" then
    { detected := true
      severity := Severity.warning
      reason := "Rate limit header detected"
      details := some (match retryAfter with
        | some ra => if ra ≠ "" then s!"Retry after {ra}s" else "Rate limit exhausted"
        | none => "Rate limit exhausted")
      recoverable := true }
  else
    { detected := false, severity := Severity.none, reason := "", details := none,
      recoverable := true }

/-- Statement of claim C4 exactly as written: status 403 ⟹ hard-ban and not
recoverable; 429/451 ⟹ warning and recoverable; otherwise a *present*
`retry-after` header or `x-rate-limit-remaining = "0"` ⟹ detected warning;
any other response ⟹ not detected, severity none. -/
def ClaimC4Statement : Prop :=
  ∀ (status : Nat) (ra xr : Option String) (url : String),
    let r := detectBanFromResponse status ra xr url
    (status = 403 →
      r.detected = true ∧ r.severity = Severity.hardBan ∧ r.recoverable = false) ∧
    ((status = 429 ∨ status = 451) →
      r.detected = true ∧ r.severity = Severity.warning ∧ r.recoverable = true) ∧
    (status ≠ 403 → status ≠ 429 → status ≠ 451 →
      (ra.isSome ∨ xr = some "0") →
      r.detected = true ∧ r.severity = Severity.warning) ∧
    (status ≠ 403 → status ≠ 429 → status ≠ 451 →
      ¬(ra.isSome ∨ xr = some "0") →
      r.detected = false ∧ r.severity = Severity.none)

/-! ### Activity classification

Embeds `classifyActivity` from `src/src/functions/Activities.ts`
(lines 131–152).  An activity is abstracted to the four fields the
classifier reads; `promotionType`, `destinationUrl` and `name` are
nullable in the source (`activity.promotionType || ""`). -/

inductive ActivityKind where
  | poll
  | abc
  | thisOrThat
  | quiz
  | searchOnBing
  | urlReward
  | unsupported
deriving DecidableEq, Repr

structure ActivityRec where
  name : Option String
  promotionType : Option String
  destinationUrl : Option String
  pointProgressMax : Int
deriving Repr

/-- Embeds `classifyActivity` (`src/src/functions/Activities.ts:131`). -/
def classifyActivity (a : ActivityRec) : ActivityKind :=
  let type := jsLower (a.promotionType.getD "")
  if type = "quiz" then
    let max := a.pointProgressMax
    let url := jsLower (a.destinationUrl.getD "")
    if max = 10 then
      if hasSub url "pollscenarioid" then ActivityKind.poll else ActivityKind.abc
    else if max = 50 then ActivityKind.thisOrThat
    else ActivityKind.quiz
  else if type = "urlreward" then
    let name := jsLower (a.name.getD "")
    if hasSub name "exploreonbing" then ActivityKind.searchOnBing
    else ActivityKind.urlReward
  else ActivityKind.unsupported

/-- The first-match classification table exactly as the specification
(§4.11) states it, over the same lower-cased fields. -/
def specClassifyTable (a : ActivityRec) : ActivityKind :=
  let t := jsLower (a.promotionType.getD "")
  let m := a.pointProgressMax
  let u := jsLower (a.destinationUrl.getD "")
  let n := jsLower (a.name.getD "")
  if t = "quiz" ∧ m = 10 ∧ hasSub u "pollscenarioid" then ActivityKind.poll
  else if t = "quiz" ∧ m = 10 then ActivityKind.abc
  else if t = "quiz" ∧ m = 50 then ActivityKind.thisOrThat
  else if t = "quiz" then ActivityKind.quiz
  else if t = "urlreward" ∧ hasSub n "exploreonbing" then ActivityKind.searchOnBing
  else if t = "urlreward" then ActivityKind.urlReward
  else ActivityKind.unsupported

/-! ### Ban monitoring state

Embeds `BanMonitoringState` and the state-update core of
`handleBanDetection` from `src/src/util/security/BanMonitoring.ts`
(lines 24–29 and 117–165).  Logging and the callback are outside the
model; the returned severity is the possibly-escalated
`result.severity`. -/

structure BanMonitoringState where
  warningCount : Nat
  lastWarningTime : Nat
  banDetected : Bool
  lastBanCheck : Nat
deriving DecidableEq, Repr

/-- Fresh per-session state (`getMonitoringState` default). -/
def initialMonitoringState : BanMonitoringState :=
  { warningCount := 0, lastWarningTime := 0, banDetected := false, lastBanCheck := 0 }

/-- Embeds `handleBanDetection` (`BanMonitoring.ts:117`): hard-ban marks the
account banned; warning or soft-ban increments the counter and, once the
counter reaches 3, rewrites the severity to soft-ban. -/
def handleBanDetection (now : Nat) (st : BanMonitoringState) (sev : Severity) :
    BanMonitoringState × Severity :=
  if sev = Severity.hardBan then
    ({ st with banDetected := true }, sev)
  else if sev = Severity.warning ∨ sev = Severity.softBan then
    let count := st.warningCount + 1
    let st' := { st with warningCount := count, lastWarningTime := now }
    (st', if 3 ≤ count then Severity.softBan else sev)
  else (st, sev)

/-- Processes a session's detected verdicts in order, returning the severity
each one ends up with after `handleBanDetection`. -/
def runBanSession (now : Nat) : BanMonitoringState → List Severity → List Severity
  | _, [] => []
  | st, s :: ss =>
      let r := handleBanDetection now st s
      r.2 :: runBanSession now r.1 ss

/-- Number of verdicts that increment the warning counter
(`result.severity === "warning" || result.severity === "soft-ban"`). -/
def countWarnLike (l : List Severity) : Nat :=
  l.countP (fun s => s == Severity.warning || s == Severity.softBan)

/-! ### Recovery-email consistency check

Embeds the decision core of `detectAndHandleRecoveryMismatch` from
`src/src/functions/login/RecoveryHandler.ts` (lines 121–207).  The
page-scraping pipeline that produces the observed masked address is
abstracted to its result: the observed visible prefix and observed domain
(both already lower-cased, as in the source).  The side effects of the
mismatch branch (critical incident alert, global standby, docs tab) are
modelled as fields of the outcome. -/

/-- Model of JS `String.startsWith`. -/
def jsStartsWith (s p : String) : Bool := startsWithChars p.data s.data

structure RecoveryRef where
  localPart : String
  domain : String
  prefix2 : String
deriving DecidableEq, Repr

/-- Embeds `parseRef` (`RecoveryHandler.ts:31`). -/
def parseRef (val : String) : RecoveryRef :=
  let parts := jsSplit '@' val
  let l := parts.getD 0 ""
  let d := parts.getD 1 ""
  { localPart := l, domain := jsLower d, prefix2 := jsLower (strTake l 2) }

/-- Embeds the `refs` list construction (`RecoveryHandler.ts:39`): both
references, keeping only those with a truthy domain and prefix. -/
def buildRefs (recoveryEmail accountEmail : String) : List RecoveryRef :=
  [parseRef recoveryEmail, parseRef accountEmail].filter
    (fun r => r.domain ≠ "" && r.prefix2 ≠ "")

/-- Embeds the `matchRef` search (`RecoveryHandler.ts:150`): first reference
whose domain equals the observed domain and whose prefix matches —
leniently (startsWith) when one character is visible, strictly otherwise. -/
def findMatchRef (refs : List RecoveryRef) (observedPrefix observedDomain : String) :
    Option RecoveryRef :=
  refs.find? (fun r =>
    r.domain == observedDomain &&
      (if observedPrefix.length = 1 then jsStartsWith r.prefix2 observedPrefix
       else r.prefix2 == observedPrefix))

structure RecoveryOutcome where
  matched : Option RecoveryRef
  incidentRaised : Bool
  standbyEngaged : Bool
  docsTabOpened : Bool
deriving DecidableEq, Repr

/-- Outcome when the check returns without comparing (no usable references
or no recovery email configured). -/
def recoverySkipped : RecoveryOutcome :=
  { matched := none, incidentRaised := false, standbyEngaged := false,
    docsTabOpened := false }

/-- Embeds the decision flow of `detectAndHandleRecoveryMismatch`
(`RecoveryHandler.ts:125`): early return when no recovery email with an
`@` is configured or no usable reference exists; otherwise the mismatch
branch raises the critical incident, engages standby and opens the docs
tab exactly when no reference matches. -/
def detectAndHandleRecoveryMismatch (recoveryEmail : Option String)
    (accountEmail observedPrefix observedDomain : String) : RecoveryOutcome :=
  match recoveryEmail with
  | none => recoverySkipped
  | some re =>
      if ¬ hasSub re "@" then recoverySkipped
      else
        let refs := buildRefs re accountEmail
        if refs = [] then recoverySkipped
        else
          match findMatchRef refs observedPrefix observedDomain with
          | some r =>
              { matched := some r, incidentRaised := false, standbyEngaged := false,
                docsTabOpened := false }
          | none =>
              { matched := none, incidentRaised := true, standbyEngaged := true,
                docsTabOpened := true }

/-! ### Secure random draws

`secureRandom()` (`src/src/util/security/SecureRandom.ts:26`) returns a
float in `[0, 1)`.  A draw is modelled as a rational in that interval;
the derived generators are embedded below. -/

def UnitDraw := {q : ℚ // 0 ≤ q ∧ q < 1}

/-- Embeds `secureRandomFloat` (`SecureRandom.ts:61`), including the
swap when `min > max`. -/
def secureRandomFloat (a b : ℚ) (r : UnitDraw) : ℚ :=
  let mn := if b < a then b else a
  let mx := if b < a then a else b
  r.1 * (mx - mn) + mn

/-- JS `Math.round` (round half toward positive infinity). -/
def jsRound (q : ℚ) : ℤ := ⌊q + 1/2⌋

/-- JS `Math.floor`. -/
def jsFloor (q : ℚ) : ℤ := ⌊q⌋

/-- JS `Math.sign` on an integer. -/
def jsSign (t : ℤ) : ℤ := if 0 < t then 1 else if t < 0 then -1 else 0

/-! ### Natural scroll path generation

Embeds `generateScrollPath` from `src/unnamed/part_004` (lines 250–297).
Only the `deltas` component is modelled (the claim is about deltas);
the `durations` draws do not influence the deltas.  In the source `remaining`
stays a non-negative integer because every subtracted delta is
`Math.round(remaining * f)` with `f < 0.6` (proved below as
`scrollStep_le`), so `remaining : Nat` with truncated subtraction is
exact. -/

/-- One inertia-loop delta: `Math.round(remaining * secureRandomFloat(0.3, 0.6))`. -/
def scrollStep (remaining : Nat) (r : UnitDraw) : Nat :=
  (jsRound ((remaining : ℚ) * secureRandomFloat (3/10) (6/10) r)).toNat

/-- The `while (remaining > 10)` inertia loop of `generateScrollPath`;
returns the pushed delta magnitudes and the final `remaining`. -/
def scrollLoop (decays : Nat → UnitDraw) (k remaining : Nat) : List Nat × Nat :=
  if h : 10 < remaining then
    let delta := scrollStep remaining (decays k)
    have hge : 3 ≤ delta := by
      have h3 : (3 : ℤ) ≤ jsRound ((remaining : ℚ) * secureRandomFloat (3/10) (6/10) (decays k)) := by
        have hr := (decays k).2
        have hf : (3/10 : ℚ) ≤ secureRandomFloat (3/10) (6/10) (decays k) := by
          simp only [secureRandomFloat]
          norm_num
          nlinarith [hr.1, hr.2]
        have hrem : (11 : ℚ) ≤ (remaining : ℚ) := by exact_mod_cast h
        have : (33/10 : ℚ) ≤ (remaining : ℚ) * secureRandomFloat (3/10) (6/10) (decays k) := by
          nlinarith [hr.1]
        rw [jsRound, Int.le_floor]
        push_cast
        linarith
      simpa [scrollStep] using Int.toNat_le_toNat h3
    let rest := scrollLoop decays (k + 1) (remaining - delta)
    (delta :: rest.1, rest.2)
  else ([], remaining)
termination_by remaining
decreasing_by exact Nat.sub_lt (by omega) (by omega)

/-- Embeds `generateScrollPath` (`src/unnamed/part_004:250`): with
`smooth = false` a single delta; otherwise an initial strong scroll of
`round(remaining * secureRandomFloat(0.4, 0.6))`, the inertia loop, and a
final small scroll of the leftover if positive, each multiplied by
`Math.sign(totalDelta)`. -/
def generateScrollPath (totalDelta : ℤ) (smooth : Bool) (p0 : UnitDraw)
    (decays : Nat → UnitDraw) : List ℤ :=
  if smooth = false then [totalDelta]
  else
    let direction := jsSign totalDelta
    let remaining := totalDelta.natAbs
    let initial := (jsRound ((remaining : ℚ) * secureRandomFloat (4/10) (6/10) p0)).toNat
    let lp := scrollLoop decays 0 (remaining - initial)
    ((initial : ℤ) * direction) :: lp.1.map (fun d : Nat => (d : ℤ) * direction) ++
      (if 0 < lp.2 then [(lp.2 : ℤ) * direction] else [])

/-! ### Read-to-earn claim loop

Embeds the article-claim loop of `doReadToEarn` from
`src/src/functions/activities/ReadToEarn.ts` (lines 39–86).  The rewards
API is abstracted to the sequence of post-claim balances it returns; the
result is the number of claim requests issued and the list of inter-claim
delays (ms). -/

/-- Modelled from the spec: `util/core/Utils.randomNumber` and
`util/core/Utils.stringToMs` are not under `src/`; per the spec the
inter-claim delay is "drawn from configured search-delay", i.e. a random
number in the configured `[min, max]` millisecond range.  A uniform draw
on `[a, b)` (degenerate to `a` when `a = b`) models it. -/
def randomNumberModel (a b : ℚ) (r : UnitDraw) : ℚ := r.1 * (b - a) + a

/-- Embeds `const articleCount = 10` (`ReadToEarn.ts:39`). -/
def articleCount : Nat := 10

/-- The claim loop of `doReadToEarn`: at most `fuel` iterations starting at
article index `i` with current balance `bal`; stops early when a
post-claim balance equals the pre-claim balance, otherwise records a delay
and continues with the new balance. -/
def r2eGo (responses : Nat → ℤ) (draws : Nat → UnitDraw) (minMs maxMs : ℚ) :
    Nat → Nat → ℤ → Nat × List ℤ
  | 0, _, _ => (0, [])
  | fuel + 1, i, bal =>
      let nb := responses i
      if nb = bal then (1, [])
      else
        let d := jsFloor (randomNumberModel minMs maxMs (draws i))
        let rest := r2eGo responses draws minMs maxMs fuel (i + 1) nb
        (rest.1 + 1, d :: rest.2)

/-- Embeds `doReadToEarn` (`ReadToEarn.ts:39`), abstracted to the claim
loop over the balance responses. -/
def doReadToEarn (responses : Nat → ℤ) (draws : Nat → UnitDraw) (minMs maxMs : ℚ)
    (b0 : ℤ) : Nat × List ℤ :=
  r2eGo responses draws minMs maxMs articleCount 0 b0

/-- First article index at which the post-claim balance equals the
pre-claim balance, within `fuel` steps. -/
def firstUnchanged (responses : Nat → ℤ) : Nat → Nat → ℤ → Option Nat
  | 0, _, _ => none
  | fuel + 1, i, bal =>
      if responses i = bal then some i
      else firstUnchanged responses fuel (i + 1) (responses i)

/-! ### JSONC parsing pipeline

Embeds `stripJsonComments`, `removeTrailingCommas` and the string-level
part of `parseJsonc` from `src/src/util/core/JsoncParser.ts`.  Equal
cleaned strings parse to equal values, so the pipeline is compared with
the normalized form at the string level. -/

/-- Quote characters that open a string literal in `stripJsonComments`
(double quote or single quote, `JsoncParser.ts:58`). -/
def isQuote (c : Char) : Bool := c = '"' || c.toNat = 39

/-- JS `\s` whitespace class (used by the trailing-comma regex). -/
def isJsWs (c : Char) : Bool :=
  c.toNat = 9 || c.toNat = 10 || c.toNat = 11 || c.toNat = 12 || c.toNat = 13 ||
  c.toNat = 32 || c.toNat = 160 || c.toNat = 0x1680 ||
  (0x2000 ≤ c.toNat && c.toNat ≤ 0x200A) || c.toNat = 0x2028 || c.toNat = 0x2029 ||
  c.toNat = 0x202F || c.toNat = 0x205F || c.toNat = 0x3000 || c.toNat = 0xFEFF

/-- Closing bracket class `[}\]]` of the trailing-comma regex. -/
def isCloseBracket (c : Char) : Bool := c = '}' || c = ']'

/-- Scanner state of `stripJsonComments`, as a one-character-step state
machine.  The source (`JsoncParser.ts:20`–81) uses one-character lookahead
with `i++` skips; here each lookahead pair is encoded by a state:
`slash` = just saw `/` outside everything (possible comment start),
`esc q` = just saw a backslash inside a string opened by `q`,
`blockStar` = just saw `*` inside a block comment (possible end).
The emitted output is character-for-character that of the source loop. -/
inductive StripMode where
  | normal
  | slash
  | inStr (q : Char)
  | esc (q : Char)
  | lineC
  | blockC
  | blockStar

/-- Embeds the character loop of `stripJsonComments` (`JsoncParser.ts:20`).
In `slash` state a second `/` or a `*` enters a comment (the source's
`char === "/" && next === "/"` / `"*"` checks with `i++`); any other
character means the pending `/` was literal and is emitted, followed by
the ordinary `normal`-state handling of the character. -/
def stripGo : StripMode → List Char → List Char
  | StripMode.slash, [] => ['/']
  | _, [] => []
  | StripMode.normal, c :: rest =>
      if c = '/' then stripGo StripMode.slash rest
      else if isQuote c then c :: stripGo (StripMode.inStr c) rest
      else c :: stripGo StripMode.normal rest
  | StripMode.slash, c :: rest =>
      if c = '/' then stripGo StripMode.lineC rest
      else if c = '*' then stripGo StripMode.blockC rest
      else if isQuote c then '/' :: c :: stripGo (StripMode.inStr c) rest
      else '/' :: c :: stripGo StripMode.normal rest
  | StripMode.inStr q, c :: rest =>
      if c = '\\' then c :: stripGo (StripMode.esc q) rest
      else c :: stripGo (if c = q then StripMode.normal else StripMode.inStr q) rest
  | StripMode.esc q, c :: rest => c :: stripGo (StripMode.inStr q) rest
  | StripMode.lineC, c :: rest =>
      if c = '\n' || c = '\r' then c :: stripGo StripMode.normal rest
      else stripGo StripMode.lineC rest
  | StripMode.blockC, c :: rest =>
      if c = '*' then stripGo StripMode.blockStar rest
      else stripGo StripMode.blockC rest
  | StripMode.blockStar, c :: rest =>
      if c = '/' then stripGo StripMode.normal rest
      else if c = '*' then stripGo StripMode.blockStar rest
      else stripGo StripMode.blockC rest

/-- Embeds `stripJsonComments` (`JsoncParser.ts:20`). -/
def stripJsonComments (s : String) : String := ⟨stripGo StripMode.normal s.data⟩

/-- Lookahead of the trailing-comma regex after the comma: a run of `\s`
followed by `}` or `]`. -/
def wsThenBracket : List Char → Bool
  | [] => false
  | c :: rest =>
      if isCloseBracket c then true
      else if isJsWs c then wsThenBracket rest
      else false

/-- Embeds the global replace `input.replace(/,(\s*[}\]])/g, "$1")`
(`JsoncParser.ts:94`).  A matched span is `,` `\s*` `[}\]]` and contains
no further comma, and `$1` re-emits everything but the comma, so the
global replace deletes exactly every comma whose lookahead matches. -/
def rtcGo : List Char → List Char
  | [] => []
  | c :: rest =>
      if c = ',' && wsThenBracket rest then rtcGo rest
      else c :: rtcGo rest

/-- Embeds `removeTrailingCommas` (`JsoncParser.ts:94`). -/
def removeTrailingCommas (s : String) : String := ⟨rtcGo s.data⟩

/-- The string handed to `JSON.parse` by `parseJsonc` (`JsoncParser.ts:105`):
comments stripped, then trailing commas removed. -/
def parseJsoncText (s : String) : String :=
  removeTrailingCommas (stripJsonComments s)

/-- Scanner state for the string-aware comma removal and the literal
extractor: outside literals, inside a literal opened by `q`, or inside a
literal just after a backslash. -/
inductive RtcMode where
  | outside
  | inS (q : Char)
  | escS (q : Char)

/-- Modelled from the spec: the claim's normalized trailing-comma removal
"deletes a comma followed only by whitespace before `}` or `]` without
altering characters inside string literals" — the same deletion as
`rtcGo`, but tracking string literals with the same quote and escape
discipline as `stripJsonComments`. -/
def rtcAwareGo : RtcMode → List Char → List Char
  | _, [] => []
  | RtcMode.outside, c :: rest =>
      if isQuote c then c :: rtcAwareGo (RtcMode.inS c) rest
      else if c = ',' && wsThenBracket rest then rtcAwareGo RtcMode.outside rest
      else c :: rtcAwareGo RtcMode.outside rest
  | RtcMode.inS q, c :: rest =>
      if c = '\\' then c :: rtcAwareGo (RtcMode.escS q) rest
      else c :: rtcAwareGo (if c = q then RtcMode.outside else RtcMode.inS q) rest
  | RtcMode.escS q, c :: rest => c :: rtcAwareGo (RtcMode.inS q) rest

/-- Modelled from the spec: string-aware trailing-comma removal. -/
def removeTrailingCommasAware (s : String) : String :=
  ⟨rtcAwareGo RtcMode.outside s.data⟩

/-- Modelled from the spec: the normalized form of a JSONC input —
comments stripped (respecting string literals and escapes), then trailing
commas removed respecting string literals. -/
def normalizeJsonc (s : String) : String :=
  removeTrailingCommasAware (stripJsonComments s)

/-- State of the literal-contents extractor: outside, inside a literal
opened by `q` with reversed accumulated content, or just after a
backslash. -/
inductive LitState where
  | out
  | inL (q : Char) (acc : List Char)
  | escL (q : Char) (acc : List Char)

/-- Contents of the string literals of a text, scanned with the same quote
and escape discipline as `stripJsonComments` (an unterminated literal
contributes its partial content). -/
def litsGo : LitState → List Char → List (List Char)
  | LitState.out, [] => []
  | LitState.inL _ acc, [] => [acc.reverse]
  | LitState.escL _ acc, [] => [acc.reverse]
  | LitState.out, c :: rest =>
      if isQuote c then litsGo (LitState.inL c []) rest else litsGo LitState.out rest
  | LitState.inL q acc, c :: rest =>
      if c = '\\' then litsGo (LitState.escL q (c :: acc)) rest
      else if c = q then acc.reverse :: litsGo LitState.out rest
      else litsGo (LitState.inL q (c :: acc)) rest
  | LitState.escL q acc, c :: rest => litsGo (LitState.inL q (c :: acc)) rest

/-- String-literal contents of a text. -/
def stringLiteralContents (s : String) : List String :=
  (litsGo LitState.out s.data).map (fun l => ⟨l⟩)

/-- True when some comma inside a string literal (with the scanner in the
given starting mode) is followed by whitespace and a closing bracket —
exactly the commas on which blind and string-aware removal disagree. -/
def hasBadComma : RtcMode → List Char → Bool
  | _, [] => false
  | RtcMode.outside, c :: rest =>
      if isQuote c then hasBadComma (RtcMode.inS c) rest
      else hasBadComma RtcMode.outside rest
  | RtcMode.inS q, c :: rest =>
      (c = ',' && wsThenBracket rest) ||
        (if c = '\\' then hasBadComma (RtcMode.escS q) rest
         else hasBadComma (if c = q then RtcMode.outside else RtcMode.inS q) rest)
  | RtcMode.escS q, c :: rest =>
      (c = ',' && wsThenBracket rest) || hasBadComma (RtcMode.inS q) rest

/-- Literal extractor running on the raw JSONC input with the full
`stripJsonComments` state machine: the contents of the string literals
the comment stripper keeps (comments are skipped). -/
def stripLitsGo : StripMode → List Char → List Char → List (List Char)
  | StripMode.inStr _, acc, [] => [acc.reverse]
  | StripMode.esc _, acc, [] => [acc.reverse]
  | _, _, [] => []
  | StripMode.normal, acc, c :: rest =>
      if c = '/' then stripLitsGo StripMode.slash acc rest
      else if isQuote c then stripLitsGo (StripMode.inStr c) [] rest
      else stripLitsGo StripMode.normal acc rest
  | StripMode.slash, acc, c :: rest =>
      if c = '/' then stripLitsGo StripMode.lineC acc rest
      else if c = '*' then stripLitsGo StripMode.blockC acc rest
      else if isQuote c then stripLitsGo (StripMode.inStr c) [] rest
      else stripLitsGo StripMode.normal acc rest
  | StripMode.inStr q, acc, c :: rest =>
      if c = '\\' then stripLitsGo (StripMode.esc q) (c :: acc) rest
      else if c = q then acc.reverse :: stripLitsGo StripMode.normal [] rest
      else stripLitsGo (StripMode.inStr q) (c :: acc) rest
  | StripMode.esc q, acc, c :: rest => stripLitsGo (StripMode.inStr q) (c :: acc) rest
  | StripMode.lineC, acc, c :: rest =>
      if c = '\n' || c = '\r' then stripLitsGo StripMode.normal acc rest
      else stripLitsGo StripMode.lineC acc rest
  | StripMode.blockC, acc, c :: rest =>
      if c = '*' then stripLitsGo StripMode.blockStar acc rest
      else stripLitsGo StripMode.blockC acc rest
  | StripMode.blockStar, acc, c :: rest =>
      if c = '/' then stripLitsGo StripMode.normal acc rest
      else if c = '*' then stripLitsGo StripMode.blockStar acc rest
      else stripLitsGo StripMode.blockC acc rest

/-- String literals of the raw input as seen by the comment stripper. -/
def stripLits (s : String) : List String :=
  (stripLitsGo StripMode.normal [] s.data).map (fun l => ⟨l⟩)

/-- Projection from the comment stripper's state (with current literal
accumulator) to the literal extractor's state. -/
def toLitState : StripMode → List Char → LitState
  | StripMode.inStr q, acc => LitState.inL q acc
  | StripMode.esc q, acc => LitState.escL q acc
  | _, _ => LitState.out


/-! ### JSON values, `JSON.parse` and `JSON.stringify`

`disableBannedAccount` (`src/src/util/state/AccountDisabler.ts`) parses
the accounts file with `JSON.parse` (after comment stripping) and rebuilds
it with `JSON.stringify(…, null, 2)`.  These platform builtins are
modelled here.  Model restrictions: numbers are arbitrary-precision
integers (fraction/exponent forms and doubles are outside the model), and
string escapes cover the Basic Multilingual Plane (no surrogate pairs).
Objects preserve key insertion order; duplicate keys follow the JS
last-value-wins rule via `objInsert`. -/

inductive JValue where
  | jnull
  | jbool (b : Bool)
  | jnum (n : Int)
  | jstr (s : String)
  | jarr (items : List JValue)
  | jobj (members : List (String × JValue))

/-- Property update with JS semantics: an existing key keeps its position
and gets the new value; a new key is appended. -/
def objInsert : List (String × JValue) → String → JValue → List (String × JValue)
  | [], k, v => [(k, v)]
  | (k', v') :: rest, k, v =>
      if k' = k then (k', v) :: rest else (k', v') :: objInsert rest k v

/-- Property read (`o[k]`): first binding of the key. -/
def objGet : List (String × JValue) → String → Option JValue
  | [], _ => none
  | (k', v') :: rest, k => if k' = k then some v' else objGet rest k

/-- Folding `objInsert` over a member list (the accumulation performed by
the object parser). -/
def insertList (acc : List (String × JValue)) : List (String × JValue) →
    List (String × JValue)
  | [] => acc
  | (k, v) :: rest => insertList (objInsert acc k v) rest

/-- JSON whitespace accepted by `JSON.parse` (space, tab, LF, CR). -/
def isJsonWs (c : Char) : Bool :=
  c = ' ' || c = '\t' || c = '\n' || c = '\r'

/-- Drop leading JSON whitespace. -/
def skipJsonWs : List Char → List Char
  | [] => []
  | c :: rest => if isJsonWs c then skipJsonWs rest else c :: rest

/-- Value of a hex digit. -/
def hexVal (c : Char) : Option Nat :=
  if '0' ≤ c ∧ c ≤ '9' then some (c.toNat - 48)
  else if 'a' ≤ c ∧ c ≤ 'f' then some (c.toNat - 87)
  else if 'A' ≤ c ∧ c ≤ 'F' then some (c.toNat - 55)
  else none

/-- A code point below the surrogate range is a valid scalar value. -/
def validCharOfLt {n : Nat} (h : n < 0xd800) : n.isValidChar := Or.inl h

/-- Single-character JSON escapes. -/
def unescapeChar (c : Char) : Option Char :=
  if c = '"' then some '"'
  else if c = '\\' then some '\\'
  else if c = '/' then some '/'
  else if c = 'b' then some (Char.ofNat 8)
  else if c = 'f' then some (Char.ofNat 12)
  else if c = 'n' then some '\n'
  else if c = 'r' then some '\r'
  else if c = 't' then some '\t'
  else none

/-- Parses a JSON string body after the opening quote, returning the
content and the remainder after the closing quote.  Control characters
are rejected, as `JSON.parse` does; `\uXXXX` escapes are accepted for
scalar (non-surrogate) code points. -/
def parseStringBody : List Char → Option (List Char × List Char)
  | [] => none
  | c :: rest =>
      if c = '"' then some ([], rest)
      else if c = '\\' then
        match rest with
        | [] => none
        | e :: rest2 =>
            if e = 'u' then
              match rest2 with
              | h1 :: h2 :: h3 :: h4 :: rest3 => do
                  let n1 ← hexVal h1
                  let n2 ← hexVal h2
                  let n3 ← hexVal h3
                  let n4 ← hexVal h4
                  let n := ((n1 * 16 + n2) * 16 + n3) * 16 + n4
                  if h : n < 0xd800 then
                    let (cs, r) ← parseStringBody rest3
                    some (Char.ofNatAux n (validCharOfLt h) :: cs, r)
                  else none
              | _ => none
            else do
              let c' ← unescapeChar e
              let (cs, r) ← parseStringBody rest2
              some (c' :: cs, r)
      else if c.toNat < 0x20 then none
      else do
        let (cs, r) ← parseStringBody rest
        some (c :: cs, r)

/-- Decimal digit test (`0`–`9`). -/
def isDigitChar (c : Char) : Bool := 48 ≤ c.toNat && c.toNat ≤ 57

/-- Digit span. -/
def spanDigits : List Char → List Char × List Char
  | [] => ([], [])
  | c :: rest =>
      if isDigitChar c then
        let (ds, r) := spanDigits rest
        (c :: ds, r)
      else ([], c :: rest)

/-- Numeric value of a digit run. -/
def digitsToNat : List Char → Nat → Nat
  | [], acc => acc
  | c :: rest, acc => digitsToNat rest (acc * 10 + (c.toNat - 48))

/-- True when the characters would extend a numeric token into a fraction
or exponent. -/
def startsNumExt : List Char → Bool
  | [] => false
  | c :: _ => c = '.' || c = 'e' || c = 'E'

/-- Parses a JSON number restricted to the integer grammar
`-? (0 | [1-9][0-9]*)`; a following `.`, `e` or `E` (a fraction or
exponent, i.e. a non-integer) is outside the model and rejected. -/
def parseIntNumber (cs : List Char) : Option (Int × List Char) :=
  let p : Bool × List Char :=
    match cs with
    | c :: r => if c = '-' then (true, r) else (false, cs)
    | [] => (false, cs)
  match spanDigits p.2 with
  | ([], _) => none
  | (d :: ds, r) =>
      if d = '0' && !ds.isEmpty then none
      else if startsNumExt r then none
      else
        let n : Int := Int.ofNat (digitsToNat (d :: ds) 0)
        some (if p.1 then -n else n, r)

mutual

/-- Fueled recursive-descent model of `JSON.parse` (value). -/
def parseValueF : Nat → List Char → Option (JValue × List Char)
  | 0, _ => none
  | fuel + 1, cs0 =>
      match skipJsonWs cs0 with
      | [] => none
      | c :: rest =>
          if c = '"' then
            match parseStringBody rest with
            | some (content, r) => some (JValue.jstr ⟨content⟩, r)
            | none => none
          else if c = '[' then
            match skipJsonWs rest with
            | ']' :: r2 => some (JValue.jarr [], r2)
            | r => parseArrayItemsF fuel r []
          else if c = '{' then
            match skipJsonWs rest with
            | '}' :: r2 => some (JValue.jobj [], r2)
            | r => parseMembersF fuel r []
          else if c = 't' then
            if startsWithChars ['r', 'u', 'e'] rest then
              some (JValue.jbool true, rest.drop 3)
            else none
          else if c = 'f' then
            if startsWithChars ['a', 'l', 's', 'e'] rest then
              some (JValue.jbool false, rest.drop 4)
            else none
          else if c = 'n' then
            if startsWithChars ['u', 'l', 'l'] rest then
              some (JValue.jnull, rest.drop 3)
            else none
          else
            match parseIntNumber (c :: rest) with
            | some (n, r) => some (JValue.jnum n, r)
            | none => none

/-- Fueled model of `JSON.parse` array items (after `[` when the array is
non-empty, or after a `,`). -/
def parseArrayItemsF : Nat → List Char → List JValue → Option (JValue × List Char)
  | 0, _, _ => none
  | fuel + 1, cs, acc =>
      match parseValueF fuel cs with
      | none => none
      | some (v, r) =>
          match skipJsonWs r with
          | ',' :: r2 => parseArrayItemsF fuel r2 (v :: acc)
          | ']' :: r2 => some (JValue.jarr (v :: acc).reverse, r2)
          | _ => none

/-- Fueled model of `JSON.parse` object members (after `{` when the object
is non-empty, or after a `,`). -/
def parseMembersF : Nat → List Char → List (String × JValue) →
    Option (JValue × List Char)
  | 0, _, _ => none
  | fuel + 1, cs, acc =>
      match skipJsonWs cs with
      | '"' :: cs2 =>
          match parseStringBody cs2 with
          | none => none
          | some (kcs, cs3) =>
              match skipJsonWs cs3 with
              | ':' :: cs4 =>
                  match parseValueF fuel cs4 with
                  | none => none
                  | some (v, cs5) =>
                      let acc' := objInsert acc ⟨kcs⟩ v
                      match skipJsonWs cs5 with
                      | ',' :: cs6 => parseMembersF fuel cs6 acc'
                      | '}' :: cs6 => some (JValue.jobj acc', cs6)
                      | _ => none
              | _ => none
      | _ => none

end

/-- Model of `JSON.parse`: whole-input parse with whitespace tolerated on
both sides.  The fuel `length + 1` is sufficient since every recursion
level consumes input. -/
def jsonParse (s : String) : Option JValue :=
  match parseValueF (s.data.length + 1) s.data with
  | some (v, rest) => if skipJsonWs rest = [] then some v else none
  | none => none


/-- Lowercase hex digit. -/
def hexDigitChar (n : Nat) : Char :=
  if n < 10 then Char.ofNat (48 + n) else Char.ofNat (87 + n)

/-- Decimal digits of a natural number (fuel-based; `fuel = n + 1`
suffices). -/
def natToDigits : Nat → Nat → List Char
  | 0, _ => []
  | fuel + 1, n =>
      if n < 10 then [Char.ofNat (48 + n)]
      else natToDigits fuel (n / 10) ++ [Char.ofNat (48 + n % 10)]

/-- Decimal rendering of a natural number. -/
def renderNat (n : Nat) : List Char := natToDigits (n + 1) n

/-- Decimal rendering of an integer, as JS renders integral numbers. -/
def renderInt (i : Int) : List Char :=
  if i < 0 then '-' :: renderNat i.natAbs else renderNat i.toNat

/-- `JSON.stringify` escaping of one string character. -/
def escapeChar (c : Char) : List Char :=
  if c = '"' then ['\\', '"']
  else if c = '\\' then ['\\', '\\']
  else if c.toNat = 8 then ['\\', 'b']
  else if c.toNat = 12 then ['\\', 'f']
  else if c = '\n' then ['\\', 'n']
  else if c = '\r' then ['\\', 'r']
  else if c = '\t' then ['\\', 't']
  else if c.toNat < 0x20 then
    ['\\', 'u', '0', '0', hexDigitChar (c.toNat / 16), hexDigitChar (c.toNat % 16)]
  else [c]

/-- `JSON.stringify` escaping of a character list. -/
def escapeList : List Char → List Char
  | [] => []
  | c :: rest => escapeChar c ++ escapeList rest

/-- `JSON.stringify` rendering of a string. -/
def renderString (s : String) : List Char := '"' :: (escapeList s.data ++ ['"'])

/-- Indentation at nesting level `n` for `JSON.stringify(…, null, 2)`. -/
def indentChars (n : Nat) : List Char := List.replicate (2 * n) ' '

mutual

/-- Model of `JSON.stringify(v, null, 2)` at nesting level `ind`. -/
def renderV : Nat → JValue → List Char
  | _, JValue.jnull => ['n', 'u', 'l', 'l']
  | _, JValue.jbool true => ['t', 'r', 'u', 'e']
  | _, JValue.jbool false => ['f', 'a', 'l', 's', 'e']
  | _, JValue.jnum n => renderInt n
  | _, JValue.jstr s => renderString s
  | _, JValue.jarr [] => ['[', ']']
  | ind, JValue.jarr (x :: xs) => '[' :: '\n' :: renderItems ind (x :: xs)
  | _, JValue.jobj [] => ['{', '}']
  | ind, JValue.jobj (m :: ms) => '{' :: '\n' :: renderMembers ind (m :: ms)

/-- Items of a non-empty array, each on its own line, with the closing
bracket after the last. -/
def renderItems : Nat → List JValue → List Char
  | _, [] => []
  | ind, [x] =>
      indentChars (ind + 1) ++ (renderV (ind + 1) x ++
        ('\n' :: (indentChars ind ++ [']'])))
  | ind, x :: xs =>
      indentChars (ind + 1) ++ (renderV (ind + 1) x ++
        (',' :: '\n' :: renderItems ind xs))

/-- Members of a non-empty object. -/
def renderMembers : Nat → List (String × JValue) → List Char
  | _, [] => []
  | ind, [(k, v)] =>
      indentChars (ind + 1) ++ (renderString k ++
        (':' :: ' ' :: (renderV (ind + 1) v ++ ('\n' :: (indentChars ind ++ ['}'])))))
  | ind, (k, v) :: ms =>
      indentChars (ind + 1) ++ (renderString k ++
        (':' :: ' ' :: (renderV (ind + 1) v ++ (',' :: '\n' :: renderMembers ind ms))))

end

/-- Model of `JSON.stringify(v, null, 2)`. -/
def jsonStringify (v : JValue) : String := ⟨renderV 0 v⟩

/-- The source's re-indentation `s.split("\n").join("\n  ")`
(`AccountDisabler.ts:89`): two spaces after every newline. -/
def addIndent2 : List Char → List Char
  | [] => []
  | c :: rest =>
      if c = '\n' then '\n' :: ' ' :: ' ' :: addIndent2 rest
      else c :: addIndent2 rest

/-! ### The account disabler

Embeds `disableBannedAccount` (`src/src/util/state/AccountDisabler.ts`,
lines 37–129) as a function from the accounts-file content to the content
after the run.  File discovery is abstracted away (the function operates
on the single accounts file); a thrown error or the already-disabled
early return leaves the content unchanged (no write).  `timestamp` is the
`YYYY-MM-DD` date string the source computes from the clock. -/

/-- The findIndex predicate (`AccountDisabler.ts:49`): a non-null object
whose `email` property is the given string. -/
def accMatchesEmail (email : String) (v : JValue) : Bool :=
  match v with
  | JValue.jobj o =>
      match objGet o "email" with
      | some (JValue.jstr s) => s == email
      | _ => false
  | _ => false

/-- `accountsArray.findIndex(…)`. -/
def findAccountIdx (email : String) : List JValue → Option Nat
  | [] => none
  | v :: vs =>
      if accMatchesEmail email v then some 0
      else (findAccountIdx email vs).map (· + 1)

/-- The already-disabled check (`AccountDisabler.ts:61`):
`acc.enabled === false`. -/
def isDisabled (v : JValue) : Bool :=
  match v with
  | JValue.jobj o =>
      match objGet o "enabled" with
      | some (JValue.jbool false) => true
      | _ => false
  | _ => false

/-- `acc.enabled = false` (`AccountDisabler.ts:73`). -/
def setEnabledFalse (v : JValue) : JValue :=
  match v with
  | JValue.jobj o => JValue.jobj (objInsert o "enabled" (JValue.jbool false))
  | v => v

/-- The inserted comment (`AccountDisabler.ts:77`). -/
def banComment (d reason : String) : String := "// BANNED " ++ d ++ ": " ++ reason

/-- The array-format rebuild loop (`AccountDisabler.ts:83`–95): each
account indented two spaces with the re-indented stringify output, the
ban comment line before account `banIdx`, commas between items. -/
def asmArrayItems (banIdx : Nat) (comment : String) : Nat → List JValue → String
  | _, [] => ""
  | idx, v :: vs =>
      (if idx = banIdx then "  " ++ comment ++ "\n" else "") ++
      ("  " ++ String.mk (addIndent2 (jsonStringify v).data) ++
        (if vs.isEmpty then "" else ",") ++ "\n") ++
      asmArrayItems banIdx comment (idx + 1) vs

/-- Split on newlines (`jsonStr.split("\n")`). -/
def splitLines (s : String) : List String := jsSplit '\n' s

/-- `lines.join("\n")`. -/
def joinNl : List String → String
  | [] => ""
  | [l] => l
  | l :: ls => l ++ "\n" ++ joinNl ls

/-- `line.trim().startsWith("\x7b")` for the account-start search
(`AccountDisabler.ts:113`); an all-whitespace or empty line is falsy or
trims to `""` and fails the check either way. -/
def trimStartsWithBrace (s : String) : Bool :=
  match s.data.dropWhile (fun c => isJsWs c) with
  | '{' :: _ => true
  | _ => false

/-- The first line containing the pattern (`lines.findIndex`). -/
def findLineIdx (pat : String) : List String → Option Nat
  | [] => none
  | l :: ls => if hasSub l pat then some 0 else (findLineIdx pat ls).map (· + 1)

/-- The backward scan from the email line to the opening brace of the
account object (`AccountDisabler.ts:110`–117). -/
def walkBackToBrace (lines : List String) : Nat → Option Nat
  | 0 => if trimStartsWithBrace (lines.getD 0 "") then some 0 else none
  | i + 1 =>
      if trimStartsWithBrace (lines.getD (i + 1) "") then some (i + 1)
      else walkBackToBrace lines i

/-- Leading whitespace of a line (`line.match(/^\s*/)`). -/
def leadingWs (s : String) : String := ⟨s.data.takeWhile (fun c => isJsWs c)⟩

/-- `lines.splice(i, 0, x)`. -/
def insertAt (ls : List String) (i : Nat) (x : String) : List String :=
  ls.take i ++ x :: ls.drop i

/-- The object-format rebuild (`AccountDisabler.ts:96`–126): stringify the
updated object, then insert the ban comment line (with the indentation of
the account's opening-brace line) before the account whose `"email":
"<email>"` line is found; no insertion when that line is absent or first. -/
def objectBranchContent (parsedMembers : List (String × JValue)) (accs2 : List JValue)
    (email d reason : String) : String :=
  let updated := objInsert parsedMembers "accounts" (JValue.jarr accs2)
  let jsonStr := jsonStringify (JValue.jobj updated)
  let lines := splitLines jsonStr
  let pat := "\"email\": \"" ++ email ++ "\""
  match findLineIdx pat lines with
  | some eIdx =>
      if 0 < eIdx then
        let startIdx := (walkBackToBrace lines eIdx).getD eIdx
        let targetLine := lines.getD startIdx ""
        let indent := if leadingWs targetLine = "" then "    " else leadingWs targetLine
        joinNl (insertAt lines startIdx (indent ++ banComment d reason)) ++ "\n"
      else joinNl lines ++ "\n"
  | none => joinNl lines ++ "\n"

/-- Embeds `disableBannedAccount` (`AccountDisabler.ts:37`) as a content
transformer: the accounts-file content after running
`disableBannedAccount(email, reason)` on date `d`.  Thrown errors
(unparsable file, invalid structure, account not found) and the
already-disabled early return write nothing, leaving the content as is. -/
def disableRun (content email d reason : String) : String :=
  let cleaned := stripJsonComments content
  match jsonParse cleaned with
  | none => content
  | some parsed =>
      let fmt : Option (List JValue × Option (List (String × JValue))) :=
        match parsed with
        | JValue.jarr l => some (l, none)
        | JValue.jobj o =>
            match objGet o "accounts" with
            | some (JValue.jarr l) => some (l, some o)
            | _ => none
        | _ => none
      match fmt with
      | none => content
      | some (accs, objForm) =>
          match findAccountIdx email accs with
          | none => content
          | some i =>
              if isDisabled (accs.getD i JValue.jnull) then content
              else
                let accs2 := accs.set i (setEnabledFalse (accs.getD i JValue.jnull))
                match objForm with
                | none => "[\n" ++ asmArrayItems i (banComment d reason) 0 accs2 ++ "]\n"
                | some o => objectBranchContent o accs2 email d reason



/-- The comment-stripped form of the array-format rebuild: the ban-comment
line keeps its two-space indent and newline, everything else is verbatim. -/
def asmStripped (banIdx : Nat) : Nat → List JValue → List Char
  | _, [] => []
  | idx, v :: vs =>
      (if idx = banIdx then [' ', ' ', '\n'] else []) ++
      (' ' :: ' ' :: (addIndent2 (jsonStringify v).data ++
        ((if vs.isEmpty then ([] : List Char) else [',']) ++
          ('\n' :: asmStripped banIdx (idx + 1) vs))))


/-- Naive substring test on character lists (used only to state
comment-preservation properties). -/
def containsSub (pat : List Char) : List Char → Bool
  | [] => pat.isEmpty
  | c :: rest => pat.isPrefixOf (c :: rest) || containsSub pat rest


/-! ### Error-ID (`ErrorId.ts`)

`normalizeForId`'s four regex replaces are embedded as leftmost,
non-overlapping, greedy scanners (the character classes involved make JS
backtracking irrelevant), whitespace collapse and `trim` as state
machines over the JS `\s` set, and `computeErrorId`'s digest as an
executable SHA-256 over bytes (`Nat` mod `2^32`).  `Record` values are
modelled already stringified (the source applies `String(...)`). -/

/-- One expected character. -/
def eatChar (c : Char) : List Char → Option (List Char)
  | x :: r => if x = c then some r else none
  | [] => none

/-- Exactly `n` decimal digits (`\d{n}`). -/
def eatDigitN : Nat → List Char → Option (List Char)
  | 0, l => some l
  | _ + 1, [] => none
  | n + 1, x :: r => if isDigitChar x then eatDigitN n r else none

/-- One or more decimal digits, greedy (`\d+`). -/
def eatDigitsPlus : List Char → Option (List Char)
  | x :: r => if isDigitChar x then some (r.dropWhile isDigitChar) else none
  | [] => none

/-- Hex digit class `[0-9a-fA-F]`. -/
def isHexDigitChar (c : Char) : Bool :=
  isDigitChar c || (97 ≤ c.toNat && c.toNat ≤ 102) || (65 ≤ c.toNat && c.toNat ≤ 70)

/-- One or more hex digits, greedy (`[0-9a-fA-F]+`). -/
def eatHexPlus : List Char → Option (List Char)
  | x :: r => if isHexDigitChar x then some (r.dropWhile isHexDigitChar) else none
  | [] => none

/-- The timestamp pattern
`\d{4}-\d{2}-\d{2}T\d{2}:\d{2}:\d{2}\.\d+Z` at the head of the input
(`ErrorId.ts:13`). -/
def matchTs (l : List Char) : Option (List Char) :=
  (((((((((((((eatDigitN 4 l).bind (eatChar '-')).bind (eatDigitN 2)).bind
    (eatChar '-')).bind (eatDigitN 2)).bind (eatChar 'T')).bind
    (eatDigitN 2)).bind (eatChar ':')).bind (eatDigitN 2)).bind
    (eatChar ':')).bind (eatDigitN 2)).bind (eatChar '.')).bind
    eatDigitsPlus).bind (eatChar 'Z')

/-- Global leftmost non-overlapping replace: wherever `mf` matches, emit
`rep` and continue after the match (fuelled; every matcher below consumes
at least one character, so fuel = input length suffices). -/
def scanReplF (mf : List Char → Option (List Char)) (rep : List Char) :
    Nat → List Char → List Char
  | 0, l => l
  | _ + 1, [] => []
  | fuel + 1, c :: rest =>
      match mf (c :: rest) with
      | some r => rep ++ scanReplF mf rep fuel r
      | none => c :: scanReplF mf rep fuel rest

/-- Pass 1, `t.replace(/\d{4}-\d{2}-\d{2}T\d{2}:\d{2}:\d{2}\.\d+Z/g, "")`. -/
def removeTs (l : List Char) : List Char := scanReplF matchTs [] l.length l

/-- The hex-address pattern `0x[0-9a-fA-F]+` at the head of the input
(`ErrorId.ts:15`). -/
def matchHex (l : List Char) : Option (List Char) :=
  ((eatChar '0' l).bind (eatChar 'x')).bind eatHexPlus

/-- Pass 2, `t.replace(/0x[0-9a-fA-F]+/g, "")`. -/
def removeHex (l : List Char) : List Char := scanReplF matchHex [] l.length l

/-- Letter class `[A-Za-z]`. -/
def isAsciiLetter (c : Char) : Bool :=
  (65 ≤ c.toNat && c.toNat ≤ 90) || (97 ≤ c.toNat && c.toNat ≤ 122)

/-- The JS regex `\s` class. -/
def jsSpace (c : Char) : Bool :=
  c.toNat = 9 || c.toNat = 10 || c.toNat = 11 || c.toNat = 12 || c.toNat = 13 ||
  c.toNat = 32 || c.toNat = 160 || c.toNat = 5760 ||
  (8192 ≤ c.toNat && c.toNat ≤ 8202) || c.toNat = 8232 || c.toNat = 8233 ||
  c.toNat = 8239 || c.toNat = 8287 || c.toNat = 12288 || c.toNat = 65279

/-- Path-tail class `[^\s:]`. -/
def pathTailChar (c : Char) : Bool := !(jsSpace c) && !(c == ':')

/-- The path pattern `(?:[A-Za-z]:\\|\/)(?:[^\s:]*)` at the head of the
input (`ErrorId.ts:17`). -/
def matchPath : List Char → Option (List Char)
  | '/' :: r => some (r.dropWhile pathTailChar)
  | a :: ':' :: '\\' :: r =>
      if isAsciiLetter a then some (r.dropWhile pathTailChar) else none
  | _ => none

/-- Pass 3, `t.replace(/(?:[A-Za-z]:\\|\/)(?:[^\s:]*)/g, "[PATH]")`. -/
def replacePaths (l : List Char) : List Char :=
  scanReplF matchPath ('[' :: 'P' :: 'A' :: 'T' :: 'H' :: ']' :: []) l.length l

/-- The line-column pattern `:\d+(?::\d+)?` at the head of the input
(`ErrorId.ts:19`). -/
def matchLC (l : List Char) : Option (List Char) :=
  match (eatChar ':' l).bind eatDigitsPlus with
  | some r =>
      match (eatChar ':' r).bind eatDigitsPlus with
      | some r2 => some r2
      | none => some r
  | none => none

/-- Pass 4, `t.replace(/:\d+(?::\d+)?/g, "")`. -/
def removeLC (l : List Char) : List Char := scanReplF matchLC [] l.length l

/-- Pass 5, `t.replace(/\s+/g, " ")`: the flag records whether the previous
character was whitespace. -/
def collapseGo : Bool → List Char → List Char
  | _, [] => []
  | b, c :: rest =>
      if jsSpace c then
        if b then collapseGo true rest else ' ' :: collapseGo true rest
      else c :: collapseGo false rest

/-- The `String.prototype.trim` whitespace trim. -/
def jsTrim (l : List Char) : List Char :=
  ((l.dropWhile jsSpace).reverse.dropWhile jsSpace).reverse

/-- Embeds `normalizeForId` (`ErrorId.ts:8`–22): the four regex removals in
source order, then whitespace collapse and trim; the empty string is JS
falsy and short-circuits. -/
def normalizeForId (t : String) : String :=
  if t = "" then ""
  else String.mk (jsTrim (collapseGo false
    (removeLC (replacePaths (removeHex (removeTs t.data))))))

/-- UTF-16 code-unit-order comparison on BMP strings (JS default
`Array.prototype.sort` comparator). -/
def listLeB : List Char → List Char → Bool
  | [], _ => true
  | _ :: _, [] => false
  | a :: as2, b :: bs =>
      if a.toNat < b.toNat then true
      else if b.toNat < a.toNat then false
      else listLeB as2 bs

/-- Insert into a sorted list of strings. -/
def insSorted (x : String) : List String → List String
  | [] => [x]
  | y :: ys => if listLeB x.data y.data then x :: y :: ys else y :: insSorted x ys

/-- Models `Object.keys(...).sort()` (keys are unique, so any stable sorting by
the JS comparator agrees). -/
def sortStr (l : List String) : List String := l.foldr insSorted []

/-- Property lookup on the modelled record. -/
def lookupStr : List (String × String) → String → String
  | [], _ => ""
  | (k, v) :: rest, key => if k = key then v else lookupStr rest key

/-- The `computeErrorId` payload: `context`/`additionalContext` values
are modelled after the source's `String(...)` coercion. -/
structure ErrorPayload where
  error : Option String
  stack : Option String
  context : List (String × String)
  additionalContext : List (String × String)

/-- The `parts` array (`ErrorId.ts:35`–46): normalized error, normalized
stack when truthy, sorted `context` entries with the `timestamp` key
filtered out, then sorted `additionalContext` entries. -/
def payloadParts (p : ErrorPayload) : List String :=
  [normalizeForId (p.error.getD "")] ++
  ((match p.stack with
    | some s => if s = "" then [] else [normalizeForId s]
    | none => []) ++
  (((sortStr ((p.context.map Prod.fst).filter (fun k => !(k == "timestamp")))).map
    (fun k => k ++ "=" ++ lookupStr p.context k)) ++
  ((sortStr (p.additionalContext.map Prod.fst)).map
    (fun k => k ++ "=" ++ lookupStr p.additionalContext k))))

/-- The canonical string `parts.join("|")`. -/
def canonicalOf (p : ErrorPayload) : String :=
  String.intercalate "|" (payloadParts p)

/-- UTF-8 encoding of one code point. -/
def utf8Char (n : Nat) : List Nat :=
  if n < 128 then [n]
  else if n < 2048 then [192 + n / 64, 128 + n % 64]
  else if n < 65536 then [224 + n / 4096, 128 + (n / 64) % 64, 128 + n % 64]
  else [240 + n / 262144, 128 + (n / 4096) % 64, 128 + (n / 64) % 64, 128 + n % 64]

/-- UTF-8 bytes of a string (`crypto.update` default encoding). -/
def utf8Bytes (l : List Char) : List Nat :=
  l.foldr (fun c acc => utf8Char c.toNat ++ acc) []

/-- Reduction modulo `2^32`. -/
def m32 (n : Nat) : Nat := n % 4294967296

/-- 32-bit rotate right (argument below `2^32`). -/
def rotr32 (n x : Nat) : Nat := (x >>> n) + m32 (x <<< (32 - n))

/-- 32-bit complement. -/
def not32 (x : Nat) : Nat := 4294967295 - x

/-- SHA-256 `Σ0`. -/
def bigSigma0 (x : Nat) : Nat := rotr32 2 x ^^^ (rotr32 13 x ^^^ rotr32 22 x)

/-- SHA-256 `Σ1`. -/
def bigSigma1 (x : Nat) : Nat := rotr32 6 x ^^^ (rotr32 11 x ^^^ rotr32 25 x)

/-- SHA-256 `σ0`. -/
def smallSigma0 (x : Nat) : Nat := rotr32 7 x ^^^ (rotr32 18 x ^^^ (x >>> 3))

/-- SHA-256 `σ1`. -/
def smallSigma1 (x : Nat) : Nat := rotr32 17 x ^^^ (rotr32 19 x ^^^ (x >>> 10))

/-- SHA-256 `Ch`. -/
def ch32 (e f g : Nat) : Nat := (e &&& f) ^^^ (not32 e &&& g)

/-- SHA-256 `Maj`. -/
def maj32 (a b c : Nat) : Nat := (a &&& b) ^^^ ((a &&& c) ^^^ (b &&& c))

/-- The SHA-256 round constants. -/
def sha256K : List Nat :=
[
  1116352408, 1899447441, 3049323471, 3921009573,
  961987163, 1508970993, 2453635748, 2870763221,
  3624381080, 310598401, 607225278, 1426881987,
  1925078388, 2162078206, 2614888103, 3248222580,
  3835390401, 4022224774, 264347078, 604807628,
  770255983, 1249150122, 1555081692, 1996064986,
  2554220882, 2821834349, 2952996808, 3210313671,
  3336571891, 3584528711, 113926993, 338241895,
  666307205, 773529912, 1294757372, 1396182291,
  1695183700, 1986661051, 2177026350, 2456956037,
  2730485921, 2820302411, 3259730800, 3345764771,
  3516065817, 3600352804, 4094571909, 275423344,
  430227734, 506948616, 659060556, 883997877,
  958139571, 1322822218, 1537002063, 1747873779,
  1955562222, 2024104815, 2227730452, 2361852424,
  2428436474, 2756734187, 3204031479, 3329325298
]

/-- SHA-256 working state. -/
structure Hash8 where
  a : Nat
  b : Nat
  c : Nat
  d : Nat
  e : Nat
  f : Nat
  g : Nat
  h : Nat

/-- The SHA-256 initial hash value. -/
def sha256init : Hash8 :=
  ⟨1779033703, 3144134277, 1013904242, 2773480762,
   1359893119, 2600822924, 528734635, 1541459225⟩

/-- One SHA-256 compression round. -/
def sha256round (st : Hash8) (kw : Nat × Nat) : Hash8 :=
  let t1 := m32 (st.h + bigSigma1 st.e + ch32 st.e st.f st.g + kw.1 + kw.2)
  let t2 := m32 (bigSigma0 st.a + maj32 st.a st.b st.c)
  ⟨m32 (t1 + t2), st.a, st.b, st.c, m32 (st.d + t1), st.e, st.f, st.g⟩

/-- Message-schedule extension by `k` further words. -/
def sha256schedule (w : List Nat) : Nat → List Nat
  | 0 => w
  | k + 1 =>
      let w2 := sha256schedule w k
      w2 ++ [m32 (smallSigma1 (w2.getD (w2.length - 2) 0) +
        w2.getD (w2.length - 7) 0 +
        smallSigma0 (w2.getD (w2.length - 15) 0) +
        w2.getD (w2.length - 16) 0)]

/-- Compression of one 16-word block. -/
def sha256compress (st : Hash8) (block : List Nat) : Hash8 :=
  let ws := sha256schedule block 48
  let r := (List.zip sha256K ws).foldl sha256round st
  ⟨m32 (st.a + r.a), m32 (st.b + r.b), m32 (st.c + r.c), m32 (st.d + r.d),
   m32 (st.e + r.e), m32 (st.f + r.f), m32 (st.g + r.g), m32 (st.h + r.h)⟩

/-- Big-endian 64-bit byte rendering of a message bit length. -/
def lenBytes8 (n : Nat) : List Nat :=
  [(n >>> 56) % 256, (n >>> 48) % 256, (n >>> 40) % 256, (n >>> 32) % 256,
   (n >>> 24) % 256, (n >>> 16) % 256, (n >>> 8) % 256, n % 256]

/-- SHA-256 padding. -/
def padBytes (msg : List Nat) : List Nat :=
  msg ++ (128 :: List.replicate ((64 - ((msg.length + 9) % 64)) % 64) 0) ++
    lenBytes8 (8 * msg.length)

/-- Big-endian 32-bit words from bytes. -/
def toWords : List Nat → List Nat
  | b0 :: b1 :: b2 :: b3 :: rest =>
      (((b0 * 256 + b1) * 256 + b2) * 256 + b3) :: toWords rest
  | _ => []

/-- 16-word blocks (fuelled). -/
def toBlocksF : Nat → List Nat → List (List Nat)
  | 0, _ => []
  | _ + 1, [] => []
  | fuel + 1, w :: ws => (w :: ws).take 16 :: toBlocksF fuel ((w :: ws).drop 16)

/-- The SHA-256 digest state of a byte message. -/
def sha256words (msg : List Nat) : Hash8 :=
  (toBlocksF (padBytes msg).length (toWords (padBytes msg))).foldl
    sha256compress sha256init

/-- Eight lowercase hex digits of a 32-bit word. -/
def toHex8 (w : Nat) : List Char :=
  [hexDigitChar ((w >>> 28) % 16), hexDigitChar ((w >>> 24) % 16),
   hexDigitChar ((w >>> 20) % 16), hexDigitChar ((w >>> 16) % 16),
   hexDigitChar ((w >>> 12) % 16), hexDigitChar ((w >>> 8) % 16),
   hexDigitChar ((w >>> 4) % 16), hexDigitChar (w % 16)]

/-- Lowercase hex SHA-256 digest (`digest("hex")`). -/
def sha256hex (msg : List Nat) : List Char :=
  let s := sha256words msg
  toHex8 s.a ++ (toHex8 s.b ++ (toHex8 s.c ++ (toHex8 s.d ++
    (toHex8 s.e ++ (toHex8 s.f ++ (toHex8 s.g ++ toHex8 s.h))))))

/-- Embeds `computeErrorId` (`ErrorId.ts:27`–54): first 12 hex digits of the
SHA-256 of the canonical string. -/
def computeErrorId (p : ErrorPayload) : String :=
  String.mk ((sha256hex (utf8Bytes (canonicalOf p).data)).take 12)

/-- Spec-modelled (claim C8's "ISO timestamps"): an ISO-8601 UTC
timestamp `YYYY-MM-DDThh:mm:ssZ` with optional fractional seconds.  The
source's regex, by contrast, requires the fractional part. -/
def specIsoTimestamp (s : String) : Bool :=
  match ((((((((((eatDigitN 4 s.data).bind (eatChar '-')).bind
      (eatDigitN 2)).bind (eatChar '-')).bind (eatDigitN 2)).bind
      (eatChar 'T')).bind (eatDigitN 2)).bind (eatChar ':')).bind
      (eatDigitN 2)).bind (eatChar ':')).bind (eatDigitN 2) with
  | some r =>
      (r == ['Z']) ||
      (match (eatChar '.' r).bind eatDigitsPlus with
       | some r2 => r2 == ['Z']
       | none => false)
  | none => false


/-- Context characters that cannot start or extend any of the four
patterns: no decimal or hex digit, no `x`/`X`, and none of
`-`, `/`, `\\`, `:`. -/
def inertChar (c : Char) : Bool :=
  !(isHexDigitChar c) && !(c == 'x') && !(c == 'X') && !(c == '-') &&
  !(c == '/') && !(c == '\\') && !(c == ':')

/-- All characters inert. -/
def inertStr (s : String) : Bool := s.data.all inertChar

/-- Empty, or starting with JS whitespace (ends a path match). -/
def headWsNil (s : String) : Bool :=
  match s.data with
  | [] => true
  | c :: _ => jsSpace c

/-- Empty, or the head fails the class test. -/
def headNotB (p : Char → Bool) : List Char → Bool
  | [] => true
  | c :: _ => !(p c)

/-- Path text free of digits and dashes (keeps the earlier passes away). -/
def pathPlain (s : String) : Bool :=
  s.data.all (fun c => !(isDigitChar c) && !(c == '-'))

/-- Starts with `:` then `\\` (the only way a path match can begin past
its first character). -/
def colonBS : List Char → Bool
  | ':' :: '\\' :: _ => true
  | _ => false


/-! ### Parser-correctness apparatus

`RL n v s` relates a JSON value to a character string that
`parseValueF` parses to it (with fuel above `n`): the exact
`JSON.stringify` output and every variant with extra inter-token
whitespace.  `RLitems`/`RLmembers` cover the tail of a non-empty array or
object including the closing bracket. -/

/-- All characters are JSON whitespace. -/
def wsOnly (l : List Char) : Prop := ∀ c ∈ l, isJsonWs c = true

/-- The remainder after a value must not start with a character that
would extend a numeric token (digit, fraction or exponent marker). -/
def numStop : List Char → Prop
  | [] => True
  | c :: _ => isDigitChar c = false ∧ c ≠ '.' ∧ c ≠ 'e' ∧ c ≠ 'E'

mutual

inductive RL : Nat → JValue → List Char → Prop where
  | rnull (n : Nat) : RL n JValue.jnull ['n', 'u', 'l', 'l']
  | rtrue (n : Nat) : RL n (JValue.jbool true) ['t', 'r', 'u', 'e']
  | rfalse (n : Nat) : RL n (JValue.jbool false) ['f', 'a', 'l', 's', 'e']
  | rnum (n : Nat) (i : Int) : RL n (JValue.jnum i) (renderInt i)
  | rstr (n : Nat) (s : String) : RL n (JValue.jstr s) (renderString s)
  | rarrEmpty (n : Nat) (w : List Char) (hw : wsOnly w) :
      RL n (JValue.jarr []) ('[' :: (w ++ [']']))
  | rarr (n : Nat) (vs : List JValue) (s : List Char)
      (hi : RLitems n vs s) : RL (n + 1) (JValue.jarr vs) ('[' :: s)
  | robjEmpty (n : Nat) (w : List Char) (hw : wsOnly w) :
      RL n (JValue.jobj []) ('{' :: (w ++ ['}']))
  | robj (n : Nat) (ms : List (String × JValue)) (s : List Char)
      (hm : RLmembers n ms s) (hnd : insertList [] ms = ms) :
      RL (n + 1) (JValue.jobj ms) ('{' :: s)

inductive RLitems : Nat → List JValue → List Char → Prop where
  | rlast (n : Nat) (v : JValue) (s w0 w1 : List Char)
      (hv : RL n v s) (h0 : wsOnly w0) (h1 : wsOnly w1) :
      RLitems (n + 1) [v] (w0 ++ (s ++ (w1 ++ [']'])))
  | rcons (n : Nat) (v : JValue) (vs : List JValue) (s w0 w1 r : List Char)
      (hv : RL n v s) (h0 : wsOnly w0) (h1 : wsOnly w1)
      (hr : RLitems n vs r) :
      RLitems (n + 1) (v :: vs) (w0 ++ (s ++ (w1 ++ (',' :: r))))

inductive RLmembers : Nat → List (String × JValue) → List Char → Prop where
  | rlast (n : Nat) (k : String) (v : JValue) (s w0 w1 w2 w3 : List Char)
      (hv : RL n v s) (h0 : wsOnly w0) (h1 : wsOnly w1) (h2 : wsOnly w2)
      (h3 : wsOnly w3) :
      RLmembers (n + 1) [(k, v)]
        (w0 ++ (renderString k ++ (w1 ++ (':' :: (w2 ++ (s ++ (w3 ++ ['}'])))))))
  | rcons (n : Nat) (k : String) (v : JValue) (ms : List (String × JValue))
      (s w0 w1 w2 w3 r : List Char)
      (hv : RL n v s) (h0 : wsOnly w0) (h1 : wsOnly w1) (h2 : wsOnly w2)
      (h3 : wsOnly w3) (hr : RLmembers n ms r) :
      RLmembers (n + 1) ((k, v) :: ms)
        (w0 ++ (renderString k ++ (w1 ++ (':' :: (w2 ++ (s ++ (w3 ++ (',' :: r))))))))

end


/-- Pairwise-distinct member keys. -/
def keysNodup (ms : List (String × JValue)) : Prop :=
  List.Pairwise (fun a b => a.1 ≠ b.1) ms

/-- Well-formedness invariant of values produced by the parser: in every
object, re-accumulating the members by `objInsert` is the identity
(equivalently, the keys are pairwise distinct at every level). -/
inductive Jwf : JValue → Prop where
  | null : Jwf JValue.jnull
  | bool (b : Bool) : Jwf (JValue.jbool b)
  | num (i : Int) : Jwf (JValue.jnum i)
  | str (s : String) : Jwf (JValue.jstr s)
  | arr (l : List JValue) (h : ∀ v ∈ l, Jwf v) : Jwf (JValue.jarr l)
  | obj (ms : List (String × JValue)) (hnd : insertList [] ms = ms)
      (h : ∀ m ∈ ms, Jwf m.2) : Jwf (JValue.jobj ms)

end RewardsBot

namespace RewardsBot

/-! ## Theorems -/

/-- Bounds for a `secureRandomFloat` draw with ordered endpoints. -/
theorem secureRandomFloat_bounds (a b : ℚ) (r : UnitDraw) (h : a ≤ b) :
    a ≤ secureRandomFloat a b r ∧ secureRandomFloat a b r ≤ b := by
  have hr := r.2
  have hnb : ¬ b < a := not_lt.mpr h
  simp only [secureRandomFloat, hnb, if_false]
  constructor <;> nlinarith [hr.1, hr.2]

/-- A scroll step never exceeds the current remaining amount. -/
theorem scrollStep_le (remaining : Nat) (r : UnitDraw) :
    scrollStep remaining r ≤ remaining := by
  have hf := secureRandomFloat_bounds (3/10) (6/10) r (by norm_num)
  have hnn : (0 : ℚ) ≤ (remaining : ℚ) := by positivity
  have hlt : (remaining : ℚ) * secureRandomFloat (3/10) (6/10) r + 1/2 <
      (remaining : ℚ) + 1 := by nlinarith [hf.1, hf.2]
  have hfl : jsRound ((remaining : ℚ) * secureRandomFloat (3/10) (6/10) r) <
      (remaining : ℤ) + 1 := by
    rw [jsRound, Int.floor_lt]
    push_cast
    linarith
  simp only [scrollStep]
  omega

/-- A scroll step is at least 3 while the remaining amount exceeds 10:
this is what makes the inertia loop terminate. -/
theorem scrollStep_ge_three (remaining : Nat) (r : UnitDraw) (h : 10 < remaining) :
    3 ≤ scrollStep remaining r := by
  have hf := secureRandomFloat_bounds (3/10) (6/10) r (by norm_num)
  have hrem : (11 : ℚ) ≤ (remaining : ℚ) := by exact_mod_cast h
  have h3 : (3 : ℤ) ≤ jsRound ((remaining : ℚ) * secureRandomFloat (3/10) (6/10) r) := by
    rw [jsRound, Int.le_floor]
    push_cast
    nlinarith [hf.1]
  simp only [scrollStep]
  omega

/-- The inertia loop conserves the total magnitude: pushed deltas plus the
final remaining equal the input. -/
theorem scrollLoop_sum (decays : Nat → UnitDraw) :
    ∀ remaining k, (scrollLoop decays k remaining).1.sum +
      (scrollLoop decays k remaining).2 = remaining := by
  intro remaining
  induction remaining using Nat.strong_induction_on with
  | _ remaining ih =>
      intro k
      rw [scrollLoop]
      by_cases h : 10 < remaining
      · have hle := scrollStep_le remaining (decays k)
        have hge := scrollStep_ge_three remaining (decays k) h
        have hlt : remaining - scrollStep remaining (decays k) < remaining := by omega
        have := ih _ hlt (k + 1)
        simp only [h, dif_pos, List.sum_cons]
        omega
      · simp [h]

/-- Sum of sign-adjusted deltas. -/
theorem sum_map_cast_mul (l : List Nat) (dir : ℤ) :
    (l.map (fun d : Nat => (d : ℤ) * dir)).sum = (l.sum : ℤ) * dir := by
  induction l with
  | nil => simp
  | cons x xs ih =>
      simp only [List.map_cons, List.sum_cons, ih]
      push_cast
      ring

/-- Claim C10: `generateScrollPath` returns `[totalDelta]` when
`smooth = false`; for every sequence of draws the smooth deltas sum
exactly to `totalDelta` (magnitude and sign preserved); and every inertia
iteration reduces the remaining magnitude by at least 3 (and at most
`remaining`) while it exceeds 10, which makes the loop terminate. -/
theorem generateScrollPath_spec (t : ℤ) (p0 : UnitDraw) (decays : Nat → UnitDraw) :
    generateScrollPath t false p0 decays = [t] ∧
    (generateScrollPath t true p0 decays).sum = t ∧
    (∀ (r : Nat) (d : UnitDraw), 10 < r →
      3 ≤ scrollStep r d ∧ scrollStep r d ≤ r) := by
  refine ⟨rfl, ?_, fun r d hr => ⟨scrollStep_ge_three r d hr, scrollStep_le r d⟩⟩
  have hRdir : ((t.natAbs : ℤ)) * jsSign t = t := by
    rcases lt_trichotomy t 0 with h | h | h
    · have h' : ¬ (0 : ℤ) < t := by omega
      simp only [jsSign, h, h', if_neg, not_false_iff, if_pos, if_false]
      omega
    · simp [h, jsSign]
    · have h' : ¬ t < 0 := by omega
      simp only [jsSign, h, if_pos]
      omega
  simp only [generateScrollPath, Bool.true_eq_false, if_false, List.sum_cons,
    List.sum_append, sum_map_cast_mul]
  set R := t.natAbs with hR
  set dir := jsSign t with hdir
  set I := (jsRound ((R : ℚ) * secureRandomFloat (4/10) (6/10) p0)).toNat with hI
  have hIle : I ≤ R := by
    have hf := secureRandomFloat_bounds (4/10) (6/10) p0 (by norm_num)
    have hnn : (0 : ℚ) ≤ (R : ℚ) := by positivity
    have hlt : jsRound ((R : ℚ) * secureRandomFloat (4/10) (6/10) p0) < (R : ℤ) + 1 := by
      rw [jsRound, Int.floor_lt]
      push_cast
      nlinarith [hf.1, hf.2]
    omega
  have hsum := scrollLoop_sum decays (R - I) 0
  set S := (scrollLoop decays 0 (R - I)).1.sum with hS
  set F := (scrollLoop decays 0 (R - I)).2 with hF
  have hnat : I + S + F = R := by omega
  by_cases hpos : 0 < F
  · simp only [hpos, if_pos, List.sum_singleton]
    calc (I : ℤ) * dir + (S : ℤ) * dir + (F : ℤ) * dir
        = ((I + S + F : ℕ) : ℤ) * dir := by push_cast; ring
      _ = t := by rw [hnat, hR, hdir]; exact hRdir

  · have hF0 : F = 0 := by omega
    simp only [hpos, if_neg, not_false_iff, List.sum_nil, add_zero]
    calc (I : ℤ) * dir + (S : ℤ) * dir
        = ((I + S + F : ℕ) : ℤ) * dir := by rw [hF0]; push_cast; ring
      _ = t := by rw [hnat, hR, hdir]; exact hRdir

/-- Witness for claim C10 at concrete draws: total delta 100 splits and
sums back to 100, and at remaining 11 the step is at least 3. -/
theorem generateScrollPath_spec_witness :
    (generateScrollPath 100 true ⟨1/2, by norm_num⟩
      (fun _ => ⟨0, by norm_num⟩)).sum = 100 ∧
    3 ≤ scrollStep 11 ⟨0, by norm_num⟩ :=
  ⟨(generateScrollPath_spec 100 ⟨1/2, by norm_num⟩ (fun _ => ⟨0, by norm_num⟩)).2.1,
   ((generateScrollPath_spec 100 ⟨1/2, by norm_num⟩ (fun _ => ⟨0, by norm_num⟩)).2.2
      11 ⟨0, by norm_num⟩ (by norm_num)).1⟩

/-- The claim loop issues at most `fuel` requests. -/
theorem r2eGo_count_le (responses : Nat → ℤ) (draws : Nat → UnitDraw) (a b : ℚ) :
    ∀ (fuel i : Nat) (bal : ℤ), (r2eGo responses draws a b fuel i bal).1 ≤ fuel := by
  intro fuel
  induction fuel with
  | zero => intro i bal; simp [r2eGo]
  | succ fuel ih =>
      intro i bal
      simp only [r2eGo]
      by_cases h : responses i = bal
      · simp [h]
      · simpa [h] using ih (i + 1) (responses i)

/-- `firstUnchanged` never returns an index below its starting index. -/
theorem firstUnchanged_ge (responses : Nat → ℤ) :
    ∀ (fuel i : Nat) (bal : ℤ) (k : Nat),
      firstUnchanged responses fuel i bal = some k → i ≤ k := by
  intro fuel
  induction fuel with
  | zero => intro i bal k h; simp [firstUnchanged] at h
  | succ fuel ih =>
      intro i bal k h
      simp only [firstUnchanged] at h
      by_cases hi : responses i = bal
      · simp [hi] at h; omega
      · simp only [hi, if_neg, not_false_iff] at h
        have := ih (i + 1) (responses i) k h
        omega

/-- The number of requests is determined by the first unchanged balance. -/
theorem r2eGo_count_eq (responses : Nat → ℤ) (draws : Nat → UnitDraw) (a b : ℚ) :
    ∀ (fuel i : Nat) (bal : ℤ),
      (r2eGo responses draws a b fuel i bal).1 =
        (match firstUnchanged responses fuel i bal with
          | some k => k - i + 1
          | none => fuel) := by
  intro fuel
  induction fuel with
  | zero => intro i bal; simp [r2eGo, firstUnchanged]
  | succ fuel ih =>
      intro i bal
      by_cases h : responses i = bal
      · simp [r2eGo, firstUnchanged, h]
      · simp only [r2eGo, firstUnchanged, if_neg h]
        rw [ih (i + 1) (responses i)]
        rcases hfu : firstUnchanged responses fuel (i + 1) (responses i) with _ | k
        · simp
        · have hk := firstUnchanged_ge responses fuel (i + 1) (responses i) k hfu
          show k - (i + 1) + 1 + 1 = k - i + 1
          omega

/-- Bounds for a floored uniform draw between integer endpoints. -/
theorem jsFloor_randomNumber_bounds (a b : ℤ) (r : UnitDraw) (h : a ≤ b) :
    a ≤ jsFloor (randomNumberModel (a : ℚ) (b : ℚ) r) ∧
      jsFloor (randomNumberModel (a : ℚ) (b : ℚ) r) ≤ b := by
  have hr := r.2
  have hab : (0 : ℚ) ≤ (b : ℚ) - (a : ℚ) := by
    have : (a : ℚ) ≤ (b : ℚ) := by exact_mod_cast h
    linarith
  have hlo : (a : ℚ) ≤ randomNumberModel (a : ℚ) (b : ℚ) r := by
    simp only [randomNumberModel]
    nlinarith [hr.1]
  have hhi : randomNumberModel (a : ℚ) (b : ℚ) r ≤ (b : ℚ) := by
    simp only [randomNumberModel]
    nlinarith [hr.1, hr.2]
  constructor
  · rw [jsFloor, Int.le_floor]
    exact_mod_cast hlo
  · rw [jsFloor]
    have := Int.floor_mono hhi
    simpa using this

/-- Every recorded delay is within the configured bounds. -/
theorem r2eGo_delays_bounds (responses : Nat → ℤ) (draws : Nat → UnitDraw) (a b : ℤ)
    (hab : a ≤ b) :
    ∀ (fuel i : Nat) (bal : ℤ) (d : ℤ),
      d ∈ (r2eGo responses draws (a : ℚ) (b : ℚ) fuel i bal).2 → a ≤ d ∧ d ≤ b := by
  intro fuel
  induction fuel with
  | zero => intro i bal d hd; simp [r2eGo] at hd
  | succ fuel ih =>
      intro i bal d hd
      by_cases h : responses i = bal
      · simp [r2eGo, h] at hd
      · simp only [r2eGo, h, if_neg, not_false_iff, List.mem_cons] at hd
        rcases hd with rfl | hd
        · exact jsFloor_randomNumber_bounds a b (draws i) hab
        · exact ih (i + 1) (responses i) d hd

/-- Claim C9: `doReadToEarn` issues at most 10 article-claim requests,
stops as soon as a post-claim balance equals the pre-claim balance (the
request count is exactly `k+1` where `k` is the first unchanged index, or
10 when no balance repeats), and every inter-claim delay lies within the
configured `searchDelay` range. -/
theorem doReadToEarn_spec (responses : Nat → ℤ) (draws : Nat → UnitDraw)
    (a b : ℤ) (b0 : ℤ) (hab : a ≤ b) (res : Nat × List ℤ)
    (hres : res = doReadToEarn responses draws (a : ℚ) (b : ℚ) b0) :
    res.1 ≤ articleCount ∧
    res.1 = (match firstUnchanged responses articleCount 0 b0 with
      | some k => k + 1
      | none => articleCount) ∧
    (∀ d ∈ res.2, a ≤ d ∧ d ≤ b) := by
  subst hres
  refine ⟨r2eGo_count_le responses draws (a : ℚ) (b : ℚ) articleCount 0 b0, ?_, ?_⟩
  · rw [doReadToEarn, r2eGo_count_eq]
    rcases firstUnchanged responses articleCount 0 b0 with _ | k <;> simp
  · intro d hd
    exact r2eGo_delays_bounds responses draws a b hab articleCount 0 b0 d hd

/-- Witness for claim C9: balances 1,2,3 then unchanged — exactly four
requests, delays pinned at 3000 ms. -/
theorem doReadToEarn_spec_witness :
    (doReadToEarn (fun i => if i < 3 then (i : ℤ) + 1 else 3)
      (fun _ => ⟨0, by norm_num⟩) ((3000 : ℤ) : ℚ) ((3000 : ℤ) : ℚ) 0).1 = 4 ∧
    ∀ d ∈ (doReadToEarn (fun i => if i < 3 then (i : ℤ) + 1 else 3)
      (fun _ => ⟨0, by norm_num⟩) ((3000 : ℤ) : ℚ) ((3000 : ℤ) : ℚ) 0).2,
        (3000 : ℤ) ≤ d ∧ d ≤ 3000 := by
  have h := doReadToEarn_spec (fun i => if i < 3 then (i : ℤ) + 1 else 3)
    (fun _ => ⟨0, by norm_num⟩) 3000 3000 0 le_rfl _ rfl
  refine ⟨?_, h.2.2⟩
  rw [h.2.1]
  decide

/-- Character-list prefix test agrees with `List.take`. -/
theorem startsWithChars_iff :
    ∀ (n h : List Char), startsWithChars n h = true ↔ h.take n.length = n := by
  intro n
  induction n with
  | nil => intro h; simp [startsWithChars]
  | cons c cs ih =>
      intro h
      cases h with
      | nil => simp [startsWithChars]
      | cons d ds =>
          simp only [startsWithChars, List.length_cons, List.take_succ_cons,
            Bool.and_eq_true, decide_eq_true_eq, List.cons.injEq, ih]
          tauto

/-- Claim C6: for well-formed references, the recovery consistency check
accepts iff some reference (the recovery email or the account email) has
the observed domain exactly and a prefix match that is strict for a
2-character visible prefix and first-character-only for a 1-character
visible prefix; and on no match the critical incident is raised, global
standby engaged and the docs tab opened. -/
theorem recovery_check_accepts_iff (re ae op od : String) (out : RecoveryOutcome)
    (hre : hasSub re "@" = true)
    (hd1 : (parseRef re).domain ≠ "") (hp1 : (parseRef re).prefix2 ≠ "")
    (hd2 : (parseRef ae).domain ≠ "") (hp2 : (parseRef ae).prefix2 ≠ "")
    (hop : op.length = 1 ∨ op.length = 2)
    (hout : out = detectAndHandleRecoveryMismatch (some re) ae op od) :
    (out.matched.isSome = true ↔
      ∃ r ∈ [parseRef re, parseRef ae], r.domain = od ∧
        ((op.length = 2 → r.prefix2 = op) ∧
         (op.length = 1 → r.prefix2.data.take 1 = op.data))) ∧
    (out.matched = none →
      out.incidentRaised = true ∧ out.standbyEngaged = true ∧ out.docsTabOpened = true) ∧
    (out.matched.isSome = true →
      out.incidentRaised = false ∧ out.standbyEngaged = false ∧
        out.docsTabOpened = false) := by
  have hrefs : buildRefs re ae = [parseRef re, parseRef ae] := by
    simp [buildRefs, hd1, hp1, hd2, hp2]
  have hpred : ∀ r : RecoveryRef,
      ((r.domain == od &&
        (if op.length = 1 then jsStartsWith r.prefix2 op else r.prefix2 == op)) = true) ↔
      (r.domain = od ∧
        ((op.length = 2 → r.prefix2 = op) ∧
         (op.length = 1 → r.prefix2.data.take 1 = op.data))) := by
    intro r
    rcases hop with h1 | h2
    · have : op.data.length = 1 := h1
      simp [h1, jsStartsWith, startsWithChars_iff, this]
    · have hne : op.length ≠ 1 := by omega
      simp [h2, hne]
  subst hout
  simp only [detectAndHandleRecoveryMismatch, hre, not_true, if_false, hrefs,
    if_neg (by simp : ¬([parseRef re, parseRef ae] = ([] : List RecoveryRef)))]
  rcases hfind : findMatchRef [parseRef re, parseRef ae] op od with _ | r
  · have hnone : ∀ r ∈ [parseRef re, parseRef ae],
        ¬ (r.domain = od ∧
          ((op.length = 2 → r.prefix2 = op) ∧
           (op.length = 1 → r.prefix2.data.take 1 = op.data))) := by
      intro r hr hc
      have := List.find?_eq_none.mp hfind r hr
      exact this ((hpred r).mpr hc)
    refine ⟨?_, ?_, ?_⟩
    · simp only [Option.isSome_none]
      constructor
      · intro h; exact absurd h (by simp)
      · rintro ⟨r, hr, hc⟩; exact absurd hc (hnone r hr)
    · intro _; exact ⟨rfl, rfl, rfl⟩
    · intro h; exact absurd h (by simp)
  · have hmem := List.mem_of_find?_eq_some hfind
    have hsat := List.find?_some hfind
    refine ⟨?_, ?_, ?_⟩
    · simp only [Option.isSome_some, true_iff]
      exact ⟨r, hmem, (hpred r).mp hsat⟩
    · intro h; exact absurd h (by simp)
    · intro _; exact ⟨rfl, rfl, rfl⟩

/-- Witness for the C6 theorem: recovery email `ko****@domain.tld`, account
`a@x.com`, observed mask `ko**@domain.tld` (two visible characters). -/
theorem recovery_check_accepts_iff_witness :
    (detectAndHandleRecoveryMismatch (some "kovacs@domain.tld") "a@x.com" "ko"
      "domain.tld").matched.isSome = true :=
  (recovery_check_accepts_iff "kovacs@domain.tld" "a@x.com" "ko" "domain.tld" _
    (by decide) (by decide) (by decide) (by decide) (by decide) (Or.inr (by decide))
    rfl).1.mpr
    ⟨parseRef "kovacs@domain.tld", by decide, by decide⟩

/-- Length of the processed session equals the input length. -/
theorem runBanSession_length (now : Nat) :
    ∀ (st : BanMonitoringState) (ss : List Severity),
      (runBanSession now st ss).length = ss.length := by
  intro st ss
  induction ss generalizing st with
  | nil => rfl
  | cons s ss ih => simpa [runBanSession] using ih _

/-- The warning counter after a step grows by one exactly on
warning/soft-ban verdicts. -/
theorem handleBanDetection_warningCount (now : Nat) (st : BanMonitoringState)
    (s : Severity) :
    (handleBanDetection now st s).1.warningCount =
      st.warningCount + (if s = Severity.warning ∨ s = Severity.softBan then 1 else 0) := by
  cases s <;> simp [handleBanDetection]

/-- Generalized form of claim C3 over an arbitrary starting state: a
warning verdict at position `i` is escalated to soft-ban iff the warning
counter, after counting it, is at least 3. -/
theorem runBanSession_warning_iff (now : Nat) :
    ∀ (ss : List Severity) (st : BanMonitoringState) (i : Nat),
      i < ss.length →
      ss.getD i Severity.none = Severity.warning →
      ((runBanSession now st ss).getD i Severity.none = Severity.softBan ↔
        3 ≤ st.warningCount + countWarnLike (ss.take (i + 1))) := by
  intro ss
  induction ss with
  | nil => intro st i h; simp at h
  | cons s ss ih =>
      intro st i hlen hwarn
      cases i with
      | zero =>
          simp only [List.getD_cons_zero] at hwarn
          subst hwarn
          by_cases h3 : 3 ≤ st.warningCount + 1 <;>
            simp [runBanSession, handleBanDetection, countWarnLike, h3]
      | succ i =>
          simp only [List.getD_cons_succ] at hwarn
          have hlen' : i < ss.length := by simpa using Nat.lt_of_succ_lt_succ hlen
          have := ih (handleBanDetection now st s).1 i hlen' hwarn
          simp only [runBanSession, List.getD_cons_succ, List.take_succ_cons]
          rw [this, handleBanDetection_warningCount]
          have hcount : countWarnLike (s :: ss.take (i + 1)) =
              (if s = Severity.warning ∨ s = Severity.softBan then 1 else 0) +
                countWarnLike (ss.take (i + 1)) := by
            cases s <;> simp [countWarnLike] <;> omega
          rw [hcount]
          omega

/-- Claim C3: in a fresh session, a warning-severity verdict is escalated to
soft-ban iff, after counting it, at least 3 warnings have occurred; no
verdict with fewer than 3 counted warnings is escalated. -/
theorem warning_escalates_at_three (now : Nat) (ss : List Severity) (i : Nat)
    (hlen : i < ss.length) (hwarn : ss.getD i Severity.none = Severity.warning) :
    (runBanSession now initialMonitoringState ss).getD i Severity.none = Severity.softBan ↔
      3 ≤ countWarnLike (ss.take (i + 1)) := by
  simpa [initialMonitoringState] using
    runBanSession_warning_iff now ss initialMonitoringState i hlen hwarn

/-- Witness for claim C3: the third consecutive warning is escalated, the
second is not. -/
theorem warning_escalates_at_three_witness :
    (runBanSession 0 initialMonitoringState
        [Severity.warning, Severity.warning, Severity.warning]).getD 2 Severity.none =
      Severity.softBan ∧
    (runBanSession 0 initialMonitoringState
        [Severity.warning, Severity.warning, Severity.warning]).getD 1 Severity.none ≠
      Severity.softBan :=
  ⟨(warning_escalates_at_three 0 [Severity.warning, Severity.warning, Severity.warning]
      2 (by decide) (by decide)).mpr (by decide),
   fun h => by
     have := (warning_escalates_at_three 0
       [Severity.warning, Severity.warning, Severity.warning] 1 (by decide) (by decide)).mp h
     simp [countWarnLike] at this⟩

/-- Claim C4, exactly as stated, is false: a present but empty
`retry-after` header (JS falsy) yields `detected = false`, while the claim
requires `detected = true` for any present `retry-after` header.  Concrete
input: status 200, `retry-after: ""`. -/
theorem detectBanFromResponse_claim_false : ¬ ClaimC4Statement := by
  intro h
  have h200 := h 200 (some "") none "https://rewards.bing.com"
  have hc := h200.2.2.1 (by decide) (by decide) (by decide) (Or.inl rfl)
  have : (detectBanFromResponse 200 (some "") none "https://rewards.bing.com").detected = false := by decide
  rw [hc.1] at this
  exact Bool.noConfusion this

/-- Claim C4 amended: as stated except that the `retry-after` header must be
present *and non-empty* (the source tests JS truthiness of the header
value, so an empty `retry-after` value does not trigger detection). -/
theorem detectBanFromResponse_amended :
    ∀ (status : Nat) (ra xr : Option String) (url : String),
    (status = 403 →
      (detectBanFromResponse status ra xr url).detected = true ∧
      (detectBanFromResponse status ra xr url).severity = Severity.hardBan ∧
      (detectBanFromResponse status ra xr url).recoverable = false) ∧
    ((status = 429 ∨ status = 451) →
      (detectBanFromResponse status ra xr url).detected = true ∧
      (detectBanFromResponse status ra xr url).severity = Severity.warning ∧
      (detectBanFromResponse status ra xr url).recoverable = true) ∧
    (status ≠ 403 → status ≠ 429 → status ≠ 451 →
      (jsTruthy ra = true ∨ xr = some "0") →
      (detectBanFromResponse status ra xr url).detected = true ∧
      (detectBanFromResponse status ra xr url).severity = Severity.warning) ∧
    (status ≠ 403 → status ≠ 429 → status ≠ 451 →
      ¬(jsTruthy ra = true ∨ xr = some "0") →
      (detectBanFromResponse status ra xr url).detected = false ∧
      (detectBanFromResponse status ra xr url).severity = Severity.none) := by
  intro status ra xr url
  refine ⟨?_, ?_, ?_, ?_⟩
  · rintro rfl
    exact ⟨rfl, rfl, rfl⟩
  · rintro (rfl | rfl) <;> exact ⟨rfl, rfl, rfl⟩
  · intro h1 h2 h3 h4
    have hmem : status ∉ BAN_STATUS_CODES := by
      simp [BAN_STATUS_CODES, h1, h2, h3]
    have hhdr : (jsTruthy ra || xr = some "0") = true := by
      rcases h4 with h | h
      · simp [h]
      · simp [h]
    simp [detectBanFromResponse, hmem, hhdr]
  · intro h1 h2 h3 h4
    have hmem : status ∉ BAN_STATUS_CODES := by
      simp [BAN_STATUS_CODES, h1, h2, h3]
    have hhdr : (jsTruthy ra || xr = some "0") = false := by
      push_neg at h4
      simp [h4.1, h4.2]
    simp [detectBanFromResponse, hmem, hhdr]

/-- Witness for the amended C4 theorem at concrete inputs. -/
theorem detectBanFromResponse_amended_witness :
    (detectBanFromResponse 403 none none "u").severity = Severity.hardBan ∧
    (detectBanFromResponse 429 none none "u").severity = Severity.warning ∧
    (detectBanFromResponse 200 (some "5") none "u").detected = true ∧
    (detectBanFromResponse 200 none none "u").detected = false :=
  ⟨((detectBanFromResponse_amended 403 none none "u").1 rfl).2.1,
   ((detectBanFromResponse_amended 429 none none "u").2.1 (Or.inl rfl)).2.1,
   ((detectBanFromResponse_amended 200 (some "5") none "u").2.2.1
      (by decide) (by decide) (by decide) (Or.inl (by decide))).1,
   ((detectBanFromResponse_amended 200 none none "u").2.2.2
      (by decide) (by decide) (by decide) (by simp [jsTruthy])).1⟩

/-- Claim C5: the dispatcher's classification equals the specification's
first-match table over `(promotion_type, point_progress_max, url, name)`:
quiz/10/pollscenarioid → poll, quiz/10 → abc, quiz/50 → thisOrThat,
quiz → quiz, urlreward + exploreonbing name → searchOnBing,
urlreward → urlReward, else unsupported. -/
theorem classifyActivity_eq_spec_table (a : ActivityRec) :
    classifyActivity a = specClassifyTable a := by
  unfold classifyActivity specClassifyTable
  by_cases hq : jsLower (a.promotionType.getD "") = "quiz" <;>
    by_cases hm10 : a.pointProgressMax = 10 <;>
      by_cases hm50 : a.pointProgressMax = 50 <;>
        by_cases hu : hasSub (jsLower (a.destinationUrl.getD "")) "pollscenarioid" = true <;>
          by_cases hr : jsLower (a.promotionType.getD "") = "urlreward" <;>
            by_cases hn : hasSub (jsLower (a.name.getD "")) "exploreonbing" = true <;>
              simp_all

end RewardsBot


namespace RewardsBot

/-- A quote character is not a comma. -/
theorem isQuote_ne_comma {c : Char} (h : isQuote c = true) : ¬ c = ',' := by
  intro hc
  rw [hc] at h
  exact absurd h (by decide)

/-- Blind and string-aware trailing-comma removal agree on inputs without a
bad in-string comma. -/
theorem rtcGo_eq_aware :
    ∀ (m : RtcMode) (cs : List Char), hasBadComma m cs = false →
      rtcGo cs = rtcAwareGo m cs := by
  intro m cs
  induction m, cs using rtcAwareGo.induct with
  | case1 m => intro _; cases m <;> rfl
  | case2 c rest hq ih =>
      intro h
      simp only [hasBadComma, hq, if_true] at h
      have hcomma : (c = ',' && wsThenBracket rest) = false := by
        have hc := isQuote_ne_comma hq
        simp [hc]
      simp only [rtcGo, rtcAwareGo, hq, if_true, hcomma, Bool.false_eq_true, if_false]
      rw [ih h]
  | case3 c rest hq hcomma ih =>
      intro h
      simp only [hasBadComma, hq, if_false] at h
      simp only [rtcGo, rtcAwareGo, hq, hcomma, if_true, if_false]
      exact ih h
  | case4 c rest hq hcomma ih =>
      intro h
      simp only [hasBadComma, hq, if_false] at h
      simp only [rtcGo, rtcAwareGo, hq, hcomma, Bool.false_eq_true, if_false]
      rw [ih h]
  | case5 q rest ih =>
      intro h
      simp only [hasBadComma, Bool.or_eq_false_iff] at h
      have hstep : hasBadComma (RtcMode.escS q) rest = false := by
        have := h.2
        simpa using this
      have hcomma : ((('\\' : Char) = ',') && wsThenBracket rest) = false := by simp
      simp only [rtcGo, rtcAwareGo, hcomma, Bool.false_eq_true, if_false, if_true]
      rw [ih hstep]
  | case6 q c rest hne ih =>
      intro h
      simp only [hasBadComma, Bool.or_eq_false_iff, hne, if_false] at h
      simp only [rtcGo, rtcAwareGo, hne, if_false, h.1, Bool.false_eq_true]
      rw [ih h.2]
  | case7 q c rest ih =>
      intro h
      simp only [hasBadComma, Bool.or_eq_false_iff] at h
      simp only [rtcGo, rtcAwareGo, h.1, Bool.false_eq_true, if_false]
      rw [ih h.2]

/-- A line-comment terminator is not a quote. -/
theorem newline_not_quote {c : Char} (h : (c = '\n' || c = '\r') = true) :
    isQuote c = false := by
  simp only [Bool.or_eq_true, decide_eq_true_eq] at h
  rcases h with h | h <;> subst h <;> decide

/-- The string literals surviving `stripJsonComments` are exactly the
literals the stripper scans in the raw input, with identical contents:
re-tokenizing the stripped output recovers them unchanged. -/
theorem litsGo_stripGo :
    ∀ (m : StripMode) (input : List Char) (acc : List Char),
      litsGo (toLitState m acc) (stripGo m input) = stripLitsGo m acc input := by
  intro m input
  induction m, input using stripGo.induct with
  | case1 => intro acc; rfl
  | case2 m hne =>
      intro acc
      cases m
      case slash => exact absurd rfl hne
      all_goals rfl
  | case3 rest ih =>
      intro acc
      simp only [stripGo, stripLitsGo, if_pos rfl]
      exact ih acc
  | case4 c rest hs hq ih =>
      intro acc
      simp only [stripGo, stripLitsGo, hs, hq, if_false, if_true, litsGo, toLitState]
      exact ih []
  | case5 c rest hs hq ih =>
      intro acc
      simp only [stripGo, stripLitsGo, hs, hq, if_false, litsGo, toLitState]
      exact ih acc
  | case6 rest ih =>
      intro acc
      simp only [stripGo, stripLitsGo, if_pos rfl]
      exact ih acc
  | case7 rest hne ih =>
      intro acc
      simp only [stripGo, stripLitsGo, hne, if_false, if_pos rfl]
      exact ih acc
  | case8 c rest hs hst hq ih =>
      intro acc
      have hslash : isQuote '/' = false := by decide
      simp only [stripGo, stripLitsGo, hs, hst, hq, if_false, if_true, litsGo,
        toLitState, hslash, Bool.false_eq_true]
      exact ih []
  | case9 c rest hs hst hq ih =>
      intro acc
      have hslash : isQuote '/' = false := by decide
      simp only [stripGo, stripLitsGo, hs, hst, hq, if_false, litsGo, toLitState,
        hslash, Bool.false_eq_true]
      exact ih acc
  | case10 q rest ih =>
      intro acc
      simp only [stripGo, stripLitsGo, if_pos rfl, litsGo, toLitState]
      exact ih ('\\' :: acc)
  | case11 q c rest hne ih =>
      intro acc
      by_cases hq : c = q
      · subst hq
        simp at ih
        simp only [stripGo, stripLitsGo, hne, if_false, if_pos rfl, if_true, litsGo,
          toLitState]
        have hnorm := ih []
        simp only [toLitState] at hnorm
        rw [hnorm]
      · simp only [if_neg hq] at ih
        simp only [stripGo, stripLitsGo, hne, hq, if_false, litsGo, toLitState]
        exact ih (c :: acc)
  | case12 q c rest ih =>
      intro acc
      simp only [stripGo, stripLitsGo, litsGo, toLitState]
      exact ih (c :: acc)
  | case13 c rest hnl ih =>
      intro acc
      have hq := newline_not_quote hnl
      simp only [stripGo, stripLitsGo, hnl, if_true, litsGo, toLitState, hq,
        Bool.false_eq_true, if_false]
      exact ih acc
  | case14 c rest hnl ih =>
      intro acc
      simp only [stripGo, stripLitsGo, hnl, if_false, toLitState]
      exact ih acc
  | case15 rest ih =>
      intro acc
      simp only [stripGo, stripLitsGo, if_pos rfl]
      exact ih acc
  | case16 c rest hne ih =>
      intro acc
      simp only [stripGo, stripLitsGo, hne, if_false]
      exact ih acc
  | case17 rest ih =>
      intro acc
      simp only [stripGo, stripLitsGo, if_pos rfl]
      exact ih acc
  | case18 rest hne ih =>
      intro acc
      simp only [stripGo, stripLitsGo, hne, if_false, if_pos rfl]
      exact ih acc
  | case19 c rest h1 h2 ih =>
      intro acc
      simp only [stripGo, stripLitsGo, h1, h2, if_false]
      exact ih acc

end RewardsBot

namespace RewardsBot

/-- Claim C1, as stated, is false: `removeTrailingCommas` is a blind
regex replace that also deletes a comma-before-bracket inside a string
literal.  Concrete input `[",]"]` (a well-formed, comment-free JSONC
document whose single string literal is `,]`): the pipeline hands
`["]"]` to `JSON.parse`, while the normalized form keeps `[",]"]`, so
the parsed values differ and the literal's contents are altered. -/
theorem jsonc_pipeline_claim_false :
    ¬ (∀ s : String,
        stringLiteralContents (removeTrailingCommas s) = stringLiteralContents s) ∧
    parseJsoncText "[\",]\"]" = "[\"]\"]" ∧
    normalizeJsonc "[\",]\"]" = "[\",]\"]" ∧
    parseJsoncText "[\",]\"]" ≠ normalizeJsonc "[\",]\"]" := by
  refine ⟨fun h => ?_, by decide, by decide, by decide⟩
  have hc := h "[\",]\"]"
  revert hc
  decide

/-- Claim C1 amended: `stripJsonComments` leaves the contents of the
string literals it keeps intact (re-tokenizing its output yields exactly
the literals of the raw input, comments skipped); `removeTrailingCommas`
deletes a comma followed only by whitespace before `}` or `]`
*everywhere, including inside string literals*; consequently the
pipeline string handed to `JSON.parse` equals the normalized input
exactly when no surviving string literal contains such a comma. -/
theorem jsonc_pipeline_amended :
    (∀ s : String, stringLiteralContents (stripJsonComments s) = stripLits s) ∧
    (∀ s : String, hasBadComma RtcMode.outside (stripJsonComments s).data = false →
      parseJsoncText s = normalizeJsonc s) := by
  constructor
  · intro s
    unfold stringLiteralContents stripJsonComments stripLits
    rw [show (String.mk (stripGo StripMode.normal s.data)).data
        = stripGo StripMode.normal s.data from rfl]
    rw [show litsGo LitState.out (stripGo StripMode.normal s.data)
        = litsGo (toLitState StripMode.normal []) (stripGo StripMode.normal s.data) from rfl]
    rw [litsGo_stripGo]
  · intro s h
    unfold parseJsoncText normalizeJsonc removeTrailingCommas removeTrailingCommasAware
    exact congrArg String.mk (rtcGo_eq_aware RtcMode.outside _ h)

/-- Witness for the amended C1 theorem: a JSONC document with comments and
trailing commas (no bad in-string comma) normalizes identically through
the pipeline, and literal extraction commutes with comment stripping on a
document whose literal contains comment-like text. -/
theorem jsonc_pipeline_amended_witness :
    parseJsoncText "[1, 2, /* note */ 3,] // done" =
      normalizeJsonc "[1, 2, /* note */ 3,] // done" ∧
    stringLiteralContents (stripJsonComments "[\"a//b\", \"c,\"] // tail") =
      stripLits "[\"a//b\", \"c,\"] // tail" :=
  ⟨jsonc_pipeline_amended.2 "[1, 2, /* note */ 3,] // done" (by decide),
   jsonc_pipeline_amended.1 "[\"a//b\", \"c,\"] // tail"⟩

end RewardsBot

namespace RewardsBot

/-- Skipping whitespace passes over a whitespace prefix. -/
theorem skipJsonWs_append (w : List Char) (hw : wsOnly w) (t : List Char) :
    skipJsonWs (w ++ t) = skipJsonWs t := by
  induction w with
  | nil => rfl
  | cons c cs ih =>
      have hc := hw c (by simp)
      have hcs : wsOnly cs := fun x hx => hw x (by simp [hx])
      simp [skipJsonWs, hc, ih hcs]

/-- Skipping whitespace stops at a non-whitespace character. -/
theorem skipJsonWs_cons (c : Char) (hc : isJsonWs c = false) (t : List Char) :
    skipJsonWs (c :: t) = c :: t := by
  simp [skipJsonWs, hc]

/-- A hex digit round-trips through its character. -/
theorem hexVal_hexDigitChar (n : Nat) (h : n < 16) :
    hexVal (hexDigitChar n) = some n := by
  interval_cases n <;> rfl

/-- `Char.ofNatAux` inverts `Char.toNat`. -/
theorem ofNatAux_toNat (c : Char) (h : c.toNat.isValidChar) :
    Char.ofNatAux c.toNat h = c := by
  obtain ⟨⟨⟨v, hv⟩⟩, valid⟩ := c
  rfl

/-- Characters with equal code points are equal. -/
theorem charToNat_inj {a b : Char} (h : a.toNat = b.toNat) : a = b := by
  obtain ⟨⟨⟨va, hva⟩⟩, ha⟩ := a
  obtain ⟨⟨⟨vb, hvb⟩⟩, hb⟩ := b
  simp only [Char.toNat, UInt32.toNat] at h
  subst h
  rfl

/-- Code point of `Char.ofNat` below the surrogates. -/
theorem toNat_charOfNat (m : Nat) (h : m < 0xd800) : (Char.ofNat m).toNat = m := by
  have hv : m.isValidChar := Or.inl h
  simp [Char.ofNat, hv]
  rfl

/-- The escape of a single character parses back to that character in
front of any continuation. -/
theorem parseStringBody_escapeChar (c : Char) (t cs rest : List Char)
    (ih : parseStringBody t = some (cs, rest)) :
    parseStringBody (escapeChar c ++ t) = some (c :: cs, rest) := by
  by_cases h1 : c = '"'
  · subst h1
    rw [show escapeChar '"' = ['\\', '"'] from rfl]
    rw [parseStringBody.eq_def]
    simp [unescapeChar, ih]
  by_cases h2 : c = '\\'
  · subst h2
    rw [show escapeChar '\\' = ['\\', '\\'] from rfl]
    rw [parseStringBody.eq_def]
    simp [unescapeChar, ih]
  by_cases h3 : c.toNat = 8
  · have hc : c = Char.ofNat 8 := charToNat_inj (by rw [h3, toNat_charOfNat] <;> norm_num)
    subst hc
    rw [show escapeChar (Char.ofNat 8) = ['\\', 'b'] from rfl]
    rw [parseStringBody.eq_def]
    simp [unescapeChar, ih]
  by_cases h4 : c.toNat = 12
  · have hc : c = Char.ofNat 12 := charToNat_inj (by rw [h4, toNat_charOfNat] <;> norm_num)
    subst hc
    rw [show escapeChar (Char.ofNat 12) = ['\\', 'f'] from rfl]
    rw [parseStringBody.eq_def]
    simp [unescapeChar, ih]
  by_cases h5 : c = '\n'
  · subst h5
    rw [show escapeChar '\n' = ['\\', 'n'] from rfl]
    rw [parseStringBody.eq_def]
    simp [unescapeChar, ih]
  by_cases h6 : c = '\r'
  · subst h6
    rw [show escapeChar '\r' = ['\\', 'r'] from rfl]
    rw [parseStringBody.eq_def]
    simp [unescapeChar, ih]
  by_cases h7 : c = '\t'
  · subst h7
    rw [show escapeChar '\t' = ['\\', 't'] from rfl]
    rw [parseStringBody.eq_def]
    simp [unescapeChar, ih]
  by_cases h8 : c.toNat < 0x20
  · have hesc : escapeChar c =
        ['\\', 'u', '0', '0', hexDigitChar (c.toNat / 16), hexDigitChar (c.toNat % 16)] := by
      simp only [escapeChar, h1, h2, h3, h4, h5, h6, h7, h8, if_true, if_false,
        if_neg, not_false_iff]
    rw [hesc]
    rw [parseStringBody.eq_def]
    have hhi : hexVal (hexDigitChar (c.toNat / 16)) = some (c.toNat / 16) :=
      hexVal_hexDigitChar _ (by omega)
    have hlo : hexVal (hexDigitChar (c.toNat % 16)) = some (c.toNat % 16) :=
      hexVal_hexDigitChar _ (by omega)
    have hn : ((0 * 16 + 0) * 16 + c.toNat / 16) * 16 + c.toNat % 16 = c.toNat := by
      omega
    have hlt : c.toNat < 0xd800 := by omega
    simp [show hexVal '0' = some 0 from rfl, hhi, hlo, hn, hlt, ih, ofNatAux_toNat]
    have e2 : c.toNat / 16 * 16 + c.toNat % 16 = c.toNat := by omega
    refine ⟨by omega, ?_⟩
    simp only [e2, ofNatAux_toNat]
  · have hesc : escapeChar c = [c] := by
      simp only [escapeChar, h1, h2, h3, h4, h5, h6, h7, h8, if_false, if_neg,
        not_false_iff]
    rw [hesc]
    rw [parseStringBody.eq_def]
    simp [h1, h2, h8, ih]

end RewardsBot

namespace RewardsBot

/-- A fully escaped string body followed by the closing quote parses back
to the original characters. -/
theorem parseStringBody_escapeList (cs : List Char) :
    ∀ rest, parseStringBody (escapeList cs ++ ('"' :: rest)) = some (cs, rest) := by
  induction cs with
  | nil =>
      intro rest
      rw [show escapeList [] = [] from rfl, List.nil_append, parseStringBody.eq_def]
      simp
  | cons c cs ih =>
      intro rest
      rw [show escapeList (c :: cs) = escapeChar c ++ escapeList cs from rfl,
        List.append_assoc]
      exact parseStringBody_escapeChar c _ cs rest (ih rest)

/-- `renderString` output starts with a quote and parses back. -/
theorem parseRenderString (s : String) (rest : List Char) :
    parseStringBody (escapeList s.data ++ ('"' :: rest)) = some (s.data, rest) :=
  parseStringBody_escapeList s.data rest

/-- Every digit of `natToDigits` is a decimal digit. -/
theorem natToDigits_digits :
    ∀ (fuel n : Nat), n < fuel → ∀ c ∈ natToDigits fuel n, isDigitChar c = true := by
  intro fuel
  induction fuel with
  | zero => intro n h; omega
  | succ fuel ih =>
      intro n hn c hc
      rw [natToDigits.eq_def] at hc
      by_cases h10 : n < 10
      · simp only [h10, if_pos] at hc
        simp only [List.mem_singleton] at hc
        subst hc
        simp [isDigitChar, toNat_charOfNat (48 + n) (by omega)]
        omega
      · simp only [h10, if_neg, not_false_iff, List.mem_append] at hc
        rcases hc with hc | hc
        · exact ih (n / 10) (by omega) c hc
        · simp only [List.mem_singleton] at hc
          subst hc
          simp [isDigitChar, toNat_charOfNat (48 + n % 10) (by omega)]
          omega

/-- `natToDigits` is non-empty with sufficient fuel. -/
theorem natToDigits_ne_nil :
    ∀ (fuel n : Nat), n < fuel → natToDigits fuel n ≠ [] := by
  intro fuel
  induction fuel with
  | zero => intro n h; omega
  | succ fuel ih =>
      intro n hn
      rw [natToDigits.eq_def]
      by_cases h10 : n < 10
      · simp [h10]
      · simp only [h10, if_neg, not_false_iff]
        intro hcontra
        rcases List.append_eq_nil.mp hcontra with ⟨_, h2⟩
        exact List.noConfusion h2

/-- Appending under `digitsToNat`. -/
theorem digitsToNat_append :
    ∀ (a b : List Char) (acc : Nat),
      digitsToNat (a ++ b) acc = digitsToNat b (digitsToNat a acc) := by
  intro a
  induction a with
  | nil => intro b acc; rfl
  | cons c cs ih => intro b acc; simp [digitsToNat, ih]

/-- Value of the digits of `n`. -/
theorem digitsToNat_natToDigits :
    ∀ (fuel n : Nat), n < fuel → ∀ acc,
      digitsToNat (natToDigits fuel n) acc =
        acc * 10 ^ (natToDigits fuel n).length + n := by
  intro fuel
  induction fuel with
  | zero => intro n h; omega
  | succ fuel ih =>
      intro n hn acc
      rw [natToDigits.eq_def]
      by_cases h10 : n < 10
      · simp only [h10, if_pos]
        simp [digitsToNat, toNat_charOfNat (48 + n) (by omega)]
      · simp only [h10, if_neg, not_false_iff]
        rw [digitsToNat_append, ih (n / 10) (by omega) acc]
        simp [digitsToNat, toNat_charOfNat (48 + n % 10) (by omega),
          List.length_append, pow_succ]
        ring_nf
        omega

/-- The leading digit of a positive number is not `0`. -/
theorem natToDigits_head_ne_zero :
    ∀ (fuel n : Nat), 0 < n → n < fuel → ∀ (d : Char) (ds : List Char),
      natToDigits fuel n = d :: ds → d ≠ '0' := by
  intro fuel
  induction fuel with
  | zero => intro n h0 h; omega
  | succ fuel ih =>
      intro n h0 hn d ds heq
      rw [natToDigits.eq_def] at heq
      by_cases h10 : n < 10
      · simp only [h10, if_pos, List.cons.injEq] at heq
        obtain ⟨hd, _⟩ := heq
        subst hd
        intro hcontra
        have := congrArg Char.toNat hcontra
        rw [toNat_charOfNat (48 + n) (by omega)] at this
        have h0' : ('0' : Char).toNat = 48 := by decide
        omega
      · simp only [h10, if_neg, not_false_iff] at heq
        rcases hpre : natToDigits fuel (n / 10) with _ | ⟨d', ds'⟩
        · exact absurd hpre (natToDigits_ne_nil fuel (n / 10) (by omega))
        · rw [hpre] at heq
          simp only [List.cons_append, List.cons.injEq] at heq
          obtain ⟨hd, _⟩ := heq
          subst hd
          exact ih (n / 10) (by omega) (by omega) d' ds' hpre

/-- `spanDigits` splits a digit run from a non-digit continuation. -/
theorem spanDigits_append (ds : List Char) (hds : ∀ c ∈ ds, isDigitChar c = true) :
    ∀ rest, numStop rest → spanDigits (ds ++ rest) = (ds, rest) := by
  induction ds with
  | nil =>
      intro rest hrest
      cases rest with
      | nil => rfl
      | cons c r =>
          have : isDigitChar c = false := hrest.1
          simp [spanDigits, this]
  | cons c cs ih =>
      intro rest hrest
      have hc : isDigitChar c = true := hds c (by simp)
      have hcs : ∀ x ∈ cs, isDigitChar x = true := fun x hx => hds x (by simp [hx])
      simp [spanDigits, hc, ih hcs rest hrest]

end RewardsBot

namespace RewardsBot

/-- `renderNat` digits parse back to the value. -/
theorem parseIntNumber_renderNat (n : Nat) (rest : List Char) (hrest : numStop rest) :
    parseIntNumber (renderNat n ++ rest) = some (Int.ofNat n, rest) := by
  have hd := natToDigits_digits (n + 1) n (by omega)
  have hne := natToDigits_ne_nil (n + 1) n (by omega)
  have hval := digitsToNat_natToDigits (n + 1) n (by omega) 0
  rcases heq : natToDigits (n + 1) n with _ | ⟨d, ds⟩
  · exact absurd heq hne
  · rw [heq] at hd hval
    have hddigit : isDigitChar d = true := hd d (by simp)
    have hspan : spanDigits ((d :: ds) ++ rest) = (d :: ds, rest) :=
      spanDigits_append (d :: ds) hd rest hrest
    have hfirst : renderNat n ++ rest = d :: (ds ++ rest) := by
      simp [renderNat, heq]
    have hnotminus : ¬ d = '-' := by
      intro hcontra
      rw [hcontra] at hddigit
      simp [isDigitChar] at hddigit
    have hguard : (d = '0' && !ds.isEmpty) = false := by
      by_cases hd0 : d = '0'
      · by_cases hn0 : n = 0
        · subst hn0
          have h01 : (['0'] : List Char) = d :: ds := heq
          injection h01 with e1 e2
          rw [← e2]
          simp
        · exact absurd hd0
            (natToDigits_head_ne_zero (n + 1) n (by omega) (by omega) d ds heq)
      · simp [hd0]
    have hext : startsNumExt rest = false := by
      cases rest with
      | nil => rfl
      | cons c r =>
          obtain ⟨hdig, hdot, he, hE⟩ := hrest
          simp [startsNumExt, hdot, he, hE]
    rw [parseIntNumber.eq_def]
    simp only [hfirst, hnotminus, if_false, if_neg, not_false_iff]
    have hback : d :: (ds ++ rest) = (d :: ds) ++ rest := by simp
    rw [hback, hspan]
    simp only [hguard, hext, Bool.false_eq_true, if_false]
    simp [hval]

/-- `renderInt` parses back to the integer. -/
theorem parseIntNumber_renderInt (i : Int) (rest : List Char) (hrest : numStop rest) :
    parseIntNumber (renderInt i ++ rest) = some (i, rest) := by
  by_cases hneg : i < 0
  · have hr : renderInt i = '-' :: renderNat i.natAbs := by simp [renderInt, hneg]
    rw [hr]
    have hd := natToDigits_digits (i.natAbs + 1) i.natAbs (by omega)
    have hne := natToDigits_ne_nil (i.natAbs + 1) i.natAbs (by omega)
    have hval := digitsToNat_natToDigits (i.natAbs + 1) i.natAbs (by omega) 0
    rcases heq : natToDigits (i.natAbs + 1) i.natAbs with _ | ⟨d, ds⟩
    · exact absurd heq hne
    · rw [heq] at hd hval
      have hspan : spanDigits ((d :: ds) ++ rest) = (d :: ds, rest) :=
        spanDigits_append (d :: ds) hd rest hrest
      have hguard : (d = '0' && !ds.isEmpty) = false := by
        by_cases hd0 : d = '0'
        · have hpos : 0 < i.natAbs := by omega
          exact absurd hd0
            (natToDigits_head_ne_zero (i.natAbs + 1) i.natAbs hpos (by omega) d ds heq)
        · simp [hd0]
      have hext : startsNumExt rest = false := by
        cases rest with
        | nil => rfl
        | cons c r =>
            obtain ⟨hdig, hdot, he, hE⟩ := hrest
            simp [startsNumExt, hdot, he, hE]
      rw [parseIntNumber.eq_def]
      have hrender : renderNat i.natAbs = d :: ds := by simp [renderNat, heq]
      simp only [List.cons_append] at hspan
      simp only [List.cons_append, hrender, if_pos rfl, if_true, hspan, hguard,
        hext, Bool.false_eq_true, if_false]
      have hv2 : digitsToNat (d :: ds) 0 = i.natAbs := by simpa using hval
      rw [hv2]
      have hvi : -Int.ofNat i.natAbs = i := by
        simp only [Int.ofNat_eq_natCast, Int.natCast_natAbs]
        rw [abs_of_neg hneg, neg_neg]
      rw [hvi]
  · have hr : renderInt i = renderNat i.toNat := by simp [renderInt, hneg]
    rw [hr]
    have h0 : (0 : Int) ≤ i := not_lt.mp hneg
    rw [parseIntNumber_renderNat i.toNat rest hrest]
    simp [Int.toNat_of_nonneg h0]

end RewardsBot

namespace RewardsBot

/-- A prefix test against itself plus a continuation succeeds. -/
theorem startsWithChars_self : ∀ (p rest : List Char),
    startsWithChars p (p ++ rest) = true := by
  intro p
  induction p with
  | nil => intro rest; rfl
  | cons c cs ih => intro rest; simp [startsWithChars, ih]

/-- Whitespace skipping is idempotent. -/
theorem skipJsonWs_idem : ∀ (cs : List Char), skipJsonWs (skipJsonWs cs) = skipJsonWs cs := by
  intro cs
  induction cs with
  | nil => rfl
  | cons c rest ih =>
      by_cases hc : isJsonWs c = true
      · simp [skipJsonWs, hc, ih]
      · simp only [Bool.not_eq_true] at hc
        simp [skipJsonWs, hc]

/-- Values may be parsed from pre-skipped input. -/
theorem parseValueF_skipws (fuel : Nat) (cs : List Char) :
    parseValueF fuel (skipJsonWs cs) = parseValueF fuel cs := by
  cases fuel with
  | zero => rfl
  | succ fuel => simp only [parseValueF, skipJsonWs_idem]

/-- Array items may be parsed from pre-skipped input. -/
theorem parseArrayItemsF_skipws (fuel : Nat) (cs : List Char) (acc : List JValue) :
    parseArrayItemsF fuel (skipJsonWs cs) acc = parseArrayItemsF fuel cs acc := by
  cases fuel with
  | zero => rfl
  | succ fuel => simp only [parseArrayItemsF, parseValueF_skipws]

/-- Object members may be parsed from pre-skipped input. -/
theorem parseMembersF_skipws (fuel : Nat) (cs : List Char) (acc : List (String × JValue)) :
    parseMembersF fuel (skipJsonWs cs) acc = parseMembersF fuel cs acc := by
  cases fuel with
  | zero => rfl
  | succ fuel => simp only [parseMembersF, skipJsonWs_idem]

/-- JSON whitespace is not a digit, dot or exponent marker. -/
theorem wsNotNum (c : Char) (hc : isJsonWs c = true) :
    isDigitChar c = false ∧ c ≠ '.' ∧ c ≠ 'e' ∧ c ≠ 'E' := by
  simp only [isJsonWs, Bool.or_eq_true, decide_eq_true_eq] at hc
  have hn : c.toNat = 32 ∨ c.toNat = 9 ∨ c.toNat = 10 ∨ c.toNat = 13 := by
    rcases hc with ((h | h) | h) | h <;> subst h <;> decide
  refine ⟨?_, ?_, ?_, ?_⟩
  · simp only [isDigitChar]
    rcases hn with h | h | h | h <;> rw [h] <;> decide
  · intro heq; subst heq; exact absurd hn (by decide)
  · intro heq; subst heq; exact absurd hn (by decide)
  · intro heq; subst heq; exact absurd hn (by decide)

/-- After whitespace, a structural character stops a numeric token. -/
theorem numStop_ws_cons (w : List Char) (hw : wsOnly w) (c : Char)
    (hc : isDigitChar c = false ∧ c ≠ '.' ∧ c ≠ 'e' ∧ c ≠ 'E') (t : List Char) :
    numStop (w ++ c :: t) := by
  cases w with
  | nil => exact hc
  | cons x xs => exact wsNotNum x (hw x (by simp))

/-- The tail whitespace of a `wsOnly` list. -/
theorem wsOnly_tail {x : Char} {xs : List Char} (h : wsOnly (x :: xs)) : wsOnly xs :=
  fun c hc => h c (by simp [hc])

/-- A digit character is not JSON whitespace. -/
theorem digit_not_ws (c : Char) (hc : isDigitChar c = true) : isJsonWs c = false := by
  simp only [isDigitChar, Bool.and_eq_true, decide_eq_true_eq] at hc
  simp only [isJsonWs, Bool.or_eq_false_iff, decide_eq_false_iff_not]
  refine ⟨⟨⟨?_, ?_⟩, ?_⟩, ?_⟩ <;> intro hcontra <;> subst hcontra <;> exact absurd hc (by decide)

/-- Every `RL`-related text starts with a non-whitespace character that is
not a closing bracket, closing brace or comma. -/
theorem RL_head {n : Nat} {v : JValue} {s : List Char} (h : RL n v s) :
    ∃ c0 t, s = c0 :: t ∧ isJsonWs c0 = false ∧ c0 ≠ ']' ∧ c0 ≠ '}' ∧ c0 ≠ ',' := by
  cases h with
  | rnull n => exact ⟨'n', _, rfl, by decide, by decide, by decide, by decide⟩
  | rtrue n => exact ⟨'t', _, rfl, by decide, by decide, by decide, by decide⟩
  | rfalse n => exact ⟨'f', _, rfl, by decide, by decide, by decide, by decide⟩
  | rstr n s => exact ⟨'"', _, rfl, by decide, by decide, by decide, by decide⟩
  | rarrEmpty n w hw => exact ⟨'[', _, rfl, by decide, by decide, by decide, by decide⟩
  | rarr n vs s hi => exact ⟨'[', _, rfl, by decide, by decide, by decide, by decide⟩
  | robjEmpty n w hw => exact ⟨'{', _, rfl, by decide, by decide, by decide, by decide⟩
  | robj n ms s hm hnd => exact ⟨'{', _, rfl, by decide, by decide, by decide, by decide⟩
  | rnum n i =>
      by_cases hneg : i < 0
      · refine ⟨'-', renderNat i.natAbs, by simp [renderInt, hneg], by decide,
          by decide, by decide, by decide⟩
      · have hne := natToDigits_ne_nil (i.toNat + 1) i.toNat (by omega)
        have hd := natToDigits_digits (i.toNat + 1) i.toNat (by omega)
        rcases heq : natToDigits (i.toNat + 1) i.toNat with _ | ⟨d, ds⟩
        · exact absurd heq hne
        · have hdd : isDigitChar d = true := hd d (by rw [heq]; simp)
          have hdig := hdd
          simp only [isDigitChar, Bool.and_eq_true, decide_eq_true_eq] at hdig
          refine ⟨d, ds, by simp [renderInt, hneg, renderNat, heq], digit_not_ws d hdd,
            ?_, ?_, ?_⟩ <;> intro hcontra <;> subst hcontra <;> simp at hdig <;> omega

end RewardsBot

namespace RewardsBot

/-- Leading whitespace may be dropped before parsing a value. -/
theorem parseValueF_ws_append (fuel : Nat) (w X : List Char) (hw : wsOnly w) :
    parseValueF fuel (w ++ X) = parseValueF fuel X := by
  rw [← parseValueF_skipws fuel (w ++ X), skipJsonWs_append w hw X, parseValueF_skipws]

/-- An `RLitems` text never starts (after whitespace) with the closing
bracket: the first item's first character appears first. -/
theorem RLitems_skip_head {n : Nat} {vs : List JValue} {s : List Char}
    (h : RLitems n vs s) (rest : List Char) :
    ∃ c0 t, skipJsonWs (s ++ rest) = c0 :: t ∧ c0 ≠ ']' := by
  cases h with
  | rlast n v sv w0 w1 hv h0 h1 =>
      obtain ⟨c0, t, hs, hws, hne1, hne2, hne3⟩ := RL_head hv
      refine ⟨c0, t ++ ((w1 ++ [']']) ++ rest), ?_, hne1⟩
      subst hs
      rw [List.append_assoc, skipJsonWs_append w0 h0]
      have hshape : ((c0 :: t) ++ (w1 ++ [']'])) ++ rest =
          c0 :: (t ++ ((w1 ++ [']']) ++ rest)) := by simp
      rw [hshape, skipJsonWs_cons c0 hws]
  | rcons n v vs sv w0 w1 r hv h0 h1 hr =>
      obtain ⟨c0, t, hs, hws, hne1, hne2, hne3⟩ := RL_head hv
      refine ⟨c0, t ++ ((w1 ++ (',' :: r)) ++ rest), ?_, hne1⟩
      subst hs
      rw [List.append_assoc, skipJsonWs_append w0 h0]
      have hshape : ((c0 :: t) ++ (w1 ++ (',' :: r))) ++ rest =
          c0 :: (t ++ ((w1 ++ (',' :: r)) ++ rest)) := by simp
      rw [hshape, skipJsonWs_cons c0 hws]

/-- An `RLmembers` text starts (after whitespace) with the opening quote
of the first key. -/
theorem RLmembers_skip_head {n : Nat} {ms : List (String × JValue)} {s : List Char}
    (h : RLmembers n ms s) (rest : List Char) :
    ∃ t, skipJsonWs (s ++ rest) = '"' :: t := by
  cases h with
  | rlast n k v sv w0 w1 w2 w3 hv h0 h1 h2 h3 =>
      refine ⟨(escapeList k.data ++ ['"']) ++
        ((w1 ++ (':' :: (w2 ++ (sv ++ (w3 ++ ['}']))))) ++ rest), ?_⟩
      rw [List.append_assoc, skipJsonWs_append w0 h0]
      have hshape : (renderString k ++ (w1 ++ (':' :: (w2 ++ (sv ++ (w3 ++ ['}'])))))) ++ rest =
          '"' :: ((escapeList k.data ++ ['"']) ++
            ((w1 ++ (':' :: (w2 ++ (sv ++ (w3 ++ ['}']))))) ++ rest)) := by
        simp [renderString]
      rw [hshape, skipJsonWs_cons '"' (by decide)]
  | rcons n k v ms sv w0 w1 w2 w3 r hv h0 h1 h2 h3 hr =>
      refine ⟨(escapeList k.data ++ ['"']) ++
        ((w1 ++ (':' :: (w2 ++ (sv ++ (w3 ++ (',' :: r)))))) ++ rest), ?_⟩
      rw [List.append_assoc, skipJsonWs_append w0 h0]
      have hshape : (renderString k ++
            (w1 ++ (':' :: (w2 ++ (sv ++ (w3 ++ (',' :: r))))))) ++ rest =
          '"' :: ((escapeList k.data ++ ['"']) ++
            ((w1 ++ (':' :: (w2 ++ (sv ++ (w3 ++ (',' :: r)))))) ++ rest)) := by
        simp [renderString]
      rw [hshape, skipJsonWs_cons '"' (by decide)]

end RewardsBot

namespace RewardsBot

/-- The first character of a rendered integer is a minus sign or digit:
not whitespace and not any structural or keyword-start character. -/
theorem renderInt_head (i : Int) :
    ∃ c0 t, renderInt i = c0 :: t ∧ isJsonWs c0 = false ∧
      c0 ≠ '"' ∧ c0 ≠ '[' ∧ c0 ≠ '{' ∧ c0 ≠ 't' ∧ c0 ≠ 'f' ∧ c0 ≠ 'n' := by
  by_cases hneg : i < 0
  · exact ⟨'-', renderNat i.natAbs, by simp [renderInt, hneg], by decide, by decide,
      by decide, by decide, by decide, by decide, by decide⟩
  · have hne := natToDigits_ne_nil (i.toNat + 1) i.toNat (by omega)
    have hd := natToDigits_digits (i.toNat + 1) i.toNat (by omega)
    rcases heq : natToDigits (i.toNat + 1) i.toNat with _ | ⟨d, ds⟩
    · exact absurd heq hne
    · have hdd : isDigitChar d = true := hd d (by rw [heq]; simp)
      have hb : 48 ≤ d.toNat ∧ d.toNat ≤ 57 := by
        simpa [isDigitChar, Bool.and_eq_true, decide_eq_true_eq] using hdd
      refine ⟨d, ds, by simp [renderInt, hneg, renderNat, heq], digit_not_ws d hdd,
        ?_, ?_, ?_, ?_, ?_, ?_⟩ <;>
        · intro hcontra; subst hcontra; exact absurd hb (by decide)

set_option maxHeartbeats 1000000 in
theorem parseRL (N : Nat) :
    (∀ v s, RL N v s → ∀ fuel rest, N < fuel → numStop rest →
      parseValueF fuel (s ++ rest) = some (v, rest)) ∧
    (∀ vs s, RLitems N vs s → ∀ fuel rest acc, N < fuel →
      parseArrayItemsF fuel (s ++ rest) acc =
        some (JValue.jarr (acc.reverse ++ vs), rest)) ∧
    (∀ ms s, RLmembers N ms s → ∀ fuel rest acc, N < fuel →
      parseMembersF fuel (s ++ rest) acc =
        some (JValue.jobj (insertList acc ms), rest)) := by
  induction N using Nat.strong_induction_on with
  | _ N IH =>
  refine ⟨?_, ?_, ?_⟩
  · intro v s hRL fuel rest hfuel hstop
    obtain ⟨f, rfl⟩ : ∃ f, fuel = f + 1 := ⟨fuel - 1, by omega⟩
    cases hRL with
    | rnull n =>
        simp +decide [parseValueF, skipJsonWs, startsWithChars]
    | rtrue n =>
        simp +decide [parseValueF, skipJsonWs, startsWithChars]
    | rfalse n =>
        simp +decide [parseValueF, skipJsonWs, startsWithChars]
    | rnum n i =>
        obtain ⟨c0, t, hs, hws, h1, h2, h3, h4, h5, h6⟩ := renderInt_head i
        have hshape : renderInt i ++ rest = c0 :: (t ++ rest) := by rw [hs]; simp
        rw [hshape]
        simp only [parseValueF]
        rw [skipJsonWs_cons c0 hws]
        simp only [if_neg h1, if_neg h2, if_neg h3, if_neg h4, if_neg h5, if_neg h6]
        rw [← hshape, parseIntNumber_renderInt i rest hstop]
    | rstr n str =>
        have hshape : renderString str ++ rest =
            '"' :: (escapeList str.data ++ ('"' :: rest)) := by simp [renderString]
        rw [hshape]
        simp only [parseValueF]
        rw [skipJsonWs_cons '"' (by decide)]
        simp +decide [parseStringBody_escapeList str.data rest]
    | rarrEmpty n w hw =>
        have hshape : ('[' :: (w ++ [']'])) ++ rest = '[' :: (w ++ (']' :: rest)) := by simp
        rw [hshape]
        simp +decide [parseValueF, skipJsonWs, skipJsonWs_append w hw]
    | rarr n vs s hi =>
        obtain ⟨c0, t, hsk, hne⟩ := RLitems_skip_head hi rest
        have hitems := (IH n (by omega)).2.1 vs s hi f rest [] (by omega)
        have hstep : parseValueF (f + 1) (('[' :: s) ++ rest) =
            match skipJsonWs (s ++ rest) with
            | ']' :: r2 => some (JValue.jarr [], r2)
            | r => parseArrayItemsF f r [] := rfl
        rw [hstep, hsk]
        split
        · next r2 heq =>
            injection heq with hc ht
            exact absurd hc hne
        · next r hne2 =>
            rw [← hsk, parseArrayItemsF_skipws, hitems]
            simp
    | robj n ms s hm hnd =>
        obtain ⟨t, hsk⟩ := RLmembers_skip_head hm rest
        have hmem := (IH n (by omega)).2.2 ms s hm f rest [] (by omega)
        have hstep : parseValueF (f + 1) (('{' :: s) ++ rest) =
            match skipJsonWs (s ++ rest) with
            | '}' :: r2 => some (JValue.jobj [], r2)
            | r => parseMembersF f r [] := rfl
        rw [hstep, hsk]
        split
        · next r2 heq =>
            injection heq with hc ht
            exact absurd hc (by decide)
        · next r hne2 =>
            rw [← hsk, parseMembersF_skipws, hmem]
            simp [hnd]
    | robjEmpty n w hw =>
        have hshape : ('{' :: (w ++ ['}'])) ++ rest = '{' :: (w ++ ('}' :: rest)) := by simp
        rw [hshape]
        simp +decide [parseValueF, skipJsonWs, skipJsonWs_append w hw]
  · intro vs s hI fuel rest acc hfuel
    obtain ⟨f, rfl⟩ : ∃ f, fuel = f + 1 := ⟨fuel - 1, by omega⟩
    cases hI with
    | rlast n v sv w0 w1 hv h0 h1 =>
        have hstop : numStop (w1 ++ (']' :: rest)) :=
          numStop_ws_cons w1 h1 ']' ⟨by decide, by decide, by decide, by decide⟩ rest
        have hval : parseValueF f (w0 ++ (sv ++ (w1 ++ (']' :: rest)))) =
            some (v, w1 ++ (']' :: rest)) := by
          rw [parseValueF_ws_append f w0 _ h0]
          exact (IH n (by omega)).1 v sv hv f (w1 ++ (']' :: rest)) (by omega) hstop
        have hshape : (w0 ++ (sv ++ (w1 ++ [']']))) ++ rest =
            w0 ++ (sv ++ (w1 ++ (']' :: rest))) := by simp
        have hws : skipJsonWs (w1 ++ (']' :: rest)) = ']' :: rest := by
          rw [skipJsonWs_append w1 h1, skipJsonWs_cons ']' (by decide)]
        rw [hshape]
        simp only [parseArrayItemsF, hval, hws]
        simp
    | rcons n v vs sv w0 w1 r hv h0 h1 hr =>
        have hstop : numStop (w1 ++ (',' :: (r ++ rest))) :=
          numStop_ws_cons w1 h1 ',' ⟨by decide, by decide, by decide, by decide⟩ (r ++ rest)
        have hval : parseValueF f (w0 ++ (sv ++ (w1 ++ (',' :: (r ++ rest))))) =
            some (v, w1 ++ (',' :: (r ++ rest))) := by
          rw [parseValueF_ws_append f w0 _ h0]
          exact (IH n (by omega)).1 v sv hv f (w1 ++ (',' :: (r ++ rest))) (by omega) hstop
        have hshape : (w0 ++ (sv ++ (w1 ++ (',' :: r)))) ++ rest =
            w0 ++ (sv ++ (w1 ++ (',' :: (r ++ rest)))) := by simp
        have hws : skipJsonWs (w1 ++ (',' :: (r ++ rest))) = ',' :: (r ++ rest) := by
          rw [skipJsonWs_append w1 h1, skipJsonWs_cons ',' (by decide)]
        have hrec := (IH n (by omega)).2.1 vs r hr f rest (v :: acc) (by omega)
        rw [hshape]
        simp only [parseArrayItemsF, hval, hws, hrec]
        simp
  · intro ms s hM fuel rest acc hfuel
    obtain ⟨f, rfl⟩ : ∃ f, fuel = f + 1 := ⟨fuel - 1, by omega⟩
    cases hM with
    | rlast n k v sv w0 w1 w2 w3 hv h0 h1 h2 h3 =>
        have hstop : numStop (w3 ++ ('}' :: rest)) :=
          numStop_ws_cons w3 h3 '}' ⟨by decide, by decide, by decide, by decide⟩ rest
        have hval : parseValueF f (w2 ++ (sv ++ (w3 ++ ('}' :: rest)))) =
            some (v, w3 ++ ('}' :: rest)) := by
          rw [parseValueF_ws_append f w2 _ h2]
          exact (IH n (by omega)).1 v sv hv f (w3 ++ ('}' :: rest)) (by omega) hstop
        have hshape : (w0 ++ (renderString k ++
              (w1 ++ (':' :: (w2 ++ (sv ++ (w3 ++ ['}']))))))) ++ rest =
            w0 ++ ('"' :: (escapeList k.data ++ ('"' ::
              (w1 ++ (':' :: (w2 ++ (sv ++ (w3 ++ ('}' :: rest))))))))) := by
          simp [renderString]
        have hws0 : skipJsonWs (w0 ++ ('"' :: (escapeList k.data ++ ('"' ::
              (w1 ++ (':' :: (w2 ++ (sv ++ (w3 ++ ('}' :: rest)))))))))) =
            '"' :: (escapeList k.data ++ ('"' ::
              (w1 ++ (':' :: (w2 ++ (sv ++ (w3 ++ ('}' :: rest)))))))) := by
          rw [skipJsonWs_append w0 h0, skipJsonWs_cons '"' (by decide)]
        have hws1 : skipJsonWs (w1 ++ (':' :: (w2 ++ (sv ++ (w3 ++ ('}' :: rest)))))) =
            ':' :: (w2 ++ (sv ++ (w3 ++ ('}' :: rest)))) := by
          rw [skipJsonWs_append w1 h1, skipJsonWs_cons ':' (by decide)]
        have hws3 : skipJsonWs (w3 ++ ('}' :: rest)) = '}' :: rest := by
          rw [skipJsonWs_append w3 h3, skipJsonWs_cons '}' (by decide)]
        rw [hshape]
        simp only [parseMembersF, hws0, parseStringBody_escapeList, hws1, hval, hws3]
        simp [insertList]
    | rcons n k v ms sv w0 w1 w2 w3 r hv h0 h1 h2 h3 hr =>
        have hstop : numStop (w3 ++ (',' :: (r ++ rest))) :=
          numStop_ws_cons w3 h3 ',' ⟨by decide, by decide, by decide, by decide⟩ (r ++ rest)
        have hval : parseValueF f (w2 ++ (sv ++ (w3 ++ (',' :: (r ++ rest))))) =
            some (v, w3 ++ (',' :: (r ++ rest))) := by
          rw [parseValueF_ws_append f w2 _ h2]
          exact (IH n (by omega)).1 v sv hv f (w3 ++ (',' :: (r ++ rest))) (by omega) hstop
        have hshape : (w0 ++ (renderString k ++
              (w1 ++ (':' :: (w2 ++ (sv ++ (w3 ++ (',' :: r)))))))) ++ rest =
            w0 ++ ('"' :: (escapeList k.data ++ ('"' ::
              (w1 ++ (':' :: (w2 ++ (sv ++ (w3 ++ (',' :: (r ++ rest)))))))))) := by
          simp [renderString]
        have hws0 : skipJsonWs (w0 ++ ('"' :: (escapeList k.data ++ ('"' ::
              (w1 ++ (':' :: (w2 ++ (sv ++ (w3 ++ (',' :: (r ++ rest))))))))))) =
            '"' :: (escapeList k.data ++ ('"' ::
              (w1 ++ (':' :: (w2 ++ (sv ++ (w3 ++ (',' :: (r ++ rest)))))))))  := by
          rw [skipJsonWs_append w0 h0, skipJsonWs_cons '"' (by decide)]
        have hws1 : skipJsonWs (w1 ++ (':' :: (w2 ++ (sv ++ (w3 ++ (',' :: (r ++ rest))))))) =
            ':' :: (w2 ++ (sv ++ (w3 ++ (',' :: (r ++ rest))))) := by
          rw [skipJsonWs_append w1 h1, skipJsonWs_cons ':' (by decide)]
        have hws3 : skipJsonWs (w3 ++ (',' :: (r ++ rest))) = ',' :: (r ++ rest) := by
          rw [skipJsonWs_append w3 h3, skipJsonWs_cons ',' (by decide)]
        have hrec := (IH n (by omega)).2.2 ms r hr f rest (objInsert acc k v) (by omega)
        rw [hshape]
        simp only [parseMembersF, hws0, parseStringBody_escapeList, hws1, hval, hws3, hrec]
        simp [insertList]

end RewardsBot

namespace RewardsBot

/-- `RL` (with items and members) is monotone in its index. -/
theorem RL_mono (N : Nat) :
    (∀ v s, RL N v s → ∀ m, N ≤ m → RL m v s) ∧
    (∀ vs s, RLitems N vs s → ∀ m, N ≤ m → RLitems m vs s) ∧
    (∀ ms s, RLmembers N ms s → ∀ m, N ≤ m → RLmembers m ms s) := by
  induction N using Nat.strong_induction_on with
  | _ N IH =>
  refine ⟨?_, ?_, ?_⟩
  · intro v s h m hm
    cases h with
    | rnull n => exact RL.rnull m
    | rtrue n => exact RL.rtrue m
    | rfalse n => exact RL.rfalse m
    | rnum n i => exact RL.rnum m i
    | rstr n str => exact RL.rstr m str
    | rarrEmpty n w hw => exact RL.rarrEmpty m w hw
    | rarr n vs s hi =>
        obtain ⟨m2, rfl⟩ : ∃ m2, m = m2 + 1 := ⟨m - 1, by omega⟩
        exact RL.rarr m2 vs s ((IH n (by omega)).2.1 vs s hi m2 (by omega))
    | robjEmpty n w hw => exact RL.robjEmpty m w hw
    | robj n ms s hm2 hnd =>
        obtain ⟨m2, rfl⟩ : ∃ m2, m = m2 + 1 := ⟨m - 1, by omega⟩
        exact RL.robj m2 ms s ((IH n (by omega)).2.2 ms s hm2 m2 (by omega)) hnd
  · intro vs s h m hm
    cases h with
    | rlast n v sv w0 w1 hv h0 h1 =>
        obtain ⟨m2, rfl⟩ : ∃ m2, m = m2 + 1 := ⟨m - 1, by omega⟩
        exact RLitems.rlast m2 v sv w0 w1 ((IH n (by omega)).1 v sv hv m2 (by omega)) h0 h1
    | rcons n v vs sv w0 w1 r hv h0 h1 hr =>
        obtain ⟨m2, rfl⟩ : ∃ m2, m = m2 + 1 := ⟨m - 1, by omega⟩
        exact RLitems.rcons m2 v vs sv w0 w1 r
          ((IH n (by omega)).1 v sv hv m2 (by omega)) h0 h1
          ((IH n (by omega)).2.1 vs r hr m2 (by omega))
  · intro ms s h m hm
    cases h with
    | rlast n k v sv w0 w1 w2 w3 hv h0 h1 h2 h3 =>
        obtain ⟨m2, rfl⟩ : ∃ m2, m = m2 + 1 := ⟨m - 1, by omega⟩
        exact RLmembers.rlast m2 k v sv w0 w1 w2 w3
          ((IH n (by omega)).1 v sv hv m2 (by omega)) h0 h1 h2 h3
    | rcons n k v ms sv w0 w1 w2 w3 r hv h0 h1 h2 h3 hr =>
        obtain ⟨m2, rfl⟩ : ∃ m2, m = m2 + 1 := ⟨m - 1, by omega⟩
        exact RLmembers.rcons m2 k v ms sv w0 w1 w2 w3 r
          ((IH n (by omega)).1 v sv hv m2 (by omega)) h0 h1 h2 h3
          ((IH n (by omega)).2.2 ms r hr m2 (by omega))

end RewardsBot

namespace RewardsBot

/-- Keys after an `objInsert`. -/
theorem mem_keys_objInsert (ms : List (String × JValue)) (k a : String) (v : JValue) :
    a ∈ (objInsert ms k v).map Prod.fst ↔ a ∈ ms.map Prod.fst ∨ a = k := by
  induction ms with
  | nil => simp [objInsert]
  | cons m rest ih =>
      obtain ⟨k', v'⟩ := m
      by_cases hk : k' = k
      · subst hk
        simp [objInsert]
        tauto
      · simp [objInsert, hk, ih]
        tauto

/-- `objInsert` preserves pairwise-distinct keys. -/
theorem keysNodup_objInsert (ms : List (String × JValue)) (k : String) (v : JValue)
    (h : keysNodup ms) : keysNodup (objInsert ms k v) := by
  induction ms with
  | nil => simp [objInsert, keysNodup]
  | cons m rest ih =>
      obtain ⟨k', v'⟩ := m
      simp only [keysNodup, List.pairwise_cons] at h
      by_cases hk : k' = k
      · subst hk
        simp only [objInsert, if_pos rfl]
        exact List.Pairwise.cons (fun b hb => h.1 b hb) h.2
      · simp only [objInsert, if_neg hk]
        refine List.Pairwise.cons ?_ (ih h.2)
        intro b hb
        have : b.1 ∈ (objInsert rest k v).map Prod.fst := List.mem_map_of_mem _ hb
        rw [mem_keys_objInsert] at this
        rcases this with hmem | heq
        · obtain ⟨b', hb', hb1⟩ := List.mem_map.mp hmem
          intro hcontra
          exact h.1 b' hb' (by rw [← hb1] at hcontra; exact hcontra)
        · intro hcontra; exact hk (hcontra.trans heq)

/-- Inserting a fresh key appends it. -/
theorem objInsert_append_of_not_mem (ms : List (String × JValue)) (k : String)
    (v : JValue) (h : k ∉ ms.map Prod.fst) : objInsert ms k v = ms ++ [(k, v)] := by
  induction ms with
  | nil => rfl
  | cons m rest ih =>
      obtain ⟨k', v'⟩ := m
      simp only [List.map_cons, List.mem_cons] at h
      push_neg at h
      have hne : ¬k' = k := fun he => h.1 he.symm
      simp [objInsert, hne, ih h.2]

/-- Accumulating pairwise-fresh members appends them. -/
theorem insertList_append_of_disjoint (ms : List (String × JValue)) :
    ∀ acc, keysNodup ms → (∀ m ∈ ms, m.1 ∉ acc.map Prod.fst) →
    insertList acc ms = acc ++ ms := by
  induction ms with
  | nil => intro acc _ _; simp [insertList]
  | cons m rest ih =>
      intro acc hnd hdisj
      obtain ⟨k, v⟩ := m
      simp only [keysNodup, List.pairwise_cons] at hnd
      have hk : k ∉ acc.map Prod.fst := hdisj (k, v) (by simp)
      have step : objInsert acc k v = acc ++ [(k, v)] :=
        objInsert_append_of_not_mem acc k v hk
      show insertList (objInsert acc k v) rest = acc ++ (k, v) :: rest
      rw [step, ih (acc ++ [(k, v)]) hnd.2]
      · simp
      · intro m hm
        simp only [List.map_append, List.mem_append]
        push_neg
        refine ⟨fun hc => hdisj m (by simp [hm]) hc, ?_⟩
        simp only [List.map_cons, List.map_nil, List.mem_singleton]
        intro hc
        exact absurd hc.symm (hnd.1 m hm)

/-- On a list with pairwise-distinct keys, re-accumulation is the
identity. -/
theorem insertList_id (ms : List (String × JValue)) (h : keysNodup ms) :
    insertList [] ms = ms := by
  rw [insertList_append_of_disjoint ms [] h (by simp)]
  simp

/-- Reading back the inserted key. -/
theorem objGet_objInsert_self (ms : List (String × JValue)) (k : String) (v : JValue) :
    objGet (objInsert ms k v) k = some v := by
  induction ms with
  | nil => simp [objInsert, objGet]
  | cons m rest ih =>
      obtain ⟨k', v'⟩ := m
      by_cases hk : k' = k
      · subst hk; simp [objInsert, objGet]
      · simp [objInsert, objGet, hk, ih]

/-- Reading another key is unchanged by an insert. -/
theorem objGet_objInsert_ne (ms : List (String × JValue)) (k k2 : String) (v : JValue)
    (h : k2 ≠ k) : objGet (objInsert ms k v) k2 = objGet ms k2 := by
  induction ms with
  | nil => simp [objInsert, objGet, Ne.symm h]
  | cons m rest ih =>
      obtain ⟨k', v'⟩ := m
      by_cases hk : k' = k
      · subst hk
        simp [objInsert, objGet, Ne.symm h]
      · by_cases hk2 : k' = k2
        · subst hk2; simp [objInsert, objGet, hk]
        · simp [objInsert, objGet, hk, hk2, ih]

end RewardsBot

namespace RewardsBot

/-- Members after an insert: either an original member or one carrying the
inserted value. -/
theorem mem_objInsert (acc : List (String × JValue)) (k : String) (v : JValue) :
    ∀ m ∈ objInsert acc k v, m ∈ acc ∨ m.2 = v := by
  induction acc with
  | nil => intro m hm; simp [objInsert] at hm; simp [hm]
  | cons a rest ih =>
      obtain ⟨k', v'⟩ := a
      intro m hm
      by_cases hk : k' = k
      · subst hk
        simp only [objInsert, if_pos rfl] at hm
        cases hm with
        | head => right; rfl
        | tail _ hm => left; exact List.mem_cons_of_mem _ hm
      · simp only [objInsert, if_neg hk] at hm
        cases hm with
        | head => left; exact List.mem_cons_self _ _
        | tail _ hm =>
            rcases ih m hm with h | h
            · left; exact List.mem_cons_of_mem _ h
            · right; exact h

end RewardsBot

namespace RewardsBot

/-- Every value produced by the fueled parser satisfies the
well-formedness invariant `Jwf`. -/
theorem parseJwf (fuel : Nat) :
    (∀ cs v r, parseValueF fuel cs = some (v, r) → Jwf v) ∧
    (∀ cs acc v r, (∀ x ∈ acc, Jwf x) →
      parseArrayItemsF fuel cs acc = some (v, r) → Jwf v) ∧
    (∀ cs acc v r, keysNodup acc → (∀ m ∈ acc, Jwf m.2) →
      parseMembersF fuel cs acc = some (v, r) → Jwf v) := by
  induction fuel with
  | zero =>
      refine ⟨?_, ?_, ?_⟩ <;> intros cs v r <;> intros <;>
        simp [parseValueF, parseArrayItemsF, parseMembersF] at *
  | succ f IH =>
      refine ⟨?_, ?_, ?_⟩
      · intro cs v r h
        simp only [parseValueF] at h
        split at h
        · cases h
        · split at h
          · -- string branch
            split at h
            · simp only [Option.some.injEq, Prod.mk.injEq] at h
              rw [← h.1]; exact Jwf.str _
            · cases h
          · split at h
            · -- array branch
              split at h
              · simp only [Option.some.injEq, Prod.mk.injEq] at h
                rw [← h.1]; exact Jwf.arr [] (by simp)
              · exact IH.2.1 _ [] v r (by simp) h
            · split at h
              · -- object branch
                split at h
                · simp only [Option.some.injEq, Prod.mk.injEq] at h
                  rw [← h.1]; exact Jwf.obj [] rfl (by simp)
                · exact IH.2.2 _ [] v r (by simp [keysNodup]) (by simp) h
              · split at h
                · -- true branch
                  split at h
                  · simp only [Option.some.injEq, Prod.mk.injEq] at h
                    rw [← h.1]; exact Jwf.bool true
                  · cases h
                · split at h
                  · -- false branch
                    split at h
                    · simp only [Option.some.injEq, Prod.mk.injEq] at h
                      rw [← h.1]; exact Jwf.bool false
                    · cases h
                  · split at h
                    · -- null branch
                      split at h
                      · simp only [Option.some.injEq, Prod.mk.injEq] at h
                        rw [← h.1]; exact Jwf.null
                      · cases h
                    · -- number branch
                      split at h
                      · simp only [Option.some.injEq, Prod.mk.injEq] at h
                        rw [← h.1]; exact Jwf.num _
                      · cases h
      · intro cs acc v r hacc h
        simp only [parseArrayItemsF] at h
        split at h
        · cases h
        · next v1 r1 heq =>
            have hv1 : Jwf v1 := IH.1 cs v1 r1 heq
            split at h
            · refine IH.2.1 _ (v1 :: acc) v r ?_ h
              intro x hx
              cases hx with
              | head => exact hv1
              | tail _ hx => exact hacc x hx
            · simp only [Option.some.injEq, Prod.mk.injEq] at h
              rw [← h.1]
              refine Jwf.arr _ ?_
              intro x hx
              rw [List.mem_reverse] at hx
              cases hx with
              | head => exact hv1
              | tail _ hx => exact hacc x hx
            · cases h
      · intro cs acc v r hnd hacc h
        simp only [parseMembersF] at h
        split at h
        · -- '"' :: cs2
          split at h
          · cases h
          · next kcs cs3 heqs =>
              split at h
              · -- ':' :: cs4
                split at h
                · cases h
                · next v1 cs5 heqv =>
                    have hv1 : Jwf v1 := IH.1 _ v1 cs5 heqv
                    split at h
                    · -- ',' :: cs6 — recurse with inserted accumulator
                      refine IH.2.2 _ (objInsert acc ⟨kcs⟩ v1) v r
                        (keysNodup_objInsert acc _ v1 hnd) ?_ h
                      intro m hm
                      rcases mem_objInsert acc _ v1 m hm with hmem | hval
                      · exact hacc m hmem
                      · rw [hval]; exact hv1
                    · -- '}' :: cs6 — final object
                      simp only [Option.some.injEq, Prod.mk.injEq] at h
                      rw [← h.1]
                      refine Jwf.obj _ (insertList_id _
                        (keysNodup_objInsert acc _ v1 hnd)) ?_
                      intro m hm
                      rcases mem_objInsert acc _ v1 m hm with hmem | hval
                      · exact hacc m hmem
                      · rw [hval]; exact hv1
                    · cases h
              · cases h
        · cases h

end RewardsBot

namespace RewardsBot

/-- Indentation is JSON whitespace. -/
theorem wsOnly_indentChars (n : Nat) : wsOnly (indentChars n) := by
  intro c hc
  simp only [indentChars, List.mem_replicate] at hc
  rw [hc.2]; decide

/-- Concatenation preserves `wsOnly`. -/
theorem wsOnly_append {a b : List Char} (ha : wsOnly a) (hb : wsOnly b) :
    wsOnly (a ++ b) := by
  intro c hc
  rcases List.mem_append.mp hc with h | h
  · exact ha c h
  · exact hb c h

/-- A newline cons preserves `wsOnly`. -/
theorem wsOnly_nl_cons {a : List Char} (ha : wsOnly a) : wsOnly ('\n' :: a) := by
  intro c hc
  rcases List.mem_cons.mp hc with h | h
  · rw [h]; decide
  · exact ha c h

/-- The empty list is `wsOnly`. -/
theorem wsOnly_nil : wsOnly ([] : List Char) := by intro c hc; cases hc

/-- A single space is `wsOnly`. -/
theorem wsOnly_space : wsOnly ([' '] : List Char) := by
  intro c hc
  rcases List.mem_singleton.mp hc with h
  rw [h]; decide

/-- Every `Jwf` value is `RL`-related to its rendering at every
indentation level, at an index below the rendered length. -/
theorem renderRL {v : JValue} (hwf : Jwf v) :
    ∀ ind, ∃ n, RL n v (renderV ind v) ∧ n + 1 ≤ (renderV ind v).length := by
  induction hwf with
  | null => intro ind; exact ⟨0, RL.rnull 0, by simp [renderV]⟩
  | bool b =>
      intro ind
      cases b
      · exact ⟨0, RL.rfalse 0, by simp [renderV]⟩
      · exact ⟨0, RL.rtrue 0, by simp [renderV]⟩
  | num i =>
      intro ind
      obtain ⟨c0, t, hs, -⟩ := renderInt_head i
      exact ⟨0, RL.rnum 0 i, by simp [renderV, hs]⟩
  | str s => intro ind; exact ⟨0, RL.rstr 0 s, by simp [renderV, renderString]⟩
  | arr l h ih =>
      intro ind
      cases l with
      | nil =>
          refine ⟨0, ?_, by simp [renderV]⟩
          have := RL.rarrEmpty 0 [] wsOnly_nil
          simpa using this
      | cons x xs =>
          have aux : ∀ (ys : List JValue), ys ≠ [] →
              (∀ y ∈ ys, ∀ ind2, ∃ n, RL n y (renderV ind2 y) ∧
                n + 1 ≤ (renderV ind2 y).length) →
              ∀ w, wsOnly w → ∃ n, RLitems n ys (w ++ renderItems ind ys) ∧
                n + 1 ≤ (w ++ renderItems ind ys).length := by
            intro ys
            induction ys with
            | nil => intro hne _ _ _; exact absurd rfl hne
            | cons y zs ihy =>
                intro _ hys w hw
                cases zs with
                | nil =>
                    obtain ⟨n, hrl, hlen⟩ := hys y (by simp) (ind + 1)
                    refine ⟨n + 1, ?_, ?_⟩
                    · have hsh : w ++ renderItems ind [y] =
                          (w ++ indentChars (ind + 1)) ++ (renderV (ind + 1) y ++
                            (('\n' :: indentChars ind) ++ [']'])) := by
                        simp [renderItems]
                      rw [hsh]
                      exact RLitems.rlast n y _ _ _ hrl
                        (wsOnly_append hw (wsOnly_indentChars _))
                        (wsOnly_nl_cons (wsOnly_indentChars _))
                    · simp only [renderItems, List.length_append, List.length_cons]
                      omega
                | cons z zs2 =>
                    obtain ⟨nv, hrlv, hlenv⟩ := hys y (by simp) (ind + 1)
                    obtain ⟨nr, hrlr, hlenr⟩ := ihy (by simp)
                      (fun y2 hy2 => hys y2 (by simp [hy2])) ['\n'] (by intro c hc; rcases List.mem_singleton.mp hc with h; rw [h]; decide)
                    have hlenr2 : nr ≤ (renderItems ind (z :: zs2)).length := by
                      simp only [List.length_append, List.length_singleton] at hlenr
                      omega
                    have hsh : w ++ renderItems ind (y :: z :: zs2) =
                        (w ++ indentChars (ind + 1)) ++ (renderV (ind + 1) y ++
                          (([] : List Char) ++ (',' ::
                            (['\n'] ++ renderItems ind (z :: zs2))))) := by
                      simp [renderItems]
                    refine ⟨(nv ⊔ nr) + 1, ?_, ?_⟩
                    · rw [hsh]
                      exact RLitems.rcons (nv ⊔ nr) y (z :: zs2) _ _ _ _
                        ((RL_mono nv).1 y _ hrlv _ (by omega))
                        (wsOnly_append hw (wsOnly_indentChars _)) wsOnly_nil
                        ((RL_mono nr).2.1 (z :: zs2) _ hrlr _ (by omega))
                    · rw [hsh]
                      simp only [List.length_append, List.length_cons,
                        List.length_singleton, List.length_nil]
                      omega
          obtain ⟨n, hrl, hlen⟩ := aux (x :: xs) (by simp) (fun y hy => ih y hy) ['\n']
            (by intro c hc; rcases List.mem_singleton.mp hc with hc2; rw [hc2]; decide)
          refine ⟨n + 1, ?_, ?_⟩
          · have hsh : renderV ind (JValue.jarr (x :: xs)) =
                '[' :: (['\n'] ++ renderItems ind (x :: xs)) := by simp [renderV]
            rw [hsh]
            exact RL.rarr n (x :: xs) _ hrl
          · simp only [renderV, List.length_cons]
            simp only [List.length_append, List.length_singleton] at hlen
            omega
  | obj ms hnd h ih =>
      intro ind
      cases ms with
      | nil =>
          refine ⟨0, ?_, by simp [renderV]⟩
          have := RL.robjEmpty 0 [] wsOnly_nil
          simpa using this
      | cons m ms2 =>
          have aux : ∀ (ys : List (String × JValue)), ys ≠ [] →
              (∀ y ∈ ys, ∀ ind2, ∃ n, RL n y.2 (renderV ind2 y.2) ∧
                n + 1 ≤ (renderV ind2 y.2).length) →
              ∀ w, wsOnly w → ∃ n, RLmembers n ys (w ++ renderMembers ind ys) ∧
                n + 1 ≤ (w ++ renderMembers ind ys).length := by
            intro ys
            induction ys with
            | nil => intro hne _ _ _; exact absurd rfl hne
            | cons y zs ihy =>
                obtain ⟨k, v2⟩ := y
                intro _ hys w hw
                cases zs with
                | nil =>
                    obtain ⟨n, hrl, hlen⟩ := hys (k, v2) (by simp) (ind + 1)
                    have hlen2 : n + 1 ≤ (renderV (ind + 1) v2).length := hlen
                    have hrl2 : RL n v2 (renderV (ind + 1) v2) := hrl
                    refine ⟨n + 1, ?_, ?_⟩
                    · have hsh : w ++ renderMembers ind [(k, v2)] =
                          (w ++ indentChars (ind + 1)) ++ (renderString k ++
                            (([] : List Char) ++ (':' :: ([' '] ++
                              (renderV (ind + 1) v2 ++
                                (('\n' :: indentChars ind) ++ ['}'])))))) := by
                        simp [renderMembers]
                      rw [hsh]
                      exact RLmembers.rlast n k v2 _ _ _ _ _ hrl2
                        (wsOnly_append hw (wsOnly_indentChars _)) wsOnly_nil
                        wsOnly_space (wsOnly_nl_cons (wsOnly_indentChars _))
                    · simp only [renderMembers, List.length_append, List.length_cons]
                      omega
                | cons z zs2 =>
                    obtain ⟨nv, hrlv, hlenv⟩ := hys (k, v2) (by simp) (ind + 1)
                    obtain ⟨nr, hrlr, hlenr⟩ := ihy (by simp)
                      (fun y2 hy2 => hys y2 (by simp [hy2])) ['\n']
                      (by intro c hc; rcases List.mem_singleton.mp hc with hc2; rw [hc2]; decide)
                    have hlenv2 : nv + 1 ≤ (renderV (ind + 1) v2).length := hlenv
                    have hrlv2 : RL nv v2 (renderV (ind + 1) v2) := hrlv
                    have hlenr2 : nr ≤ (renderMembers ind (z :: zs2)).length := by
                      simp only [List.length_append, List.length_singleton] at hlenr
                      omega
                    have hsh : w ++ renderMembers ind ((k, v2) :: z :: zs2) =
                        (w ++ indentChars (ind + 1)) ++ (renderString k ++
                          (([] : List Char) ++ (':' :: ([' '] ++
                            (renderV (ind + 1) v2 ++ (([] : List Char) ++ (',' ::
                              (['\n'] ++ renderMembers ind (z :: zs2))))))))) := by
                      simp [renderMembers]
                    refine ⟨(nv ⊔ nr) + 1, ?_, ?_⟩
                    · rw [hsh]
                      exact RLmembers.rcons (nv ⊔ nr) k v2 (z :: zs2) _ _ _ _ _ _
                        ((RL_mono nv).1 v2 _ hrlv2 _ (by omega))
                        (wsOnly_append hw (wsOnly_indentChars _)) wsOnly_nil
                        wsOnly_space wsOnly_nil
                        ((RL_mono nr).2.2 (z :: zs2) _ hrlr _ (by omega))
                    · rw [hsh]
                      simp only [List.length_append, List.length_cons,
                        List.length_singleton, List.length_nil]
                      omega
          obtain ⟨n, hrl, hlen⟩ := aux (m :: ms2) (by simp) (fun y hy => ih y hy) ['\n']
            (by intro c hc; rcases List.mem_singleton.mp hc with hc2; rw [hc2]; decide)
          refine ⟨n + 1, ?_, ?_⟩
          · have hsh : renderV ind (JValue.jobj (m :: ms2)) =
                '{' :: (['\n'] ++ renderMembers ind (m :: ms2)) := by simp [renderV]
            rw [hsh]
            exact RL.robj n (m :: ms2) _ hrl hnd
          · simp only [renderV, List.length_cons]
            simp only [List.length_append, List.length_singleton] at hlen
            omega

end RewardsBot

namespace RewardsBot

/-- Characters of a rendered integer: minus sign or digits. -/
theorem renderInt_chars (i : Int) : ∀ c ∈ renderInt i, c = '-' ∨ isDigitChar c = true := by
  intro c hc
  by_cases hneg : i < 0
  · simp only [renderInt, if_pos hneg] at hc
    rcases List.mem_cons.mp hc with h | h
    · left; exact h
    · right; exact natToDigits_digits _ _ (by omega) c h
  · simp only [renderInt, if_neg hneg] at hc
    right; exact natToDigits_digits _ _ (by omega) c hc

/-- Rendered integers contain neither slash, quote nor newline. -/
theorem renderInt_plain (i : Int) :
    ∀ c ∈ renderInt i, c ≠ '/' ∧ isQuote c = false ∧ c ≠ '\n' := by
  intro c hc
  rcases renderInt_chars i c hc with h | h
  · subst h; refine ⟨by decide, by decide, by decide⟩
  · have hb : 48 ≤ c.toNat ∧ c.toNat ≤ 57 := by
      simpa [isDigitChar, Bool.and_eq_true, decide_eq_true_eq] using h
    refine ⟨?_, ?_, ?_⟩
    · intro hcontra; subst hcontra; exact absurd hb (by decide)
    · simp only [isQuote, Bool.or_eq_false_iff, decide_eq_false_iff_not]
      constructor
      · intro hcontra; subst hcontra; exact absurd hb (by decide)
      · omega
    · intro hcontra; subst hcontra; exact absurd hb (by decide)

/-- JSON whitespace is neither slash nor quote nor carriage-unsafe. -/
theorem wsOnly_plain {w : List Char} (hw : wsOnly w) :
    ∀ c ∈ w, c ≠ '/' ∧ isQuote c = false := by
  intro c hc
  have := hw c hc
  simp only [isJsonWs, Bool.or_eq_true, decide_eq_true_eq] at this
  rcases this with ((h | h) | h) | h <;> subst h <;> exact ⟨by decide, by decide⟩

/-- `stripGo` copies plain characters (no slash, no quote) in normal
state. -/
theorem stripGo_normal_plain : ∀ (l : List Char),
    (∀ c ∈ l, c ≠ '/' ∧ isQuote c = false) → ∀ rest,
    stripGo StripMode.normal (l ++ rest) = l ++ stripGo StripMode.normal rest := by
  intro l
  induction l with
  | nil => intro _ rest; rfl
  | cons c cs ih =>
      intro h rest
      have hc := h c (by simp)
      simp only [List.cons_append, stripGo, if_neg hc.1, hc.2, Bool.false_eq_true,
        if_false]
      exact congrArg (List.cons c) (ih (fun x hx => h x (by simp [hx])) rest)

/-- Hex digits are not backslash or quote characters. -/
theorem hexDigitChar_plain (n : Nat) (h : n < 16) :
    hexDigitChar n ≠ '\\' ∧ hexDigitChar n ≠ '"' := by
  interval_cases n <;> exact ⟨by decide, by decide⟩

/-- `stripGo` copies one escaped character inside a double-quoted
string. -/
theorem stripGo_inStr_escapeChar (c : Char) (rest : List Char) :
    stripGo (StripMode.inStr '"') (escapeChar c ++ rest) =
      escapeChar c ++ stripGo (StripMode.inStr '"') rest := by
  by_cases h1 : c = '"'
  · subst h1; simp [escapeChar, stripGo]
  · by_cases h2 : c = '\\'
    · subst h2; simp [escapeChar, stripGo]
    · by_cases h3 : c.toNat = 8
      · simp [escapeChar, h1, h2, h3, stripGo]
      · by_cases h4 : c.toNat = 12
        · simp [escapeChar, h1, h2, h3, h4, stripGo]
        · by_cases h5 : c = '\n'
          · subst h5; simp [escapeChar, stripGo]
          · by_cases h6 : c = '\r'
            · subst h6; simp [escapeChar, stripGo]
            · by_cases h7 : c = '\t'
              · subst h7; simp [escapeChar, stripGo]
              · by_cases h8 : c.toNat < 0x20
                · have hhi := hexDigitChar_plain (c.toNat / 16) (by omega)
                  have hlo := hexDigitChar_plain (c.toNat % 16) (Nat.mod_lt _ (by omega))
                  simp only [escapeChar, if_neg h1, if_neg h2, if_neg h3, if_neg h4,
                    if_neg h5, if_neg h6, if_neg h7, if_pos h8]
                  simp [stripGo, hhi.1, hhi.2, hlo.1, hlo.2]
                · simp only [escapeChar, if_neg h1, if_neg h2, if_neg h3, if_neg h4,
                    if_neg h5, if_neg h6, if_neg h7, if_neg h8]
                  simp [stripGo, h1, h2]

/-- `stripGo` copies an escaped string body inside a double-quoted
string. -/
theorem stripGo_inStr_escapeList (cs : List Char) : ∀ rest,
    stripGo (StripMode.inStr '"') (escapeList cs ++ rest) =
      escapeList cs ++ stripGo (StripMode.inStr '"') rest := by
  induction cs with
  | nil => intro rest; rfl
  | cons c cs ih =>
      intro rest
      show stripGo (StripMode.inStr '"') ((escapeChar c ++ escapeList cs) ++ rest) = _
      rw [List.append_assoc, stripGo_inStr_escapeChar, ih]
      simp [escapeList]

/-- `stripGo` copies a rendered string verbatim. -/
theorem stripGo_renderString (s : String) (rest : List Char) :
    stripGo StripMode.normal (renderString s ++ rest) =
      renderString s ++ stripGo StripMode.normal rest := by
  have h1 : renderString s ++ rest = '"' :: (escapeList s.data ++ ('"' :: rest)) := by
    simp [renderString]
  rw [h1]
  rw [show stripGo StripMode.normal ('"' :: (escapeList s.data ++ ('"' :: rest))) =
      '"' :: stripGo (StripMode.inStr '"') (escapeList s.data ++ ('"' :: rest)) from by
    simp +decide [stripGo]]
  rw [stripGo_inStr_escapeList]
  simp [stripGo, renderString]

/-- `stripGo` consumes a line comment up to, but not including, the
newline. -/
theorem stripGo_lineC (cmt : List Char) (h : ∀ c ∈ cmt, c ≠ '\n' ∧ c ≠ '\r') :
    ∀ rest, stripGo StripMode.lineC (cmt ++ '\n' :: rest) =
      '\n' :: stripGo StripMode.normal rest := by
  induction cmt with
  | nil => intro rest; simp [stripGo]
  | cons c cs ih =>
      intro rest
      have hc := h c (by simp)
      simp only [List.cons_append, stripGo]
      rw [if_neg (by simp [hc.1, hc.2])]
      exact ih (fun x hx => h x (by simp [hx])) rest

/-- `stripGo` deletes a `//` line comment, keeping its newline. -/
theorem stripGo_lineComment (cmt : List Char) (h : ∀ c ∈ cmt, c ≠ '\n' ∧ c ≠ '\r')
    (rest : List Char) :
    stripGo StripMode.normal (('/' :: '/' :: cmt) ++ '\n' :: rest) =
      '\n' :: stripGo StripMode.normal rest := by
  simp only [List.cons_append, stripGo, if_pos rfl]
  exact stripGo_lineC cmt h rest

end RewardsBot

namespace RewardsBot

/-- Comment stripping copies every `RL`-derivable text verbatim (the
scanner passes through tokens and whitespace and returns to its normal
state). -/
theorem stripRL (N : Nat) :
    (∀ v s, RL N v s → ∀ rest, stripGo StripMode.normal (s ++ rest) =
      s ++ stripGo StripMode.normal rest) ∧
    (∀ vs s, RLitems N vs s → ∀ rest, stripGo StripMode.normal (s ++ rest) =
      s ++ stripGo StripMode.normal rest) ∧
    (∀ ms s, RLmembers N ms s → ∀ rest, stripGo StripMode.normal (s ++ rest) =
      s ++ stripGo StripMode.normal rest) := by
  induction N using Nat.strong_induction_on with
  | _ N IH =>
  refine ⟨?_, ?_, ?_⟩
  · intro v s h rest
    cases h with
    | rnull n => exact stripGo_normal_plain _ (by decide) rest
    | rtrue n => exact stripGo_normal_plain _ (by decide) rest
    | rfalse n => exact stripGo_normal_plain _ (by decide) rest
    | rnum n i =>
        exact stripGo_normal_plain _
          (fun c hc => ⟨(renderInt_plain i c hc).1, (renderInt_plain i c hc).2.1⟩) rest
    | rstr n str => exact stripGo_renderString str rest
    | rarrEmpty n w hw =>
        have hsh : ('[' :: (w ++ [']'])) ++ rest = ['['] ++ (w ++ ([']'] ++ rest)) := by
          simp
        rw [hsh, stripGo_normal_plain ['['] (by decide),
          stripGo_normal_plain w (wsOnly_plain hw),
          stripGo_normal_plain [']'] (by decide)]
        simp
    | rarr n vs s hi =>
        have hsh : ('[' :: s) ++ rest = ['['] ++ (s ++ rest) := by simp
        rw [hsh, stripGo_normal_plain ['['] (by decide),
          (IH n (by omega)).2.1 vs s hi rest]
        simp
    | robjEmpty n w hw =>
        have hsh : ('{' :: (w ++ ['}'])) ++ rest = ['{'] ++ (w ++ (['}'] ++ rest)) := by
          simp
        rw [hsh, stripGo_normal_plain ['{'] (by decide),
          stripGo_normal_plain w (wsOnly_plain hw),
          stripGo_normal_plain ['}'] (by decide)]
        simp
    | robj n ms s hm hnd =>
        have hsh : ('{' :: s) ++ rest = ['{'] ++ (s ++ rest) := by simp
        rw [hsh, stripGo_normal_plain ['{'] (by decide),
          (IH n (by omega)).2.2 ms s hm rest]
        simp
  · intro vs s h rest
    cases h with
    | rlast n v sv w0 w1 hv h0 h1 =>
        have hsh : (w0 ++ (sv ++ (w1 ++ [']']))) ++ rest =
            w0 ++ (sv ++ (w1 ++ ([']'] ++ rest))) := by simp
        rw [hsh, stripGo_normal_plain w0 (wsOnly_plain h0),
          (IH n (by omega)).1 v sv hv _,
          stripGo_normal_plain w1 (wsOnly_plain h1),
          stripGo_normal_plain [']'] (by decide)]
        simp
    | rcons n v vs sv w0 w1 r hv h0 h1 hr =>
        have hsh : (w0 ++ (sv ++ (w1 ++ (',' :: r)))) ++ rest =
            w0 ++ (sv ++ (w1 ++ ([','] ++ (r ++ rest)))) := by simp
        rw [hsh, stripGo_normal_plain w0 (wsOnly_plain h0),
          (IH n (by omega)).1 v sv hv _,
          stripGo_normal_plain w1 (wsOnly_plain h1),
          stripGo_normal_plain [','] (by decide),
          (IH n (by omega)).2.1 vs r hr rest]
        simp
  · intro ms s h rest
    cases h with
    | rlast n k v sv w0 w1 w2 w3 hv h0 h1 h2 h3 =>
        have hsh : (w0 ++ (renderString k ++ (w1 ++ (':' :: (w2 ++ (sv ++
              (w3 ++ ['}']))))))) ++ rest =
            w0 ++ (renderString k ++ (w1 ++ ([':'] ++ (w2 ++ (sv ++
              (w3 ++ (['}'] ++ rest))))))) := by simp
        rw [hsh, stripGo_normal_plain w0 (wsOnly_plain h0),
          stripGo_renderString k,
          stripGo_normal_plain w1 (wsOnly_plain h1),
          stripGo_normal_plain [':'] (by decide),
          stripGo_normal_plain w2 (wsOnly_plain h2),
          (IH n (by omega)).1 v sv hv _,
          stripGo_normal_plain w3 (wsOnly_plain h3),
          stripGo_normal_plain ['}'] (by decide)]
        simp
    | rcons n k v ms sv w0 w1 w2 w3 r hv h0 h1 h2 h3 hr =>
        have hsh : (w0 ++ (renderString k ++ (w1 ++ (':' :: (w2 ++ (sv ++
              (w3 ++ (',' :: r)))))))) ++ rest =
            w0 ++ (renderString k ++ (w1 ++ ([':'] ++ (w2 ++ (sv ++
              (w3 ++ ([','] ++ (r ++ rest)))))))) := by simp
        rw [hsh, stripGo_normal_plain w0 (wsOnly_plain h0),
          stripGo_renderString k,
          stripGo_normal_plain w1 (wsOnly_plain h1),
          stripGo_normal_plain [':'] (by decide),
          stripGo_normal_plain w2 (wsOnly_plain h2),
          (IH n (by omega)).1 v sv hv _,
          stripGo_normal_plain w3 (wsOnly_plain h3),
          stripGo_normal_plain [','] (by decide),
          (IH n (by omega)).2.2 ms r hr rest]
        simp

end RewardsBot

namespace RewardsBot

/-- Locating a newline in a concatenation. -/
theorem split_nl {A B p q : List Char} (h : A ++ B = p ++ '\n' :: q) :
    (∃ q1, A = p ++ '\n' :: q1 ∧ q = q1 ++ B) ∨
    (∃ p2, p = A ++ p2 ∧ B = p2 ++ '\n' :: q) := by
  rcases List.append_eq_append_iff.mp h with ⟨a2, ha1, ha2⟩ | ⟨c2, hc1, hc2⟩
  · right; exact ⟨a2, ha1, ha2⟩
  · cases c2 with
    | nil =>
        right
        refine ⟨[], by simpa using hc1.symm, ?_⟩
        simpa using hc2.symm
    | cons x xs =>
        left
        have hx : '\n' = x ∧ q = xs ++ B := by
          have h2 := hc2
          simp only [List.cons_append] at h2
          exact ⟨List.head_eq_of_cons_eq h2, List.tail_eq_of_cons_eq h2⟩
        refine ⟨xs, ?_, hx.2⟩
        rw [hc1, ← hx.1]

/-- A newline-free token cannot contain the split newline. -/
theorem token_no_split {T p q : List Char} (hT : '\n' ∉ T)
    (h : T = p ++ '\n' :: q) : False :=
  hT (by rw [h]; exact List.mem_append_right p (List.mem_cons_self _ _))

/-- Peeling a non-newline head character off a split. -/
theorem cons_split {c : Char} {X p q : List Char} (hc : c ≠ '\n')
    (h : c :: X = p ++ '\n' :: q) :
    ∃ p2, p = c :: p2 ∧ X = p2 ++ '\n' :: q := by
  cases p with
  | nil =>
      simp only [List.nil_append] at h
      exact absurd (List.head_eq_of_cons_eq h) hc
  | cons a p2 =>
      simp only [List.cons_append] at h
      exact ⟨p2, by rw [← List.head_eq_of_cons_eq h], List.tail_eq_of_cons_eq h⟩

/-- Whitespace-only lists split. -/
theorem wsOnly_split {a b : List Char} (h : wsOnly (a ++ b)) : wsOnly a ∧ wsOnly b :=
  ⟨fun c hc => h c (List.mem_append_left b hc),
   fun c hc => h c (List.mem_append_right a hc)⟩

/-- The tail of a whitespace cons. -/
theorem wsOnly_cons_tail {c : Char} {t : List Char} (h : wsOnly (c :: t)) : wsOnly t :=
  fun x hx => h x (List.mem_cons_of_mem c hx)

/-- Escapes never produce a raw newline. -/
theorem nl_not_mem_escapeChar (c : Char) : '\n' ∉ escapeChar c := by
  by_cases h1 : c = '"'
  · subst h1; decide
  · by_cases h2 : c = '\\'
    · subst h2; decide
    · by_cases h3 : c.toNat = 8
      · simp +decide [escapeChar, h1, h2, h3]
      · by_cases h4 : c.toNat = 12
        · simp +decide [escapeChar, h1, h2, h3, h4]
        · by_cases h5 : c = '\n'
          · subst h5; decide
          · by_cases h6 : c = '\r'
            · subst h6; decide
            · by_cases h7 : c = '\t'
              · subst h7; decide
              · by_cases h8 : c.toNat < 0x20
                · simp only [escapeChar, if_neg h1, if_neg h2, if_neg h3, if_neg h4,
                    if_neg h5, if_neg h6, if_neg h7, if_pos h8]
                  intro hc
                  have hhi : c.toNat / 16 < 16 := by omega
                  have hlo : c.toNat % 16 < 16 := Nat.mod_lt _ (by omega)
                  simp only [List.mem_cons, List.not_mem_nil, or_false] at hc
                  rcases hc with h | h | h | h | h | h
                  · exact absurd h (by decide)
                  · exact absurd h (by decide)
                  · exact absurd h (by decide)
                  · exact absurd h (by decide)
                  · revert h
                    generalize hgen : c.toNat / 16 = m at hhi
                    interval_cases m <;> decide
                  · revert h
                    generalize hgen : c.toNat % 16 = m at hlo
                    interval_cases m <;> decide
                · simp only [escapeChar, if_neg h1, if_neg h2, if_neg h3, if_neg h4,
                    if_neg h5, if_neg h6, if_neg h7, if_neg h8]
                  simp only [List.mem_singleton]
                  exact fun hc => h5 hc.symm

/-- Escaped string bodies contain no raw newline. -/
theorem nl_not_mem_escapeList (cs : List Char) : '\n' ∉ escapeList cs := by
  induction cs with
  | nil => simp [escapeList]
  | cons c cs ih =>
      simp only [escapeList, List.mem_append]
      rintro (h | h)
      · exact nl_not_mem_escapeChar c h
      · exact ih h

/-- Rendered strings contain no raw newline. -/
theorem nl_not_mem_renderString (s : String) : '\n' ∉ renderString s := by
  simp only [renderString, List.mem_cons, List.mem_append, List.mem_singleton]
  rintro (h | h | h)
  · exact absurd h (by decide)
  · exact nl_not_mem_escapeList s.data h
  · exact absurd h (by decide)

/-- Rendered integers contain no raw newline. -/
theorem nl_not_mem_renderInt (i : Int) : '\n' ∉ renderInt i :=
  fun hc => (renderInt_plain i _ hc).2.2 rfl

end RewardsBot

namespace RewardsBot

/-- Splicing whitespace after a newline inside a whitespace run. -/
theorem wsOnly_splice {w p q1 W : List Char} (hw : wsOnly w)
    (h : w = p ++ '\n' :: q1) (hW : wsOnly W) :
    wsOnly (p ++ '\n' :: (W ++ q1)) := by
  rw [h] at hw
  obtain ⟨hp, hnl⟩ := wsOnly_split hw
  exact wsOnly_append hp (wsOnly_nl_cons (wsOnly_append hW (wsOnly_cons_tail hnl)))

/-- `RL` is closed under inserting whitespace right after any newline of
the related text (every raw newline lies between tokens). -/
theorem RLsplice (N : Nat) :
    (∀ v s, RL N v s → ∀ p q W, s = p ++ '\n' :: q → wsOnly W →
      RL N v (p ++ '\n' :: (W ++ q))) ∧
    (∀ vs s, RLitems N vs s → ∀ p q W, s = p ++ '\n' :: q → wsOnly W →
      RLitems N vs (p ++ '\n' :: (W ++ q))) ∧
    (∀ ms s, RLmembers N ms s → ∀ p q W, s = p ++ '\n' :: q → wsOnly W →
      RLmembers N ms (p ++ '\n' :: (W ++ q))) := by
  induction N using Nat.strong_induction_on with
  | _ N IH =>
  refine ⟨?_, ?_, ?_⟩
  · intro v s h p q W hs hW
    cases h with
    | rnull n => exact absurd hs (fun h2 => token_no_split (by decide) h2)
    | rtrue n => exact absurd hs (fun h2 => token_no_split (by decide) h2)
    | rfalse n => exact absurd hs (fun h2 => token_no_split (by decide) h2)
    | rnum n i => exact absurd hs (fun h2 => token_no_split (nl_not_mem_renderInt i) h2)
    | rstr n str =>
        exact absurd hs (fun h2 => token_no_split (nl_not_mem_renderString str) h2)
    | rarrEmpty n w hw =>
        obtain ⟨p2, rfl, hX⟩ := cons_split (by decide) hs
        rcases split_nl hX with ⟨q1, hw1, rfl⟩ | ⟨p3, rfl, hB⟩
        · have hsh : ('[' :: p2) ++ '\n' :: (W ++ (q1 ++ [']'])) =
              '[' :: ((p2 ++ '\n' :: (W ++ q1)) ++ [']']) := by simp
          rw [hsh]
          exact RL.rarrEmpty N _ (wsOnly_splice hw hw1 hW)
        · exact absurd hB (fun h2 => token_no_split (by decide) h2)
    | rarr n vs si hi =>
        obtain ⟨p2, rfl, hX⟩ := cons_split (by decide) hs
        have hres := (IH n (by omega)).2.1 vs si hi p2 q W hX hW
        have hsh : ('[' :: p2) ++ '\n' :: (W ++ q) =
            '[' :: (p2 ++ '\n' :: (W ++ q)) := by simp
        rw [hsh]
        exact RL.rarr n vs _ hres
    | robjEmpty n w hw =>
        obtain ⟨p2, rfl, hX⟩ := cons_split (by decide) hs
        rcases split_nl hX with ⟨q1, hw1, rfl⟩ | ⟨p3, rfl, hB⟩
        · have hsh : ('{' :: p2) ++ '\n' :: (W ++ (q1 ++ ['}'])) =
              '{' :: ((p2 ++ '\n' :: (W ++ q1)) ++ ['}']) := by simp
          rw [hsh]
          exact RL.robjEmpty N _ (wsOnly_splice hw hw1 hW)
        · exact absurd hB (fun h2 => token_no_split (by decide) h2)
    | robj n ms si hm hnd =>
        obtain ⟨p2, rfl, hX⟩ := cons_split (by decide) hs
        have hres := (IH n (by omega)).2.2 ms si hm p2 q W hX hW
        have hsh : ('{' :: p2) ++ '\n' :: (W ++ q) =
            '{' :: (p2 ++ '\n' :: (W ++ q)) := by simp
        rw [hsh]
        exact RL.robj n ms _ hres hnd
  · intro vs s h p q W hs hW
    cases h with
    | rlast n v sv w0 w1 hv h0 h1 =>
        rcases split_nl hs with ⟨q1, hw0, rfl⟩ | ⟨p2, rfl, hX⟩
        · have hsh : p ++ '\n' :: (W ++ (q1 ++ (sv ++ (w1 ++ [']'])))) =
              (p ++ '\n' :: (W ++ q1)) ++ (sv ++ (w1 ++ [']'])) := by simp
          rw [hsh]
          exact RLitems.rlast n v sv _ w1 hv (wsOnly_splice h0 hw0 hW) h1
        · rcases split_nl hX with ⟨q2, hsv, rfl⟩ | ⟨p3, rfl, hY⟩
          · have hres := (IH n (by omega)).1 v sv hv p2 q2 W hsv hW
            have hsh : (w0 ++ p2) ++ '\n' :: (W ++ (q2 ++ (w1 ++ [']']))) =
                w0 ++ ((p2 ++ '\n' :: (W ++ q2)) ++ (w1 ++ [']'])) := by simp
            rw [hsh]
            exact RLitems.rlast n v _ w0 w1 hres h0 h1
          · rcases split_nl hY with ⟨q3, hw1, rfl⟩ | ⟨p4, rfl, hB⟩
            · have hsh : (w0 ++ (sv ++ p3)) ++ '\n' :: (W ++ (q3 ++ [']'])) =
                  w0 ++ (sv ++ ((p3 ++ '\n' :: (W ++ q3)) ++ [']'])) := by simp
              rw [hsh]
              exact RLitems.rlast n v sv w0 _ hv h0 (wsOnly_splice h1 hw1 hW)
            · exact absurd hB (fun h2 => token_no_split (by decide) h2)
    | rcons n v vs sv w0 w1 r hv h0 h1 hr =>
        rcases split_nl hs with ⟨q1, hw0, rfl⟩ | ⟨p2, rfl, hX⟩
        · have hsh : p ++ '\n' :: (W ++ (q1 ++ (sv ++ (w1 ++ (',' :: r))))) =
              (p ++ '\n' :: (W ++ q1)) ++ (sv ++ (w1 ++ (',' :: r))) := by simp
          rw [hsh]
          exact RLitems.rcons n v vs sv _ w1 r hv (wsOnly_splice h0 hw0 hW) h1 hr
        · rcases split_nl hX with ⟨q2, hsv, rfl⟩ | ⟨p3, rfl, hY⟩
          · have hres := (IH n (by omega)).1 v sv hv p2 q2 W hsv hW
            have hsh : (w0 ++ p2) ++ '\n' :: (W ++ (q2 ++ (w1 ++ (',' :: r)))) =
                w0 ++ ((p2 ++ '\n' :: (W ++ q2)) ++ (w1 ++ (',' :: r))) := by simp
            rw [hsh]
            exact RLitems.rcons n v vs _ w0 w1 r hres h0 h1 hr
          · rcases split_nl hY with ⟨q3, hw1, rfl⟩ | ⟨p4, rfl, hB⟩
            · have hsh : (w0 ++ (sv ++ p3)) ++ '\n' :: (W ++ (q3 ++ (',' :: r))) =
                  w0 ++ (sv ++ ((p3 ++ '\n' :: (W ++ q3)) ++ (',' :: r))) := by simp
              rw [hsh]
              exact RLitems.rcons n v vs sv w0 _ r hv h0 (wsOnly_splice h1 hw1 hW) hr
            · obtain ⟨p5, rfl, hr2⟩ := cons_split (by decide) hB
              have hres := (IH n (by omega)).2.1 vs r hr p5 q W hr2 hW
              have hsh : (w0 ++ (sv ++ (w1 ++ (',' :: p5)))) ++ '\n' :: (W ++ q) =
                  w0 ++ (sv ++ (w1 ++ (',' :: (p5 ++ '\n' :: (W ++ q))))) := by simp
              rw [hsh]
              exact RLitems.rcons n v vs sv w0 w1 _ hv h0 h1 hres
  · intro ms s h p q W hs hW
    cases h with
    | rlast n k v sv w0 w1 w2 w3 hv h0 h1 h2 h3 =>
        rcases split_nl hs with ⟨q1, hw0, rfl⟩ | ⟨p2, rfl, hX1⟩
        · have hsh : p ++ '\n' :: (W ++ (q1 ++ (renderString k ++ (w1 ++ (':' ::
                (w2 ++ (sv ++ (w3 ++ ['}'])))))))) =
              (p ++ '\n' :: (W ++ q1)) ++ (renderString k ++ (w1 ++ (':' ::
                (w2 ++ (sv ++ (w3 ++ ['}'])))))) := by simp
          rw [hsh]
          exact RLmembers.rlast n k v sv _ w1 w2 w3 hv (wsOnly_splice h0 hw0 hW) h1 h2 h3
        · rcases split_nl hX1 with ⟨q2, hks, rfl⟩ | ⟨p3, rfl, hX2⟩
          · exact absurd hks (fun h4 => token_no_split (nl_not_mem_renderString k) h4)
          · rcases split_nl hX2 with ⟨q3, hw1, rfl⟩ | ⟨p4, rfl, hX3⟩
            · have hsh : (w0 ++ (renderString k ++ p3)) ++ '\n' :: (W ++ (q3 ++ (':' ::
                    (w2 ++ (sv ++ (w3 ++ ['}'])))))) =
                  w0 ++ (renderString k ++ ((p3 ++ '\n' :: (W ++ q3)) ++ (':' ::
                    (w2 ++ (sv ++ (w3 ++ ['}'])))))) := by simp
              rw [hsh]
              exact RLmembers.rlast n k v sv w0 _ w2 w3 hv h0
                (wsOnly_splice h1 hw1 hW) h2 h3
            · obtain ⟨p5, rfl, hX4⟩ := cons_split (by decide) hX3
              rcases split_nl hX4 with ⟨q4, hw2, rfl⟩ | ⟨p6, rfl, hX5⟩
              · have hsh : (w0 ++ (renderString k ++ (w1 ++ (':' :: p5)))) ++ '\n' ::
                      (W ++ (q4 ++ (sv ++ (w3 ++ ['}'])))) =
                    w0 ++ (renderString k ++ (w1 ++ (':' ::
                      ((p5 ++ '\n' :: (W ++ q4)) ++ (sv ++ (w3 ++ ['}'])))))) := by simp
                rw [hsh]
                exact RLmembers.rlast n k v sv w0 w1 _ w3 hv h0 h1
                  (wsOnly_splice h2 hw2 hW) h3
              · rcases split_nl hX5 with ⟨q5, hsv, rfl⟩ | ⟨p7, rfl, hX6⟩
                · have hres := (IH n (by omega)).1 v sv hv p6 q5 W hsv hW
                  have hsh : (w0 ++ (renderString k ++ (w1 ++ (':' :: (w2 ++ p6))))) ++
                        '\n' :: (W ++ (q5 ++ (w3 ++ ['}']))) =
                      w0 ++ (renderString k ++ (w1 ++ (':' :: (w2 ++
                        ((p6 ++ '\n' :: (W ++ q5)) ++ (w3 ++ ['}'])))))) := by simp
                  rw [hsh]
                  exact RLmembers.rlast n k v _ w0 w1 w2 w3 hres h0 h1 h2 h3
                · rcases split_nl hX6 with ⟨q6, hw3, rfl⟩ | ⟨p8, rfl, hB⟩
                  · have hsh : (w0 ++ (renderString k ++ (w1 ++ (':' :: (w2 ++
                          (sv ++ p7)))))) ++ '\n' :: (W ++ (q6 ++ ['}'])) =
                        w0 ++ (renderString k ++ (w1 ++ (':' :: (w2 ++ (sv ++
                          ((p7 ++ '\n' :: (W ++ q6)) ++ ['}'])))))) := by simp
                    rw [hsh]
                    exact RLmembers.rlast n k v sv w0 w1 w2 _ hv h0 h1 h2
                      (wsOnly_splice h3 hw3 hW)
                  · exact absurd hB (fun h4 => token_no_split (by decide) h4)
    | rcons n k v ms sv w0 w1 w2 w3 r hv h0 h1 h2 h3 hr =>
        rcases split_nl hs with ⟨q1, hw0, rfl⟩ | ⟨p2, rfl, hX1⟩
        · have hsh : p ++ '\n' :: (W ++ (q1 ++ (renderString k ++ (w1 ++ (':' ::
                (w2 ++ (sv ++ (w3 ++ (',' :: r))))))))) =
              (p ++ '\n' :: (W ++ q1)) ++ (renderString k ++ (w1 ++ (':' ::
                (w2 ++ (sv ++ (w3 ++ (',' :: r))))))) := by simp
          rw [hsh]
          exact RLmembers.rcons n k v ms sv _ w1 w2 w3 r hv
            (wsOnly_splice h0 hw0 hW) h1 h2 h3 hr
        · rcases split_nl hX1 with ⟨q2, hks, rfl⟩ | ⟨p3, rfl, hX2⟩
          · exact absurd hks (fun h4 => token_no_split (nl_not_mem_renderString k) h4)
          · rcases split_nl hX2 with ⟨q3, hw1, rfl⟩ | ⟨p4, rfl, hX3⟩
            · have hsh : (w0 ++ (renderString k ++ p3)) ++ '\n' :: (W ++ (q3 ++ (':' ::
                    (w2 ++ (sv ++ (w3 ++ (',' :: r))))))) =
                  w0 ++ (renderString k ++ ((p3 ++ '\n' :: (W ++ q3)) ++ (':' ::
                    (w2 ++ (sv ++ (w3 ++ (',' :: r))))))) := by simp
              rw [hsh]
              exact RLmembers.rcons n k v ms sv w0 _ w2 w3 r hv h0
                (wsOnly_splice h1 hw1 hW) h2 h3 hr
            · obtain ⟨p5, rfl, hX4⟩ := cons_split (by decide) hX3
              rcases split_nl hX4 with ⟨q4, hw2, rfl⟩ | ⟨p6, rfl, hX5⟩
              · have hsh : (w0 ++ (renderString k ++ (w1 ++ (':' :: p5)))) ++ '\n' ::
                      (W ++ (q4 ++ (sv ++ (w3 ++ (',' :: r))))) =
                    w0 ++ (renderString k ++ (w1 ++ (':' ::
                      ((p5 ++ '\n' :: (W ++ q4)) ++ (sv ++ (w3 ++ (',' :: r))))))) := by
                  simp
                rw [hsh]
                exact RLmembers.rcons n k v ms sv w0 w1 _ w3 r hv h0 h1
                  (wsOnly_splice h2 hw2 hW) h3 hr
              · rcases split_nl hX5 with ⟨q5, hsv, rfl⟩ | ⟨p7, rfl, hX6⟩
                · have hres := (IH n (by omega)).1 v sv hv p6 q5 W hsv hW
                  have hsh : (w0 ++ (renderString k ++ (w1 ++ (':' :: (w2 ++ p6))))) ++
                        '\n' :: (W ++ (q5 ++ (w3 ++ (',' :: r)))) =
                      w0 ++ (renderString k ++ (w1 ++ (':' :: (w2 ++
                        ((p6 ++ '\n' :: (W ++ q5)) ++ (w3 ++ (',' :: r))))))) := by simp
                  rw [hsh]
                  exact RLmembers.rcons n k v ms _ w0 w1 w2 w3 r hres h0 h1 h2 h3 hr
                · rcases split_nl hX6 with ⟨q6, hw3, rfl⟩ | ⟨p8, rfl, hB⟩
                  · have hsh : (w0 ++ (renderString k ++ (w1 ++ (':' :: (w2 ++
                          (sv ++ p7)))))) ++ '\n' :: (W ++ (q6 ++ (',' :: r))) =
                        w0 ++ (renderString k ++ (w1 ++ (':' :: (w2 ++ (sv ++
                          ((p7 ++ '\n' :: (W ++ q6)) ++ (',' :: r))))))) := by simp
                    rw [hsh]
                    exact RLmembers.rcons n k v ms sv w0 w1 w2 _ r hv h0 h1 h2
                      (wsOnly_splice h3 hw3 hW) hr
                  · obtain ⟨p9, rfl, hr2⟩ := cons_split (by decide) hB
                    have hres := (IH n (by omega)).2.2 ms r hr p9 q W hr2 hW
                    have hsh : (w0 ++ (renderString k ++ (w1 ++ (':' :: (w2 ++ (sv ++
                          (w3 ++ (',' :: p9)))))))) ++ '\n' :: (W ++ q) =
                        w0 ++ (renderString k ++ (w1 ++ (':' :: (w2 ++ (sv ++
                          (w3 ++ (',' :: (p9 ++ '\n' :: (W ++ q))))))))) := by simp
                    rw [hsh]
                    exact RLmembers.rcons n k v ms sv w0 w1 w2 w3 _ hv h0 h1 h2 h3 hres

end RewardsBot

namespace RewardsBot

/-- `stripGo` copies a newline in normal state. -/
theorem stripGo_normal_nl (t : List Char) :
    stripGo StripMode.normal ('\n' :: t) = '\n' :: stripGo StripMode.normal t := by
  simp +decide [stripGo]

/-- `stripGo` copies one plain character in normal state. -/
theorem stripGo_normal_plain_cons (c : Char) (hc : c ≠ '/' ∧ isQuote c = false)
    (t : List Char) :
    stripGo StripMode.normal (c :: t) = c :: stripGo StripMode.normal t := by
  simp [stripGo, hc.1, hc.2]

/-- Comment stripping of an `RL`-derivable text with an interruption
inserted right after one of its newlines: the prefix and suffix are copied
verbatim and the interruption `I` is rewritten to `J` (its own stripped
form, given by the hypothesis that stripping `I` before any continuation
emits `J` and returns to normal state). -/
theorem stripSplice (N : Nat) :
    (∀ v s, RL N v s → ∀ p q, s = p ++ '\n' :: q → ∀ (I J : List Char),
      (∀ t, stripGo StripMode.normal (I ++ t) = J ++ stripGo StripMode.normal t) →
      ∀ rest, stripGo StripMode.normal (p ++ ('\n' :: (I ++ (q ++ rest)))) =
        p ++ ('\n' :: (J ++ (q ++ stripGo StripMode.normal rest)))) ∧
    (∀ vs s, RLitems N vs s → ∀ p q, s = p ++ '\n' :: q → ∀ (I J : List Char),
      (∀ t, stripGo StripMode.normal (I ++ t) = J ++ stripGo StripMode.normal t) →
      ∀ rest, stripGo StripMode.normal (p ++ ('\n' :: (I ++ (q ++ rest)))) =
        p ++ ('\n' :: (J ++ (q ++ stripGo StripMode.normal rest)))) ∧
    (∀ ms s, RLmembers N ms s → ∀ p q, s = p ++ '\n' :: q → ∀ (I J : List Char),
      (∀ t, stripGo StripMode.normal (I ++ t) = J ++ stripGo StripMode.normal t) →
      ∀ rest, stripGo StripMode.normal (p ++ ('\n' :: (I ++ (q ++ rest)))) =
        p ++ ('\n' :: (J ++ (q ++ stripGo StripMode.normal rest)))) := by
  induction N using Nat.strong_induction_on with
  | _ N IH =>
  refine ⟨?_, ?_, ?_⟩
  · intro v s h p q hs I J HI rest
    cases h with
    | rnull n => exact absurd hs (fun h2 => token_no_split (by decide) h2)
    | rtrue n => exact absurd hs (fun h2 => token_no_split (by decide) h2)
    | rfalse n => exact absurd hs (fun h2 => token_no_split (by decide) h2)
    | rnum n i => exact absurd hs (fun h2 => token_no_split (nl_not_mem_renderInt i) h2)
    | rstr n str =>
        exact absurd hs (fun h2 => token_no_split (nl_not_mem_renderString str) h2)
    | rarrEmpty n w hw =>
        obtain ⟨p2, rfl, hX⟩ := cons_split (by decide) hs
        rcases split_nl hX with ⟨q1, hw1, rfl⟩ | ⟨p3, rfl, hB⟩
        · obtain ⟨hp2, hnlq⟩ := wsOnly_split (hw1 ▸ hw)
          have hq1 := wsOnly_cons_tail hnlq
          have hsh : ('[' :: p2) ++ ('\n' :: (I ++ ((q1 ++ [']']) ++ rest))) =
              ['['] ++ (p2 ++ ('\n' :: (I ++ (q1 ++ ([']'] ++ rest))))) := by simp
          rw [hsh, stripGo_normal_plain ['['] (by decide),
            stripGo_normal_plain p2 (wsOnly_plain hp2), stripGo_normal_nl,
            HI (q1 ++ ([']'] ++ rest)),
            stripGo_normal_plain q1 (wsOnly_plain hq1),
            stripGo_normal_plain [']'] (by decide)]
          simp
        · exact absurd hB (fun h2 => token_no_split (by decide) h2)
    | rarr n vs si hi =>
        obtain ⟨p2, rfl, hX⟩ := cons_split (by decide) hs
        have hres := (IH n (by omega)).2.1 vs si hi p2 q hX I J HI rest
        have hsh : ('[' :: p2) ++ ('\n' :: (I ++ (q ++ rest))) =
            ['['] ++ (p2 ++ ('\n' :: (I ++ (q ++ rest)))) := by simp
        rw [hsh, stripGo_normal_plain ['['] (by decide), hres]
        simp
    | robjEmpty n w hw =>
        obtain ⟨p2, rfl, hX⟩ := cons_split (by decide) hs
        rcases split_nl hX with ⟨q1, hw1, rfl⟩ | ⟨p3, rfl, hB⟩
        · obtain ⟨hp2, hnlq⟩ := wsOnly_split (hw1 ▸ hw)
          have hq1 := wsOnly_cons_tail hnlq
          have hsh : ('{' :: p2) ++ ('\n' :: (I ++ ((q1 ++ ['}']) ++ rest))) =
              ['{'] ++ (p2 ++ ('\n' :: (I ++ (q1 ++ (['}'] ++ rest))))) := by simp
          rw [hsh, stripGo_normal_plain ['{'] (by decide),
            stripGo_normal_plain p2 (wsOnly_plain hp2), stripGo_normal_nl,
            HI (q1 ++ (['}'] ++ rest)),
            stripGo_normal_plain q1 (wsOnly_plain hq1),
            stripGo_normal_plain ['}'] (by decide)]
          simp
        · exact absurd hB (fun h2 => token_no_split (by decide) h2)
    | robj n ms si hm hnd =>
        obtain ⟨p2, rfl, hX⟩ := cons_split (by decide) hs
        have hres := (IH n (by omega)).2.2 ms si hm p2 q hX I J HI rest
        have hsh : ('{' :: p2) ++ ('\n' :: (I ++ (q ++ rest))) =
            ['{'] ++ (p2 ++ ('\n' :: (I ++ (q ++ rest)))) := by simp
        rw [hsh, stripGo_normal_plain ['{'] (by decide), hres]
        simp
  · intro vs s h p q hs I J HI rest
    cases h with
    | rlast n v sv w0 w1 hv h0 h1 =>
        rcases split_nl hs with ⟨q1, hw0, rfl⟩ | ⟨p2, rfl, hX⟩
        · obtain ⟨hp, hnlq⟩ := wsOnly_split (hw0 ▸ h0)
          have hq1 := wsOnly_cons_tail hnlq
          have hsh : p ++ ('\n' :: (I ++ ((q1 ++ (sv ++ (w1 ++ [']']))) ++ rest))) =
              p ++ ('\n' :: (I ++ (q1 ++ (sv ++ (w1 ++ ([']'] ++ rest)))))) := by simp
          rw [hsh, stripGo_normal_plain p (wsOnly_plain hp), stripGo_normal_nl,
            HI (q1 ++ (sv ++ (w1 ++ ([']'] ++ rest)))),
            stripGo_normal_plain q1 (wsOnly_plain hq1),
            (stripRL n).1 v sv hv,
            stripGo_normal_plain w1 (wsOnly_plain h1),
            stripGo_normal_plain [']'] (by decide)]
          simp
        · rcases split_nl hX with ⟨q2, hsv, rfl⟩ | ⟨p3, rfl, hY⟩
          · have hres := (IH n (by omega)).1 v sv hv p2 q2 hsv I J HI
              (w1 ++ (']' :: rest))
            have hsh : (w0 ++ p2) ++ ('\n' :: (I ++ ((q2 ++ (w1 ++ [']'])) ++ rest))) =
                w0 ++ (p2 ++ ('\n' :: (I ++ (q2 ++ (w1 ++ (']' :: rest)))))) := by simp
            rw [hsh, stripGo_normal_plain w0 (wsOnly_plain h0), hres,
              stripGo_normal_plain w1 (wsOnly_plain h1),
              stripGo_normal_plain_cons ']' (by decide)]
            simp
          · rcases split_nl hY with ⟨q3, hw1, rfl⟩ | ⟨p4, rfl, hB⟩
            · obtain ⟨hp3, hnlq⟩ := wsOnly_split (hw1 ▸ h1)
              have hq3 := wsOnly_cons_tail hnlq
              have hsh : (w0 ++ (sv ++ p3)) ++ ('\n' :: (I ++ ((q3 ++ [']']) ++ rest))) =
                  w0 ++ (sv ++ (p3 ++ ('\n' :: (I ++ (q3 ++ ([']'] ++ rest)))))) := by
                simp
              rw [hsh, stripGo_normal_plain w0 (wsOnly_plain h0),
                (stripRL n).1 v sv hv,
                stripGo_normal_plain p3 (wsOnly_plain hp3), stripGo_normal_nl,
                HI (q3 ++ ([']'] ++ rest)),
                stripGo_normal_plain q3 (wsOnly_plain hq3),
                stripGo_normal_plain [']'] (by decide)]
              simp
            · exact absurd hB (fun h2 => token_no_split (by decide) h2)
    | rcons n v vs sv w0 w1 r hv h0 h1 hr =>
        rcases split_nl hs with ⟨q1, hw0, rfl⟩ | ⟨p2, rfl, hX⟩
        · obtain ⟨hp, hnlq⟩ := wsOnly_split (hw0 ▸ h0)
          have hq1 := wsOnly_cons_tail hnlq
          have hsh : p ++ ('\n' :: (I ++ ((q1 ++ (sv ++ (w1 ++ (',' :: r)))) ++ rest))) =
              p ++ ('\n' :: (I ++ (q1 ++ (sv ++ (w1 ++ ([','] ++ (r ++ rest))))))) := by
            simp
          rw [hsh, stripGo_normal_plain p (wsOnly_plain hp), stripGo_normal_nl,
            HI (q1 ++ (sv ++ (w1 ++ ([','] ++ (r ++ rest))))),
            stripGo_normal_plain q1 (wsOnly_plain hq1),
            (stripRL n).1 v sv hv,
            stripGo_normal_plain w1 (wsOnly_plain h1),
            stripGo_normal_plain [','] (by decide),
            (stripRL n).2.1 vs r hr]
          simp
        · rcases split_nl hX with ⟨q2, hsv, rfl⟩ | ⟨p3, rfl, hY⟩
          · have hres := (IH n (by omega)).1 v sv hv p2 q2 hsv I J HI
              (w1 ++ (',' :: (r ++ rest)))
            have hsh : (w0 ++ p2) ++
                  ('\n' :: (I ++ ((q2 ++ (w1 ++ (',' :: r))) ++ rest))) =
                w0 ++ (p2 ++ ('\n' :: (I ++ (q2 ++ (w1 ++ (',' :: (r ++ rest))))))) := by
              simp
            rw [hsh, stripGo_normal_plain w0 (wsOnly_plain h0), hres,
              stripGo_normal_plain w1 (wsOnly_plain h1),
              stripGo_normal_plain_cons ',' (by decide),
              (stripRL n).2.1 vs r hr]
            simp
          · rcases split_nl hY with ⟨q3, hw1, rfl⟩ | ⟨p4, rfl, hB⟩
            · obtain ⟨hp3, hnlq⟩ := wsOnly_split (hw1 ▸ h1)
              have hq3 := wsOnly_cons_tail hnlq
              have hsh : (w0 ++ (sv ++ p3)) ++
                    ('\n' :: (I ++ ((q3 ++ (',' :: r)) ++ rest))) =
                  w0 ++ (sv ++ (p3 ++ ('\n' :: (I ++ (q3 ++ ([','] ++ (r ++ rest))))))) := by
                simp
              rw [hsh, stripGo_normal_plain w0 (wsOnly_plain h0),
                (stripRL n).1 v sv hv,
                stripGo_normal_plain p3 (wsOnly_plain hp3), stripGo_normal_nl,
                HI (q3 ++ ([','] ++ (r ++ rest))),
                stripGo_normal_plain q3 (wsOnly_plain hq3),
                stripGo_normal_plain [','] (by decide),
                (stripRL n).2.1 vs r hr]
              simp
            · obtain ⟨p5, rfl, hr2⟩ := cons_split (by decide) hB
              have hres := (IH n (by omega)).2.1 vs r hr p5 q hr2 I J HI rest
              have hsh : (w0 ++ (sv ++ (w1 ++ (',' :: p5)))) ++
                    ('\n' :: (I ++ (q ++ rest))) =
                  w0 ++ (sv ++ (w1 ++ ([','] ++ (p5 ++ ('\n' :: (I ++ (q ++ rest))))))) := by
                simp
              rw [hsh, stripGo_normal_plain w0 (wsOnly_plain h0),
                (stripRL n).1 v sv hv,
                stripGo_normal_plain w1 (wsOnly_plain h1),
                stripGo_normal_plain [','] (by decide), hres]
              simp
  · intro ms s h p q hs I J HI rest
    cases h with
    | rlast n k v sv w0 w1 w2 w3 hv h0 h1 h2 h3 =>
        rcases split_nl hs with ⟨q1, hw0, rfl⟩ | ⟨p2, rfl, hX1⟩
        · obtain ⟨hp, hnlq⟩ := wsOnly_split (hw0 ▸ h0)
          have hq1 := wsOnly_cons_tail hnlq
          have hsh : p ++ ('\n' :: (I ++ ((q1 ++ (renderString k ++ (w1 ++ (':' ::
                (w2 ++ (sv ++ (w3 ++ ['}']))))))) ++ rest))) =
              p ++ ('\n' :: (I ++ (q1 ++ (renderString k ++ (w1 ++ ([':'] ++
                (w2 ++ (sv ++ (w3 ++ (['}'] ++ rest)))))))))) := by simp
          rw [hsh, stripGo_normal_plain p (wsOnly_plain hp), stripGo_normal_nl,
            HI (q1 ++ (renderString k ++ (w1 ++ ([':'] ++
              (w2 ++ (sv ++ (w3 ++ (['}'] ++ rest)))))))),
            stripGo_normal_plain q1 (wsOnly_plain hq1),
            stripGo_renderString k,
            stripGo_normal_plain w1 (wsOnly_plain h1),
            stripGo_normal_plain [':'] (by decide),
            stripGo_normal_plain w2 (wsOnly_plain h2),
            (stripRL n).1 v sv hv,
            stripGo_normal_plain w3 (wsOnly_plain h3),
            stripGo_normal_plain ['}'] (by decide)]
          simp
        · rcases split_nl hX1 with ⟨q2, hks, rfl⟩ | ⟨p3, rfl, hX2⟩
          · exact absurd hks (fun h4 => token_no_split (nl_not_mem_renderString k) h4)
          · rcases split_nl hX2 with ⟨q3, hw1, rfl⟩ | ⟨p4, rfl, hX3⟩
            · obtain ⟨hp3, hnlq⟩ := wsOnly_split (hw1 ▸ h1)
              have hq3 := wsOnly_cons_tail hnlq
              have hsh : (w0 ++ (renderString k ++ p3)) ++ ('\n' :: (I ++ ((q3 ++ (':' ::
                    (w2 ++ (sv ++ (w3 ++ ['}']))))) ++ rest))) =
                  w0 ++ (renderString k ++ (p3 ++ ('\n' :: (I ++ (q3 ++ ([':'] ++
                    (w2 ++ (sv ++ (w3 ++ (['}'] ++ rest)))))))))) := by simp
              rw [hsh, stripGo_normal_plain w0 (wsOnly_plain h0),
                stripGo_renderString k,
                stripGo_normal_plain p3 (wsOnly_plain hp3), stripGo_normal_nl,
                HI (q3 ++ ([':'] ++ (w2 ++ (sv ++ (w3 ++ (['}'] ++ rest)))))),
                stripGo_normal_plain q3 (wsOnly_plain hq3),
                stripGo_normal_plain [':'] (by decide),
                stripGo_normal_plain w2 (wsOnly_plain h2),
                (stripRL n).1 v sv hv,
                stripGo_normal_plain w3 (wsOnly_plain h3),
                stripGo_normal_plain ['}'] (by decide)]
              simp
            · obtain ⟨p5, rfl, hX4⟩ := cons_split (by decide) hX3
              rcases split_nl hX4 with ⟨q4, hw2, rfl⟩ | ⟨p6, rfl, hX5⟩
              · obtain ⟨hp5, hnlq⟩ := wsOnly_split (hw2 ▸ h2)
                have hq4 := wsOnly_cons_tail hnlq
                have hsh : (w0 ++ (renderString k ++ (w1 ++ (':' :: p5)))) ++
                      ('\n' :: (I ++ ((q4 ++ (sv ++ (w3 ++ ['}']))) ++ rest))) =
                    w0 ++ (renderString k ++ (w1 ++ ([':'] ++ (p5 ++ ('\n' :: (I ++
                      (q4 ++ (sv ++ (w3 ++ (['}'] ++ rest)))))))))) := by simp
                rw [hsh, stripGo_normal_plain w0 (wsOnly_plain h0),
                  stripGo_renderString k,
                  stripGo_normal_plain w1 (wsOnly_plain h1),
                  stripGo_normal_plain [':'] (by decide),
                  stripGo_normal_plain p5 (wsOnly_plain hp5), stripGo_normal_nl,
                  HI (q4 ++ (sv ++ (w3 ++ (['}'] ++ rest)))),
                  stripGo_normal_plain q4 (wsOnly_plain hq4),
                  (stripRL n).1 v sv hv,
                  stripGo_normal_plain w3 (wsOnly_plain h3),
                  stripGo_normal_plain ['}'] (by decide)]
                simp
              · rcases split_nl hX5 with ⟨q5, hsv, rfl⟩ | ⟨p7, rfl, hX6⟩
                · have hres := (IH n (by omega)).1 v sv hv p6 q5 hsv I J HI
                    (w3 ++ ('}' :: rest))
                  have hsh : (w0 ++ (renderString k ++ (w1 ++ (':' :: (w2 ++ p6))))) ++
                        ('\n' :: (I ++ ((q5 ++ (w3 ++ ['}'])) ++ rest))) =
                      w0 ++ (renderString k ++ (w1 ++ ([':'] ++ (w2 ++ (p6 ++
                        ('\n' :: (I ++ (q5 ++ (w3 ++ ('}' :: rest)))))))))) := by simp
                  rw [hsh, stripGo_normal_plain w0 (wsOnly_plain h0),
                    stripGo_renderString k,
                    stripGo_normal_plain w1 (wsOnly_plain h1),
                    stripGo_normal_plain [':'] (by decide),
                    stripGo_normal_plain w2 (wsOnly_plain h2), hres,
                    stripGo_normal_plain w3 (wsOnly_plain h3),
                    stripGo_normal_plain_cons '}' (by decide)]
                  simp
                · rcases split_nl hX6 with ⟨q6, hw3, rfl⟩ | ⟨p8, rfl, hB⟩
                  · obtain ⟨hp7, hnlq⟩ := wsOnly_split (hw3 ▸ h3)
                    have hq6 := wsOnly_cons_tail hnlq
                    have hsh : (w0 ++ (renderString k ++ (w1 ++ (':' :: (w2 ++
                          (sv ++ p7)))))) ++ ('\n' :: (I ++ ((q6 ++ ['}']) ++ rest))) =
                        w0 ++ (renderString k ++ (w1 ++ ([':'] ++ (w2 ++ (sv ++
                          (p7 ++ ('\n' :: (I ++ (q6 ++ (['}'] ++ rest)))))))))) := by
                      simp
                    rw [hsh, stripGo_normal_plain w0 (wsOnly_plain h0),
                      stripGo_renderString k,
                      stripGo_normal_plain w1 (wsOnly_plain h1),
                      stripGo_normal_plain [':'] (by decide),
                      stripGo_normal_plain w2 (wsOnly_plain h2),
                      (stripRL n).1 v sv hv,
                      stripGo_normal_plain p7 (wsOnly_plain hp7), stripGo_normal_nl,
                      HI (q6 ++ (['}'] ++ rest)),
                      stripGo_normal_plain q6 (wsOnly_plain hq6),
                      stripGo_normal_plain ['}'] (by decide)]
                    simp
                  · exact absurd hB (fun h4 => token_no_split (by decide) h4)
    | rcons n k v ms sv w0 w1 w2 w3 r hv h0 h1 h2 h3 hr =>
        rcases split_nl hs with ⟨q1, hw0, rfl⟩ | ⟨p2, rfl, hX1⟩
        · obtain ⟨hp, hnlq⟩ := wsOnly_split (hw0 ▸ h0)
          have hq1 := wsOnly_cons_tail hnlq
          have hsh : p ++ ('\n' :: (I ++ ((q1 ++ (renderString k ++ (w1 ++ (':' ::
                (w2 ++ (sv ++ (w3 ++ (',' :: r)))))))) ++ rest))) =
              p ++ ('\n' :: (I ++ (q1 ++ (renderString k ++ (w1 ++ ([':'] ++
                (w2 ++ (sv ++ (w3 ++ ([','] ++ (r ++ rest))))))))))) := by simp
          rw [hsh, stripGo_normal_plain p (wsOnly_plain hp), stripGo_normal_nl,
            HI (q1 ++ (renderString k ++ (w1 ++ ([':'] ++
              (w2 ++ (sv ++ (w3 ++ ([','] ++ (r ++ rest))))))))),
            stripGo_normal_plain q1 (wsOnly_plain hq1),
            stripGo_renderString k,
            stripGo_normal_plain w1 (wsOnly_plain h1),
            stripGo_normal_plain [':'] (by decide),
            stripGo_normal_plain w2 (wsOnly_plain h2),
            (stripRL n).1 v sv hv,
            stripGo_normal_plain w3 (wsOnly_plain h3),
            stripGo_normal_plain [','] (by decide),
            (stripRL n).2.2 ms r hr]
          simp
        · rcases split_nl hX1 with ⟨q2, hks, rfl⟩ | ⟨p3, rfl, hX2⟩
          · exact absurd hks (fun h4 => token_no_split (nl_not_mem_renderString k) h4)
          · rcases split_nl hX2 with ⟨q3, hw1, rfl⟩ | ⟨p4, rfl, hX3⟩
            · obtain ⟨hp3, hnlq⟩ := wsOnly_split (hw1 ▸ h1)
              have hq3 := wsOnly_cons_tail hnlq
              have hsh : (w0 ++ (renderString k ++ p3)) ++ ('\n' :: (I ++ ((q3 ++ (':' ::
                    (w2 ++ (sv ++ (w3 ++ (',' :: r)))))) ++ rest))) =
                  w0 ++ (renderString k ++ (p3 ++ ('\n' :: (I ++ (q3 ++ ([':'] ++
                    (w2 ++ (sv ++ (w3 ++ ([','] ++ (r ++ rest))))))))))) := by simp
              rw [hsh, stripGo_normal_plain w0 (wsOnly_plain h0),
                stripGo_renderString k,
                stripGo_normal_plain p3 (wsOnly_plain hp3), stripGo_normal_nl,
                HI (q3 ++ ([':'] ++ (w2 ++ (sv ++ (w3 ++ ([','] ++ (r ++ rest))))))),
                stripGo_normal_plain q3 (wsOnly_plain hq3),
                stripGo_normal_plain [':'] (by decide),
                stripGo_normal_plain w2 (wsOnly_plain h2),
                (stripRL n).1 v sv hv,
                stripGo_normal_plain w3 (wsOnly_plain h3),
                stripGo_normal_plain [','] (by decide),
                (stripRL n).2.2 ms r hr]
              simp
            · obtain ⟨p5, rfl, hX4⟩ := cons_split (by decide) hX3
              rcases split_nl hX4 with ⟨q4, hw2, rfl⟩ | ⟨p6, rfl, hX5⟩
              · obtain ⟨hp5, hnlq⟩ := wsOnly_split (hw2 ▸ h2)
                have hq4 := wsOnly_cons_tail hnlq
                have hsh : (w0 ++ (renderString k ++ (w1 ++ (':' :: p5)))) ++
                      ('\n' :: (I ++ ((q4 ++ (sv ++ (w3 ++ (',' :: r)))) ++ rest))) =
                    w0 ++ (renderString k ++ (w1 ++ ([':'] ++ (p5 ++ ('\n' :: (I ++
                      (q4 ++ (sv ++ (w3 ++ ([','] ++ (r ++ rest)))))))))))  := by simp
                rw [hsh, stripGo_normal_plain w0 (wsOnly_plain h0),
                  stripGo_renderString k,
                  stripGo_normal_plain w1 (wsOnly_plain h1),
                  stripGo_normal_plain [':'] (by decide),
                  stripGo_normal_plain p5 (wsOnly_plain hp5), stripGo_normal_nl,
                  HI (q4 ++ (sv ++ (w3 ++ ([','] ++ (r ++ rest))))),
                  stripGo_normal_plain q4 (wsOnly_plain hq4),
                  (stripRL n).1 v sv hv,
                  stripGo_normal_plain w3 (wsOnly_plain h3),
                  stripGo_normal_plain [','] (by decide),
                  (stripRL n).2.2 ms r hr]
                simp
              · rcases split_nl hX5 with ⟨q5, hsv, rfl⟩ | ⟨p7, rfl, hX6⟩
                · have hres := (IH n (by omega)).1 v sv hv p6 q5 hsv I J HI
                    (w3 ++ (',' :: (r ++ rest)))
                  have hsh : (w0 ++ (renderString k ++ (w1 ++ (':' :: (w2 ++ p6))))) ++
                        ('\n' :: (I ++ ((q5 ++ (w3 ++ (',' :: r))) ++ rest))) =
                      w0 ++ (renderString k ++ (w1 ++ ([':'] ++ (w2 ++ (p6 ++
                        ('\n' :: (I ++ (q5 ++ (w3 ++ (',' :: (r ++ rest))))))))))) := by
                    simp
                  rw [hsh, stripGo_normal_plain w0 (wsOnly_plain h0),
                    stripGo_renderString k,
                    stripGo_normal_plain w1 (wsOnly_plain h1),
                    stripGo_normal_plain [':'] (by decide),
                    stripGo_normal_plain w2 (wsOnly_plain h2), hres,
                    stripGo_normal_plain w3 (wsOnly_plain h3),
                    stripGo_normal_plain_cons ',' (by decide),
                    (stripRL n).2.2 ms r hr]
                  simp
                · rcases split_nl hX6 with ⟨q6, hw3, rfl⟩ | ⟨p8, rfl, hB⟩
                  · obtain ⟨hp7, hnlq⟩ := wsOnly_split (hw3 ▸ h3)
                    have hq6 := wsOnly_cons_tail hnlq
                    have hsh : (w0 ++ (renderString k ++ (w1 ++ (':' :: (w2 ++
                          (sv ++ p7)))))) ++
                          ('\n' :: (I ++ ((q6 ++ (',' :: r)) ++ rest))) =
                        w0 ++ (renderString k ++ (w1 ++ ([':'] ++ (w2 ++ (sv ++
                          (p7 ++ ('\n' :: (I ++ (q6 ++ ([','] ++ (r ++ rest))))))))))) := by
                      simp
                    rw [hsh, stripGo_normal_plain w0 (wsOnly_plain h0),
                      stripGo_renderString k,
                      stripGo_normal_plain w1 (wsOnly_plain h1),
                      stripGo_normal_plain [':'] (by decide),
                      stripGo_normal_plain w2 (wsOnly_plain h2),
                      (stripRL n).1 v sv hv,
                      stripGo_normal_plain p7 (wsOnly_plain hp7), stripGo_normal_nl,
                      HI (q6 ++ ([','] ++ (r ++ rest))),
                      stripGo_normal_plain q6 (wsOnly_plain hq6),
                      stripGo_normal_plain [','] (by decide),
                      (stripRL n).2.2 ms r hr]
                    simp
                  · obtain ⟨p9, rfl, hr2⟩ := cons_split (by decide) hB
                    have hres := (IH n (by omega)).2.2 ms r hr p9 q hr2 I J HI rest
                    have hsh : (w0 ++ (renderString k ++ (w1 ++ (':' :: (w2 ++ (sv ++
                          (w3 ++ (',' :: p9)))))))) ++ ('\n' :: (I ++ (q ++ rest))) =
                        w0 ++ (renderString k ++ (w1 ++ ([':'] ++ (w2 ++ (sv ++
                          (w3 ++ ([','] ++ (p9 ++ ('\n' :: (I ++ (q ++ rest))))))))))) := by
                      simp
                    rw [hsh, stripGo_normal_plain w0 (wsOnly_plain h0),
                      stripGo_renderString k,
                      stripGo_normal_plain w1 (wsOnly_plain h1),
                      stripGo_normal_plain [':'] (by decide),
                      stripGo_normal_plain w2 (wsOnly_plain h2),
                      (stripRL n).1 v sv hv,
                      stripGo_normal_plain w3 (wsOnly_plain h3),
                      stripGo_normal_plain [','] (by decide), hres]
                    simp

end RewardsBot

namespace RewardsBot

/-- Length of an insert: unchanged on an existing key, one more on a fresh
key. -/
theorem objInsert_length (acc : List (String × JValue)) (k : String) (v : JValue) :
    (objInsert acc k v).length =
      if k ∈ acc.map Prod.fst then acc.length else acc.length + 1 := by
  induction acc with
  | nil => simp [objInsert]
  | cons a rest ih =>
      obtain ⟨k2, v2⟩ := a
      by_cases hk : k2 = k
      · subst hk; simp [objInsert]
      · simp only [objInsert, if_neg hk, List.length_cons, ih, List.map_cons,
          List.mem_cons]
        have : ¬k = k2 := fun he => hk he.symm
        simp only [this, false_or]
        split <;> rfl

/-- Accumulation cannot grow faster than the member count. -/
theorem insertList_length_le (ms : List (String × JValue)) :
    ∀ acc, (insertList acc ms).length ≤ acc.length + ms.length := by
  induction ms with
  | nil => intro acc; simp [insertList]
  | cons m rest ih =>
      intro acc
      obtain ⟨k, v⟩ := m
      show (insertList (objInsert acc k v) rest).length ≤ acc.length + (rest.length + 1)
      have h1 := ih (objInsert acc k v)
      have h2 := objInsert_length acc k v
      by_cases hk : k ∈ acc.map Prod.fst <;> simp [hk] at h2 <;> omega

/-- If accumulating appends exactly, the keys were fresh and pairwise
distinct. -/
theorem keysNodup_of_insertList (ms : List (String × JValue)) :
    ∀ acc, insertList acc ms = acc ++ ms →
      (∀ m ∈ ms, m.1 ∉ acc.map Prod.fst) ∧ keysNodup ms := by
  induction ms with
  | nil => intro acc _; exact ⟨by simp, by simp [keysNodup]⟩
  | cons m rest ih =>
      intro acc h
      obtain ⟨k, v⟩ := m
      have hstep : insertList (objInsert acc k v) rest = acc ++ (k, v) :: rest := h
      by_cases hk : k ∈ acc.map Prod.fst
      · exfalso
        have hlen := congrArg List.length hstep
        simp only [List.length_append, List.length_cons] at hlen
        have h1 := insertList_length_le rest (objInsert acc k v)
        have h2 := objInsert_length acc k v
        rw [if_pos hk] at h2
        omega
      · have happ : objInsert acc k v = acc ++ [(k, v)] :=
          objInsert_append_of_not_mem acc k v hk
        rw [happ] at hstep
        have hstep2 : insertList (acc ++ [(k, v)]) rest = (acc ++ [(k, v)]) ++ rest := by
          rw [hstep]; simp
        obtain ⟨hfresh, hnd⟩ := ih (acc ++ [(k, v)]) hstep2
        constructor
        · intro m hm
          rcases List.mem_cons.mp hm with rfl | hm2
          · exact hk
          · have := hfresh m hm2
            simp only [List.map_append, List.mem_append] at this
            exact fun hc => this (Or.inl hc)
        · refine List.Pairwise.cons ?_ hnd
          intro b hb
          have := hfresh b hb
          simp only [List.map_append, List.map_cons, List.map_nil, List.mem_append,
            List.mem_singleton] at this
          exact fun hc => this (Or.inr hc.symm)

/-- A member list fixed by re-accumulation has pairwise-distinct keys. -/
theorem keysNodup_of_id {ms : List (String × JValue)}
    (hnd : insertList [] ms = ms) : keysNodup ms :=
  (keysNodup_of_insertList ms [] (by simpa using hnd)).2

/-- Inserting a well-formed value into a well-formed object keeps it
well-formed. -/
theorem Jwf_objInsert {o : List (String × JValue)} {k : String} {v : JValue}
    (ho : Jwf (JValue.jobj o)) (hv : Jwf v) : Jwf (JValue.jobj (objInsert o k v)) := by
  cases ho with
  | obj _ hnd h =>
      refine Jwf.obj _ (insertList_id _ (keysNodup_objInsert _ _ _ (keysNodup_of_id hnd))) ?_
      intro m hm
      rcases mem_objInsert o k v m hm with hmem | hval
      · exact h m hmem
      · rw [hval]; exact hv

/-- Membership after a `List.set`. -/
theorem mem_set_or : ∀ (l : List JValue) (i : Nat) (v x : JValue),
    x ∈ l.set i v → x ∈ l ∨ x = v := by
  intro l
  induction l with
  | nil => intro i v x hx; simp at hx
  | cons a rest ih =>
      intro i v x hx
      cases i with
      | zero =>
          simp only [List.set_cons_zero] at hx
          rcases List.mem_cons.mp hx with rfl | hx2
          · right; rfl
          · left; exact List.mem_cons_of_mem _ hx2
      | succ j =>
          simp only [List.set_cons_succ] at hx
          rcases List.mem_cons.mp hx with rfl | hx2
          · left; exact List.mem_cons_self _ _
          · rcases ih j v x hx2 with h | h
            · left; exact List.mem_cons_of_mem _ h
            · right; exact h

/-- `setEnabledFalse` keeps a value well-formed. -/
theorem Jwf_setEnabledFalse {v : JValue} (hv : Jwf v) : Jwf (setEnabledFalse v) := by
  cases v with
  | jobj o => exact Jwf_objInsert hv (Jwf.bool false)
  | jnull => exact hv
  | jbool b => exact hv
  | jnum i => exact hv
  | jstr s => exact hv
  | jarr l => exact hv

end RewardsBot

namespace RewardsBot

/-- Re-indentation distributes over concatenation. -/
theorem addIndent2_append (a b : List Char) :
    addIndent2 (a ++ b) = addIndent2 a ++ addIndent2 b := by
  induction a with
  | nil => rfl
  | cons c cs ih =>
      by_cases hc : c = '\n'
      · subst hc; simp [addIndent2, ih]
      · simp [addIndent2, hc, ih]

/-- Re-indentation is the identity on newline-free text. -/
theorem addIndent2_no_nl (l : List Char) (h : '\n' ∉ l) : addIndent2 l = l := by
  induction l with
  | nil => rfl
  | cons c cs ih =>
      have hc : ¬c = '\n' := fun he => h (by simp [he])
      simp [addIndent2, hc, ih (fun hm => h (List.mem_cons_of_mem _ hm))]

/-- One more indentation level is two more spaces. -/
theorem indentChars_succ (n : Nat) :
    indentChars (n + 1) = ' ' :: ' ' :: indentChars n := by
  show List.replicate (2 * (n + 1)) ' ' = ' ' :: ' ' :: List.replicate (2 * n) ' '
  rw [show 2 * (n + 1) = 2 * n + 1 + 1 from by ring]
  simp [List.replicate_succ]

/-- Indentation has no newline. -/
theorem nl_not_mem_indentChars (n : Nat) : '\n' ∉ indentChars n := by
  intro h
  simp only [indentChars, List.mem_replicate] at h
  exact absurd h.2 (by decide)

/-- The source's two-space re-indentation shifts a rendering one level
deeper (`"  " + stringify.split("\n").join("\n  ")` reproduces the
deeper rendering). -/
theorem addIndent2_render {v : JValue} (hv : Jwf v) :
    ∀ ind, addIndent2 (renderV ind v) = renderV (ind + 1) v := by
  induction hv with
  | null => intro ind; rfl
  | bool b => intro ind; cases b <;> rfl
  | num i =>
      intro ind
      show addIndent2 (renderInt i) = renderInt i
      exact addIndent2_no_nl _ (nl_not_mem_renderInt i)
  | str s =>
      intro ind
      show addIndent2 (renderString s) = renderString s
      exact addIndent2_no_nl _ (nl_not_mem_renderString s)
  | arr l h ih =>
      intro ind
      cases l with
      | nil => rfl
      | cons x xs =>
          have aux : ∀ (ys : List JValue), ys ≠ [] →
              (∀ y ∈ ys, ∀ j, addIndent2 (renderV j y) = renderV (j + 1) y) →
              ' ' :: ' ' :: addIndent2 (renderItems ind ys) =
                renderItems (ind + 1) ys := by
            intro ys
            induction ys with
            | nil => intro hne _; exact absurd rfl hne
            | cons y zs ihy =>
                intro _ hys
                cases zs with
                | nil =>
                    show ' ' :: ' ' :: addIndent2 (indentChars (ind + 1) ++
                      (renderV (ind + 1) y ++ ('\n' :: (indentChars ind ++ [']'])))) = _
                    rw [addIndent2_append, addIndent2_append,
                      addIndent2_no_nl _ (nl_not_mem_indentChars (ind + 1)),
                      hys y (by simp) (ind + 1)]
                    show ' ' :: ' ' :: (indentChars (ind + 1) ++ (renderV (ind + 2) y ++
                      ('\n' :: ' ' :: ' ' :: addIndent2 (indentChars ind ++ [']'])))) = _
                    rw [addIndent2_no_nl _ (by
                      intro hm
                      rcases List.mem_append.mp hm with h2 | h2
                      · exact nl_not_mem_indentChars ind h2
                      · simp at h2)]
                    show _ = indentChars (ind + 1 + 1) ++ (renderV (ind + 1 + 1) y ++
                      ('\n' :: (indentChars (ind + 1) ++ [']'])))
                    rw [indentChars_succ (ind + 1), indentChars_succ ind]
                    rfl
                | cons z zs2 =>
                    show ' ' :: ' ' :: addIndent2 (indentChars (ind + 1) ++
                      (renderV (ind + 1) y ++ (',' :: '\n' :: renderItems ind (z :: zs2)))) = _
                    rw [addIndent2_append, addIndent2_append,
                      addIndent2_no_nl _ (nl_not_mem_indentChars (ind + 1)),
                      hys y (by simp) (ind + 1)]
                    show ' ' :: ' ' :: (indentChars (ind + 1) ++ (renderV (ind + 2) y ++
                      (',' :: '\n' :: ' ' :: ' ' :: addIndent2 (renderItems ind (z :: zs2))))) = _
                    rw [ihy (by simp) (fun y2 hy2 => hys y2 (by simp [hy2]))]
                    show _ = indentChars (ind + 1 + 1) ++ (renderV (ind + 1 + 1) y ++
                      (',' :: '\n' :: renderItems (ind + 1) (z :: zs2)))
                    rw [indentChars_succ (ind + 1)]
                    rfl
          show addIndent2 ('[' :: '\n' :: renderItems ind (x :: xs)) = _
          rw [show addIndent2 ('[' :: '\n' :: renderItems ind (x :: xs)) =
              '[' :: '\n' :: ' ' :: ' ' :: addIndent2 (renderItems ind (x :: xs)) from by
            simp [addIndent2]]
          rw [aux (x :: xs) (by simp) (fun y hy => ih y hy)]
          rfl
  | obj ms hnd h ih =>
      intro ind
      cases ms with
      | nil => rfl
      | cons m ms2 =>
          have aux : ∀ (ys : List (String × JValue)), ys ≠ [] →
              (∀ y ∈ ys, ∀ j, addIndent2 (renderV j y.2) = renderV (j + 1) y.2) →
              ' ' :: ' ' :: addIndent2 (renderMembers ind ys) =
                renderMembers (ind + 1) ys := by
            intro ys
            induction ys with
            | nil => intro hne _; exact absurd rfl hne
            | cons y zs ihy =>
                obtain ⟨k, v2⟩ := y
                intro _ hys
                cases zs with
                | nil =>
                    show ' ' :: ' ' :: addIndent2 (indentChars (ind + 1) ++
                      (renderString k ++ (':' :: ' ' :: (renderV (ind + 1) v2 ++
                        ('\n' :: (indentChars ind ++ ['}'])))))) = _
                    rw [addIndent2_append, addIndent2_append,
                      addIndent2_no_nl _ (nl_not_mem_indentChars (ind + 1)),
                      addIndent2_no_nl _ (nl_not_mem_renderString k)]
                    show ' ' :: ' ' :: (indentChars (ind + 1) ++ (renderString k ++
                      (':' :: ' ' :: addIndent2 (renderV (ind + 1) v2 ++
                        ('\n' :: (indentChars ind ++ ['}'])))))) = _
                    rw [addIndent2_append, hys (k, v2) (by simp) (ind + 1)]
                    show ' ' :: ' ' :: (indentChars (ind + 1) ++ (renderString k ++
                      (':' :: ' ' :: (renderV (ind + 2) v2 ++
                        ('\n' :: ' ' :: ' ' :: addIndent2 (indentChars ind ++ ['}'])))))) = _
                    rw [addIndent2_no_nl _ (by
                      intro hm
                      rcases List.mem_append.mp hm with h2 | h2
                      · exact nl_not_mem_indentChars ind h2
                      · simp at h2)]
                    show _ = indentChars (ind + 1 + 1) ++ (renderString k ++
                      (':' :: ' ' :: (renderV (ind + 1 + 1) v2 ++
                        ('\n' :: (indentChars (ind + 1) ++ ['}'])))))
                    rw [indentChars_succ (ind + 1), indentChars_succ ind]
                    rfl
                | cons z zs2 =>
                    show ' ' :: ' ' :: addIndent2 (indentChars (ind + 1) ++
                      (renderString k ++ (':' :: ' ' :: (renderV (ind + 1) v2 ++
                        (',' :: '\n' :: renderMembers ind (z :: zs2)))))) = _
                    rw [addIndent2_append, addIndent2_append,
                      addIndent2_no_nl _ (nl_not_mem_indentChars (ind + 1)),
                      addIndent2_no_nl _ (nl_not_mem_renderString k)]
                    show ' ' :: ' ' :: (indentChars (ind + 1) ++ (renderString k ++
                      (':' :: ' ' :: addIndent2 (renderV (ind + 1) v2 ++
                        (',' :: '\n' :: renderMembers ind (z :: zs2)))))) = _
                    rw [addIndent2_append, hys (k, v2) (by simp) (ind + 1)]
                    show ' ' :: ' ' :: (indentChars (ind + 1) ++ (renderString k ++
                      (':' :: ' ' :: (renderV (ind + 2) v2 ++
                        (',' :: '\n' :: ' ' :: ' ' ::
                          addIndent2 (renderMembers ind (z :: zs2))))))) = _
                    rw [ihy (by simp) (fun y2 hy2 => hys y2 (by simp [hy2]))]
                    show _ = indentChars (ind + 1 + 1) ++ (renderString k ++
                      (':' :: ' ' :: (renderV (ind + 1 + 1) v2 ++
                        (',' :: '\n' :: renderMembers (ind + 1) (z :: zs2)))))
                    rw [indentChars_succ (ind + 1)]
                    rfl
          show addIndent2 ('{' :: '\n' :: renderMembers ind (m :: ms2)) = _
          rw [show addIndent2 ('{' :: '\n' :: renderMembers ind (m :: ms2)) =
              '{' :: '\n' :: ' ' :: ' ' :: addIndent2 (renderMembers ind (m :: ms2)) from by
            simp [addIndent2]]
          rw [aux (m :: ms2) (by simp) (fun y hy => ih y hy)]
          rfl

end RewardsBot

namespace RewardsBot

/-- Digits are not JS whitespace. -/
theorem digit_not_jsws {c : Char} (hc : isDigitChar c = true) : isJsWs c = false := by
  have hb : 48 ≤ c.toNat ∧ c.toNat ≤ 57 := by
    simpa [isDigitChar, Bool.and_eq_true, decide_eq_true_eq] using hc
  cases h : isJsWs c with
  | false => rfl
  | true =>
      exfalso
      simp only [isJsWs, Bool.or_eq_true, Bool.and_eq_true, decide_eq_true_eq] at h
      omega

/-- JS whitespace is neither slash nor quote. -/
theorem jsWs_plain {c : Char} (hc : isJsWs c = true) :
    c ≠ '/' ∧ isQuote c = false := by
  simp only [isJsWs, Bool.or_eq_true, Bool.and_eq_true, decide_eq_true_eq] at hc
  constructor
  · intro h; subst h
    have h47 : ('/' : Char).toNat = 47 := by decide
    omega
  · simp only [isQuote, Bool.or_eq_false_iff, decide_eq_false_iff_not]
    constructor
    · intro h; subst h
      have h34 : ('"' : Char).toNat = 34 := by decide
      omega
    · omega

/-- Every `RL`-related text starts with a non-JS-whitespace character. -/
theorem RL_head2 {n : Nat} {v : JValue} {s : List Char} (h : RL n v s) :
    ∃ c t, s = c :: t ∧ isJsWs c = false := by
  cases h with
  | rnull n => exact ⟨'n', _, rfl, by decide⟩
  | rtrue n => exact ⟨'t', _, rfl, by decide⟩
  | rfalse n => exact ⟨'f', _, rfl, by decide⟩
  | rstr n s => exact ⟨'"', _, rfl, by decide⟩
  | rarrEmpty n w hw => exact ⟨'[', _, rfl, by decide⟩
  | rarr n vs s hi => exact ⟨'[', _, rfl, by decide⟩
  | robjEmpty n w hw => exact ⟨'{', _, rfl, by decide⟩
  | robj n ms s hm hnd => exact ⟨'{', _, rfl, by decide⟩
  | rnum n i =>
      obtain ⟨c0, t, hs, hws, h1, h2, h3, h4, h5, h6⟩ := renderInt_head i
      refine ⟨c0, t, hs, ?_⟩
      have := renderInt_chars i c0 (by rw [hs]; simp)
      rcases this with h | h
      · subst h; decide
      · exact digit_not_jsws h

/-- The leading-whitespace run: after any newline of an `RL`-derivable
text, the remainder is a (JSON-)whitespace run followed by a
non-JS-whitespace character. -/
theorem RL_lead (N : Nat) :
    (∀ v s, RL N v s → ∀ p q, s = p ++ '\n' :: q →
      ∃ w c t, q = w ++ c :: t ∧ wsOnly w ∧ isJsWs c = false) ∧
    (∀ vs s, RLitems N vs s → ∀ p q, s = p ++ '\n' :: q →
      ∃ w c t, q = w ++ c :: t ∧ wsOnly w ∧ isJsWs c = false) ∧
    (∀ ms s, RLmembers N ms s → ∀ p q, s = p ++ '\n' :: q →
      ∃ w c t, q = w ++ c :: t ∧ wsOnly w ∧ isJsWs c = false) := by
  induction N using Nat.strong_induction_on with
  | _ N IH =>
  refine ⟨?_, ?_, ?_⟩
  · intro v s h p q hs
    cases h with
    | rnull n => exact absurd hs (fun h2 => token_no_split (by decide) h2)
    | rtrue n => exact absurd hs (fun h2 => token_no_split (by decide) h2)
    | rfalse n => exact absurd hs (fun h2 => token_no_split (by decide) h2)
    | rnum n i => exact absurd hs (fun h2 => token_no_split (nl_not_mem_renderInt i) h2)
    | rstr n str =>
        exact absurd hs (fun h2 => token_no_split (nl_not_mem_renderString str) h2)
    | rarrEmpty n w hw =>
        obtain ⟨p2, rfl, hX⟩ := cons_split (by decide) hs
        rcases split_nl hX with ⟨q1, hw1, rfl⟩ | ⟨p3, rfl, hB⟩
        · obtain ⟨hp2, hnlq⟩ := wsOnly_split (hw1 ▸ hw)
          exact ⟨q1, ']', [], rfl, wsOnly_cons_tail hnlq, by decide⟩
        · exact absurd hB (fun h2 => token_no_split (by decide) h2)
    | rarr n vs si hi =>
        obtain ⟨p2, rfl, hX⟩ := cons_split (by decide) hs
        exact (IH n (by omega)).2.1 vs si hi p2 q hX
    | robjEmpty n w hw =>
        obtain ⟨p2, rfl, hX⟩ := cons_split (by decide) hs
        rcases split_nl hX with ⟨q1, hw1, rfl⟩ | ⟨p3, rfl, hB⟩
        · obtain ⟨hp2, hnlq⟩ := wsOnly_split (hw1 ▸ hw)
          exact ⟨q1, '}', [], rfl, wsOnly_cons_tail hnlq, by decide⟩
        · exact absurd hB (fun h2 => token_no_split (by decide) h2)
    | robj n ms si hm hnd =>
        obtain ⟨p2, rfl, hX⟩ := cons_split (by decide) hs
        exact (IH n (by omega)).2.2 ms si hm p2 q hX
  · intro vs s h p q hs
    cases h with
    | rlast n v sv w0 w1 hv h0 h1 =>
        rcases split_nl hs with ⟨q1, hw0, rfl⟩ | ⟨p2, rfl, hX⟩
        · obtain ⟨hp, hnlq⟩ := wsOnly_split (hw0 ▸ h0)
          obtain ⟨c, t, hsv, hcw⟩ := RL_head2 hv
          exact ⟨q1, c, t ++ (w1 ++ [']']), by rw [hsv]; simp,
            wsOnly_cons_tail hnlq, hcw⟩
        · rcases split_nl hX with ⟨q2, hsv, rfl⟩ | ⟨p3, rfl, hY⟩
          · obtain ⟨w, c, t, hq2, hw, hc⟩ := (IH n (by omega)).1 v sv hv p2 q2 hsv
            exact ⟨w, c, t ++ (w1 ++ [']']), by rw [hq2]; simp, hw, hc⟩
          · rcases split_nl hY with ⟨q3, hw1, rfl⟩ | ⟨p4, rfl, hB⟩
            · obtain ⟨hp3, hnlq⟩ := wsOnly_split (hw1 ▸ h1)
              exact ⟨q3, ']', [], rfl, wsOnly_cons_tail hnlq, by decide⟩
            · exact absurd hB (fun h2 => token_no_split (by decide) h2)
    | rcons n v vs sv w0 w1 r hv h0 h1 hr =>
        rcases split_nl hs with ⟨q1, hw0, rfl⟩ | ⟨p2, rfl, hX⟩
        · obtain ⟨hp, hnlq⟩ := wsOnly_split (hw0 ▸ h0)
          obtain ⟨c, t, hsv, hcw⟩ := RL_head2 hv
          exact ⟨q1, c, t ++ (w1 ++ (',' :: r)), by rw [hsv]; simp,
            wsOnly_cons_tail hnlq, hcw⟩
        · rcases split_nl hX with ⟨q2, hsv, rfl⟩ | ⟨p3, rfl, hY⟩
          · obtain ⟨w, c, t, hq2, hw, hc⟩ := (IH n (by omega)).1 v sv hv p2 q2 hsv
            exact ⟨w, c, t ++ (w1 ++ (',' :: r)), by rw [hq2]; simp, hw, hc⟩
          · rcases split_nl hY with ⟨q3, hw1, rfl⟩ | ⟨p4, rfl, hB⟩
            · obtain ⟨hp3, hnlq⟩ := wsOnly_split (hw1 ▸ h1)
              exact ⟨q3, ',', r, rfl, wsOnly_cons_tail hnlq, by decide⟩
            · obtain ⟨p5, rfl, hr2⟩ := cons_split (by decide) hB
              exact (IH n (by omega)).2.1 vs r hr p5 q hr2
  · intro ms s h p q hs
    cases h with
    | rlast n k v sv w0 w1 w2 w3 hv h0 h1 h2 h3 =>
        rcases split_nl hs with ⟨q1, hw0, rfl⟩ | ⟨p2, rfl, hX1⟩
        · obtain ⟨hp, hnlq⟩ := wsOnly_split (hw0 ▸ h0)
          exact ⟨q1, '"', (escapeList k.data ++ ['"']) ++
            (w1 ++ (':' :: (w2 ++ (sv ++ (w3 ++ ['}']))))),
            by simp [renderString], wsOnly_cons_tail hnlq, by decide⟩
        · rcases split_nl hX1 with ⟨q2, hks, rfl⟩ | ⟨p3, rfl, hX2⟩
          · exact absurd hks (fun h4 => token_no_split (nl_not_mem_renderString k) h4)
          · rcases split_nl hX2 with ⟨q3, hw1, rfl⟩ | ⟨p4, rfl, hX3⟩
            · obtain ⟨hp3, hnlq⟩ := wsOnly_split (hw1 ▸ h1)
              exact ⟨q3, ':', w2 ++ (sv ++ (w3 ++ ['}'])), rfl,
                wsOnly_cons_tail hnlq, by decide⟩
            · obtain ⟨p5, rfl, hX4⟩ := cons_split (by decide) hX3
              rcases split_nl hX4 with ⟨q4, hw2, rfl⟩ | ⟨p6, rfl, hX5⟩
              · obtain ⟨hp5, hnlq⟩ := wsOnly_split (hw2 ▸ h2)
                obtain ⟨c, t, hsv, hcw⟩ := RL_head2 hv
                exact ⟨q4, c, t ++ (w3 ++ ['}']), by rw [hsv]; simp,
                  wsOnly_cons_tail hnlq, hcw⟩
              · rcases split_nl hX5 with ⟨q5, hsv, rfl⟩ | ⟨p7, rfl, hX6⟩
                · obtain ⟨w, c, t, hq5, hw, hc⟩ := (IH n (by omega)).1 v sv hv p6 q5 hsv
                  exact ⟨w, c, t ++ (w3 ++ ['}']), by rw [hq5]; simp, hw, hc⟩
                · rcases split_nl hX6 with ⟨q6, hw3, rfl⟩ | ⟨p8, rfl, hB⟩
                  · obtain ⟨hp7, hnlq⟩ := wsOnly_split (hw3 ▸ h3)
                    exact ⟨q6, '}', [], rfl, wsOnly_cons_tail hnlq, by decide⟩
                  · exact absurd hB (fun h4 => token_no_split (by decide) h4)
    | rcons n k v ms sv w0 w1 w2 w3 r hv h0 h1 h2 h3 hr =>
        rcases split_nl hs with ⟨q1, hw0, rfl⟩ | ⟨p2, rfl, hX1⟩
        · obtain ⟨hp, hnlq⟩ := wsOnly_split (hw0 ▸ h0)
          exact ⟨q1, '"', (escapeList k.data ++ ['"']) ++
            (w1 ++ (':' :: (w2 ++ (sv ++ (w3 ++ (',' :: r)))))),
            by simp [renderString], wsOnly_cons_tail hnlq, by decide⟩
        · rcases split_nl hX1 with ⟨q2, hks, rfl⟩ | ⟨p3, rfl, hX2⟩
          · exact absurd hks (fun h4 => token_no_split (nl_not_mem_renderString k) h4)
          · rcases split_nl hX2 with ⟨q3, hw1, rfl⟩ | ⟨p4, rfl, hX3⟩
            · obtain ⟨hp3, hnlq⟩ := wsOnly_split (hw1 ▸ h1)
              exact ⟨q3, ':', w2 ++ (sv ++ (w3 ++ (',' :: r))), rfl,
                wsOnly_cons_tail hnlq, by decide⟩
            · obtain ⟨p5, rfl, hX4⟩ := cons_split (by decide) hX3
              rcases split_nl hX4 with ⟨q4, hw2, rfl⟩ | ⟨p6, rfl, hX5⟩
              · obtain ⟨hp5, hnlq⟩ := wsOnly_split (hw2 ▸ h2)
                obtain ⟨c, t, hsv, hcw⟩ := RL_head2 hv
                exact ⟨q4, c, t ++ (w3 ++ (',' :: r)), by rw [hsv]; simp,
                  wsOnly_cons_tail hnlq, hcw⟩
              · rcases split_nl hX5 with ⟨q5, hsv, rfl⟩ | ⟨p7, rfl, hX6⟩
                · obtain ⟨w, c, t, hq5, hw, hc⟩ := (IH n (by omega)).1 v sv hv p6 q5 hsv
                  exact ⟨w, c, t ++ (w3 ++ (',' :: r)), by rw [hq5]; simp, hw, hc⟩
                · rcases split_nl hX6 with ⟨q6, hw3, rfl⟩ | ⟨p8, rfl, hB⟩
                  · obtain ⟨hp7, hnlq⟩ := wsOnly_split (hw3 ▸ h3)
                    exact ⟨q6, ',', r, rfl, wsOnly_cons_tail hnlq, by decide⟩
                  · obtain ⟨p9, rfl, hr2⟩ := cons_split (by decide) hB
                    exact (IH n (by omega)).2.2 ms r hr p9 q hr2

end RewardsBot

namespace RewardsBot

/-- JSON whitespace is JS whitespace. -/
theorem jsonWs_isJsWs {c : Char} (hc : isJsonWs c = true) : isJsWs c = true := by
  simp only [isJsonWs, Bool.or_eq_true, decide_eq_true_eq] at hc
  rcases hc with ((h | h) | h) | h <;> subst h <;> decide

/-- `takeWhile isJsWs` of a whitespace run followed by a non-whitespace
character is the run itself. -/
theorem takeWhile_ws_stop {w : List Char} (hw : wsOnly w) {c : Char}
    (hc : isJsWs c = false) (t : List Char) :
    (w ++ c :: t).takeWhile isJsWs = w := by
  induction w with
  | nil => simp [List.takeWhile, hc]
  | cons x xs ih =>
      have hx := jsonWs_isJsWs (hw x (by simp))
      simp only [List.cons_append, List.takeWhile_cons, hx, if_true]
      rw [ih (wsOnly_cons_tail hw)]

/-- Elements taken from a prefix are taken from the whole list. -/
theorem mem_takeWhile_of_prefix {p : Char → Bool} :
    ∀ (A R : List Char) (x : Char), x ∈ A.takeWhile p →
      x ∈ (A ++ R).takeWhile p := by
  intro A
  induction A with
  | nil => intro R x hx; simp [List.takeWhile] at hx
  | cons a as ih =>
      intro R x hx
      rw [List.takeWhile_cons] at hx
      rw [List.cons_append, List.takeWhile_cons]
      by_cases hp : p a = true
      · rw [if_pos hp] at hx ⊢
        rcases List.mem_cons.mp hx with rfl | hx2
        · exact List.mem_cons_self _ _
        · exact List.mem_cons_of_mem _ (ih R x hx2)
      · rw [if_neg hp] at hx
        simp at hx

/-- `joinNl` of a cons with a nonempty tail. -/
theorem joinNl_data_cons (a : String) (ls : List String) (h : ls ≠ []) :
    (joinNl (a :: ls)).data = a.data ++ '\n' :: (joinNl ls).data := by
  cases ls with
  | nil => exact absurd rfl h
  | cons b bs =>
      show (a ++ "\n" ++ joinNl (b :: bs)).data = _
      simp [String.data_append]

/-- `splitAtChar` never returns the empty list. -/
theorem splitAtChar_ne_nil (sep : Char) : ∀ (l : List Char), splitAtChar sep l ≠ [] := by
  intro l
  induction l with
  | nil => simp [splitAtChar]
  | cons c cs ih =>
      by_cases hc : c = sep
      · simp [splitAtChar, hc]
      · simp only [splitAtChar, hc, if_false]
        rcases hsp : splitAtChar sep cs with _ | ⟨t, ts⟩
        · simp
        · simp

/-- Rejoining split lines restores the text. -/
theorem joinNl_splitAtChar : ∀ (l : List Char),
    (joinNl ((splitAtChar '\n' l).map (fun x => String.mk x))).data = l := by
  intro l
  induction l with
  | nil => rfl
  | cons c cs ih =>
      by_cases hc : c = '\n'
      · subst hc
        have hstep : splitAtChar '\n' ('\n' :: cs) = [] :: splitAtChar '\n' cs := by
          simp [splitAtChar]
        rw [hstep]
        simp only [List.map_cons]
        rw [joinNl_data_cons _ _ (by
          intro hmap
          exact splitAtChar_ne_nil '\n' cs (List.map_eq_nil_iff.mp hmap))]
        rw [ih]
        rfl
      · simp only [splitAtChar, hc, if_false]
        rcases hsp : splitAtChar '\n' cs with _ | ⟨t, ts⟩
        · exact absurd hsp (splitAtChar_ne_nil '\n' cs)
        · rw [hsp] at ih
          cases ts with
          | nil =>
              simp only [List.map_cons, List.map_nil] at ih ⊢
              show (String.mk (c :: t)).data = c :: cs
              have : (joinNl [String.mk t]).data = t := rfl
              rw [this] at ih
              show c :: t = c :: cs
              rw [ih]
          | cons u us =>
              simp only [List.map_cons] at ih ⊢
              rw [joinNl_data_cons _ _ (by simp)] at ih ⊢
              show c :: (t ++ '\n' :: (joinNl ((u :: us).map (fun x => String.mk x))).data) = c :: cs
              rw [← ih]
              rfl

/-- Rejoining the split lines of a string restores it. -/
theorem joinNl_splitLines (s : String) : joinNl (splitLines s) = s :=
  String.ext (joinNl_splitAtChar s.data)

/-- The text decomposition induced by inserting a line at an interior
position. -/
theorem joinNl_insertAt : ∀ (ls : List String) (k : Nat) (x : String),
    0 < k → k < ls.length →
    (joinNl ls).data =
      (joinNl (ls.take k)).data ++ '\n' :: (joinNl (ls.drop k)).data ∧
    (joinNl (insertAt ls k x)).data =
      (joinNl (ls.take k)).data ++ '\n' :: (x.data ++ '\n' :: (joinNl (ls.drop k)).data) := by
  intro ls
  induction ls with
  | nil => intro k x h1 h2; simp at h2
  | cons a rest ih =>
      intro k x h1 h2
      obtain ⟨j, rfl⟩ : ∃ j, k = j + 1 := ⟨k - 1, by omega⟩
      simp only [List.length_cons] at h2
      cases j with
      | zero =>
          have hrest : rest ≠ [] := by
            intro h; rw [h] at h2; simp at h2
          constructor
          · rw [joinNl_data_cons a rest hrest]
            rfl
          · show (joinNl (List.take 1 (a :: rest) ++ x :: List.drop 1 (a :: rest))).data = _
            simp only [List.take_succ_cons, List.take_zero, List.drop_succ_cons,
              List.drop_zero]
            rw [show [a] ++ x :: rest = a :: x :: rest from rfl]
            rw [joinNl_data_cons a (x :: rest) (by simp),
              joinNl_data_cons x rest hrest]
            rfl
      | succ j2 =>
          have hj2 : 0 < j2 + 1 := by omega
          have hlen : j2 + 1 < rest.length := by omega
          obtain ⟨ih1, ih2⟩ := ih (j2 + 1) x hj2 hlen
          have hrest : rest ≠ [] := by
            intro h; rw [h] at hlen; simp at hlen
          have htake : List.take (j2 + 1) rest ≠ [] := by
            have hlt : (List.take (j2 + 1) rest).length = j2 + 1 := by
              rw [List.length_take]; omega
            intro h
            rw [h] at hlt
            simp at hlt
          constructor
          · rw [joinNl_data_cons a rest hrest, ih1]
            simp only [List.take_succ_cons, List.drop_succ_cons]
            rw [joinNl_data_cons a _ htake]
            simp
          · show (joinNl (List.take (j2 + 1 + 1) (a :: rest) ++ x ::
              List.drop (j2 + 1 + 1) (a :: rest))).data = _
            simp only [List.take_succ_cons, List.drop_succ_cons]
            rw [show (a :: List.take (j2 + 1) rest) ++ x :: List.drop (j2 + 1) rest =
                a :: (List.take (j2 + 1) rest ++ x :: List.drop (j2 + 1) rest) from by simp]
            rw [joinNl_data_cons a _ (by
              intro h
              exact htake (List.append_eq_nil.mp h).1)]
            rw [show List.take (j2 + 1) rest ++ x :: List.drop (j2 + 1) rest =
                insertAt rest (j2 + 1) x from rfl]
            rw [ih2, joinNl_data_cons a _ htake]
            simp

end RewardsBot

namespace RewardsBot

/-- A found line index is in bounds. -/
theorem findLineIdx_lt (pat : String) : ∀ (ls : List String) (i : Nat),
    findLineIdx pat ls = some i → i < ls.length := by
  intro ls
  induction ls with
  | nil => intro i h; simp [findLineIdx] at h
  | cons l rest ih =>
      intro i h
      simp only [findLineIdx] at h
      split at h
      · injection h with h2
        subst h2; simp
      · rcases hmap : findLineIdx pat rest with _ | j
        · rw [hmap] at h; exact Option.noConfusion h
        · rw [hmap] at h
          injection h with h2
          subst h2
          have := ih j hmap
          simp only [List.length_cons]
          omega

/-- The backward brace search succeeds when line 0 opens with a brace,
and returns an in-range index whose line opens with a brace. -/
theorem walkBackToBrace_spec (lines : List String)
    (h0 : trimStartsWithBrace (lines.getD 0 "") = true) :
    ∀ i, ∃ j, walkBackToBrace lines i = some j ∧ j ≤ i ∧
      trimStartsWithBrace (lines.getD j "") = true := by
  intro i
  induction i with
  | zero => exact ⟨0, by simp only [walkBackToBrace, h0, if_true], le_refl 0, h0⟩
  | succ i ih =>
      by_cases hb : trimStartsWithBrace (lines.getD (i + 1) "") = true
      · exact ⟨i + 1, by simp only [walkBackToBrace, hb, if_true], le_refl _, hb⟩
      · obtain ⟨j, hj, hle, hbr⟩ := ih
        refine ⟨j, ?_, by omega, hbr⟩
        simp only [walkBackToBrace]
        rw [if_neg hb]
        exact hj

/-- Each line heads the rejoined tail. -/
theorem line_prefix (ls : List String) (k : Nat) (hk : k < ls.length) :
    ∃ R, (joinNl (ls.drop k)).data = (ls.getD k "").data ++ R := by
  have hdrop : ls.drop k = ls[k] :: ls.drop (k + 1) := List.drop_eq_getElem_cons hk
  have hgd : ls.getD k "" = ls[k] := List.getD_eq_getElem ls "" hk
  rw [hdrop, hgd]
  cases hdk : ls.drop (k + 1) with
  | nil => exact ⟨[], by simp [joinNl]⟩
  | cons b bs =>
      refine ⟨'\n' :: (joinNl (b :: bs)).data, ?_⟩
      rw [joinNl_data_cons _ _ (by simp)]

/-- Disabling does not change the email match. -/
theorem accMatchesEmail_setEnabledFalse (email : String) (v : JValue) :
    accMatchesEmail email (setEnabledFalse v) = accMatchesEmail email v := by
  cases v with
  | jobj o =>
      show accMatchesEmail email (JValue.jobj (objInsert o "enabled" (JValue.jbool false))) = _
      simp only [accMatchesEmail]
      rw [objGet_objInsert_ne o "enabled" "email" (JValue.jbool false) (by decide)]
  | jnull => rfl
  | jbool b => rfl
  | jnum i => rfl
  | jstr s => rfl
  | jarr l => rfl

/-- The account index is found again after the mutation. -/
theorem findAccountIdx_set (email : String) : ∀ (l : List JValue) (i : Nat),
    findAccountIdx email l = some i →
    findAccountIdx email (l.set i (setEnabledFalse (l.getD i JValue.jnull))) = some i := by
  intro l
  induction l with
  | nil => intro i h; simp [findAccountIdx] at h
  | cons v vs ih =>
      intro i h
      simp only [findAccountIdx] at h
      split at h
      · next hm =>
          injection h with h2
          subst h2
          show findAccountIdx email
            (setEnabledFalse v :: vs) = some 0
          simp [findAccountIdx, accMatchesEmail_setEnabledFalse, hm]
      · next hm =>
          rcases hf : findAccountIdx email vs with _ | j
          · rw [hf] at h; exact Option.noConfusion h
          · rw [hf] at h
            injection h with h2
            subst h2
            show findAccountIdx email
              (v :: vs.set j (setEnabledFalse (vs.getD j JValue.jnull))) = some (j + 1)
            simp only [findAccountIdx]
            rw [if_neg hm, ih j hf]
            rfl

/-- A matched account is an object, and disabling it makes `isDisabled`
true. -/
theorem isDisabled_setEnabledFalse {email : String} {v : JValue}
    (hm : accMatchesEmail email v = true) : isDisabled (setEnabledFalse v) = true := by
  cases v with
  | jobj o =>
      show isDisabled (JValue.jobj (objInsert o "enabled" (JValue.jbool false))) = true
      simp [isDisabled, objGet_objInsert_self]
  | jnull => simp [accMatchesEmail] at hm
  | jbool b => simp [accMatchesEmail] at hm
  | jnum i => simp [accMatchesEmail] at hm
  | jstr s => simp [accMatchesEmail] at hm
  | jarr l => simp [accMatchesEmail] at hm

/-- The found account index is in bounds. -/
theorem findAccountIdx_lt (email : String) : ∀ (l : List JValue) (i : Nat),
    findAccountIdx email l = some i → i < l.length := by
  intro l
  induction l with
  | nil => intro i h; simp [findAccountIdx] at h
  | cons v vs ih =>
      intro i h
      simp only [findAccountIdx] at h
      split at h
      · injection h with h2; subst h2; simp
      · rcases hf : findAccountIdx email vs with _ | j
        · rw [hf] at h; exact Option.noConfusion h
        · rw [hf] at h
          injection h with h2
          subst h2
          have := ih j hf
          simp only [List.length_cons]
          omega

/-- The element at the mutated index. -/
theorem getD_set_self (l : List JValue) (i : Nat) (v : JValue) (hi : i < l.length) :
    (l.set i v).getD i JValue.jnull = v := by
  rw [List.getD_eq_getElem _ _ (by simpa using hi)]
  exact List.getElem_set_eq (by simpa using hi)

end RewardsBot

namespace RewardsBot

/-- The ban comment's character decomposition. -/
theorem banComment_data (d reason : String) :
    (banComment d reason).data =
      '/' :: '/' :: ((" BANNED ").data ++ (d.data ++ ((": ").data ++ reason.data))) := by
  simp [banComment, String.data_append]

/-- Stripping deletes the ban-comment line (newline kept) when the date
and reason contain no line terminator. -/
theorem stripGo_banComment (d reason : String)
    (hd : ∀ c ∈ d.data, c ≠ '\n' ∧ c ≠ '\r')
    (hr : ∀ c ∈ reason.data, c ≠ '\n' ∧ c ≠ '\r') (t : List Char) :
    stripGo StripMode.normal ((banComment d reason).data ++ ('\n' :: t)) =
      '\n' :: stripGo StripMode.normal t := by
  rw [banComment_data]
  refine stripGo_lineComment _ ?_ t
  have hlit1 : ∀ x ∈ (" BANNED ").data, x ≠ '\n' ∧ x ≠ '\r' := by decide
  have hlit2 : ∀ x ∈ (": ").data, x ≠ '\n' ∧ x ≠ '\r' := by decide
  intro c hc
  rcases List.mem_append.mp hc with h | h
  · exact hlit1 c h
  · rcases List.mem_append.mp h with h2 | h2
    · exact hd c h2
    · rcases List.mem_append.mp h2 with h3 | h3
      · exact hlit2 c h3
      · exact hr c h3

/-- Stripping the array-format item text. -/
theorem asm_items_strip (banIdx : Nat) (d reason : String)
    (hd : ∀ c ∈ d.data, c ≠ '\n' ∧ c ≠ '\r')
    (hr : ∀ c ∈ reason.data, c ≠ '\n' ∧ c ≠ '\r') :
    ∀ (vs : List JValue), (∀ v ∈ vs, Jwf v) → ∀ idx rest,
    stripGo StripMode.normal ((asmArrayItems banIdx (banComment d reason) idx vs).data ++ rest) =
      asmStripped banIdx idx vs ++ stripGo StripMode.normal rest := by
  intro vs
  induction vs with
  | nil => intro _ idx rest; rfl
  | cons v vs ih =>
      intro hwf idx rest
      obtain ⟨n, hrl, -⟩ := renderRL (hwf v (by simp)) 1
      have hai : addIndent2 (jsonStringify v).data = renderV 1 v :=
        addIndent2_render (hwf v (by simp)) 0
      have hdata : (asmArrayItems banIdx (banComment d reason) idx (v :: vs)).data =
          (if idx = banIdx then
            ' ' :: ' ' :: ((banComment d reason).data ++ ['\n']) else []) ++
          (' ' :: ' ' :: (addIndent2 (jsonStringify v).data ++
            ((if vs.isEmpty then ([] : List Char) else [',']) ++
              ('\n' :: (asmArrayItems banIdx (banComment d reason) (idx + 1) vs).data)))) := by
        show ((if idx = banIdx then "  " ++ banComment d reason ++ "\n" else "") ++
          ("  " ++ String.mk (addIndent2 (jsonStringify v).data) ++
            (if vs.isEmpty then "" else ",") ++ "\n") ++
          asmArrayItems banIdx (banComment d reason) (idx + 1) vs).data = _
        by_cases hb : idx = banIdx <;> by_cases he : vs.isEmpty <;>
          simp [hb, he, String.data_append]
      rw [hdata]
      by_cases hb : idx = banIdx
      · rw [if_pos hb]
        have hsh : ((' ' :: ' ' :: ((banComment d reason).data ++ ['\n'])) ++
              (' ' :: ' ' :: (addIndent2 (jsonStringify v).data ++
                ((if vs.isEmpty then ([] : List Char) else [',']) ++
                  ('\n' :: (asmArrayItems banIdx (banComment d reason) (idx + 1) vs).data))))) ++ rest =
            [' ', ' '] ++ ((banComment d reason).data ++ ('\n' ::
              ([' ', ' '] ++ (renderV 1 v ++
                ((if vs.isEmpty then ([] : List Char) else [',']) ++
                  ([ '\n' ] ++ ((asmArrayItems banIdx (banComment d reason) (idx + 1) vs).data ++
                    rest))))))) := by
          rw [hai]; simp
        rw [hsh, stripGo_normal_plain [' ', ' '] (by decide),
          stripGo_banComment d reason hd hr,
          stripGo_normal_plain [' ', ' '] (by decide),
          (stripRL n).1 _ _ hrl]
        by_cases he : vs.isEmpty
        · rw [if_pos he]
          rw [show (([] : List Char) ++ (['\n'] ++
              ((asmArrayItems banIdx (banComment d reason) (idx + 1) vs).data ++ rest))) =
              ['\n'] ++ ((asmArrayItems banIdx (banComment d reason) (idx + 1) vs).data ++ rest)
            from by simp]
          rw [stripGo_normal_plain ['\n'] (by decide), ih (fun x hx => hwf x (by simp [hx]))]
          simp [asmStripped, hb, he, hai]
        · rw [if_neg he]
          rw [show (([','] : List Char) ++ (['\n'] ++
              ((asmArrayItems banIdx (banComment d reason) (idx + 1) vs).data ++ rest))) =
              [',', '\n'] ++ ((asmArrayItems banIdx (banComment d reason) (idx + 1) vs).data ++ rest)
            from by simp]
          rw [stripGo_normal_plain [',', '\n'] (by decide),
            ih (fun x hx => hwf x (by simp [hx]))]
          simp [asmStripped, hb, he, hai]
      · rw [if_neg hb]
        have hsh : (([] : List Char) ++
              (' ' :: ' ' :: (addIndent2 (jsonStringify v).data ++
                ((if vs.isEmpty then ([] : List Char) else [',']) ++
                  ('\n' :: (asmArrayItems banIdx (banComment d reason) (idx + 1) vs).data))))) ++ rest =
            [' ', ' '] ++ (renderV 1 v ++
              ((if vs.isEmpty then ([] : List Char) else [',']) ++
                (['\n'] ++ ((asmArrayItems banIdx (banComment d reason) (idx + 1) vs).data ++
                  rest)))) := by
          rw [hai]; simp
        rw [hsh, stripGo_normal_plain [' ', ' '] (by decide), (stripRL n).1 _ _ hrl]
        by_cases he : vs.isEmpty
        · rw [if_pos he]
          rw [show (([] : List Char) ++ (['\n'] ++
              ((asmArrayItems banIdx (banComment d reason) (idx + 1) vs).data ++ rest))) =
              ['\n'] ++ ((asmArrayItems banIdx (banComment d reason) (idx + 1) vs).data ++ rest)
            from by simp]
          rw [stripGo_normal_plain ['\n'] (by decide), ih (fun x hx => hwf x (by simp [hx]))]
          simp [asmStripped, hb, he, hai]
        · rw [if_neg he]
          rw [show (([','] : List Char) ++ (['\n'] ++
              ((asmArrayItems banIdx (banComment d reason) (idx + 1) vs).data ++ rest))) =
              [',', '\n'] ++ ((asmArrayItems banIdx (banComment d reason) (idx + 1) vs).data ++ rest)
            from by simp]
          rw [stripGo_normal_plain [',', '\n'] (by decide),
            ih (fun x hx => hwf x (by simp [hx]))]
          simp [asmStripped, hb, he, hai]

end RewardsBot

namespace RewardsBot

/-- `wsOnly` from a decidable `all` check. -/
theorem wsOnly_of_all {l : List Char} (h : l.all isJsonWs = true) : wsOnly l :=
  fun c hc => List.all_eq_true.mp h c hc

/-- The stripped array-format items followed by the closing bracket are
`RLitems`-related to the item values. -/
theorem asm_items_RL (banIdx : Nat) : ∀ (vs : List JValue), vs ≠ [] →
    (∀ v ∈ vs, Jwf v) → ∀ idx (w : List Char), wsOnly w →
    ∃ n, RLitems n vs (w ++ (asmStripped banIdx idx vs ++ [']'])) ∧
      n + 1 ≤ (w ++ (asmStripped banIdx idx vs ++ [']'])).length := by
  intro vs
  induction vs with
  | nil => intro hne; exact absurd rfl hne
  | cons v vs ih =>
      intro _ hwf idx w hw
      obtain ⟨n, hrl, hlen⟩ := renderRL (hwf v (by simp)) 1
      have hai : addIndent2 (jsonStringify v).data = renderV 1 v :=
        addIndent2_render (hwf v (by simp)) 0
      have hcmt : wsOnly (if idx = banIdx then ([' ', ' ', '\n'] : List Char) else []) := by
        split
        · exact wsOnly_of_all (by decide)
        · exact wsOnly_nil
      cases vs with
      | nil =>
          have hsh : w ++ (asmStripped banIdx idx [v] ++ [']']) =
              (w ++ ((if idx = banIdx then ([' ', ' ', '\n'] : List Char) else []) ++
                [' ', ' '])) ++ (renderV 1 v ++ (['\n'] ++ [']'])) := by
            simp [asmStripped, hai]
          refine ⟨n + 1, ?_, ?_⟩
          · rw [hsh]
            exact RLitems.rlast n v _ _ _ hrl
              (wsOnly_append hw (wsOnly_append hcmt (wsOnly_of_all (by decide))))
              (wsOnly_of_all (by decide))
          · rw [hsh]
            simp only [List.length_append, List.length_cons, List.length_nil,
              List.length_singleton]
            omega
      | cons z zs =>
          obtain ⟨nr, hrlr, hlenr⟩ := ih (by simp)
            (fun x hx => hwf x (by simp [hx])) (idx + 1) ['\n']
            (wsOnly_of_all (by decide))
          have hsh : w ++ (asmStripped banIdx idx (v :: z :: zs) ++ [']']) =
              (w ++ ((if idx = banIdx then ([' ', ' ', '\n'] : List Char) else []) ++
                [' ', ' '])) ++ (renderV 1 v ++ (([] : List Char) ++ (',' ::
                  (['\n'] ++ (asmStripped banIdx (idx + 1) (z :: zs) ++ [']']))))) := by
            simp [asmStripped, hai]
          have h2 : nr ≤ (asmStripped banIdx (idx + 1) (z :: zs)).length + 1 := by
            simp only [List.length_append, List.length_cons, List.length_nil,
              List.length_singleton] at hlenr
            omega
          refine ⟨(n ⊔ nr) + 1, ?_, ?_⟩
          · rw [hsh]
            exact RLitems.rcons (n ⊔ nr) v (z :: zs) _ _ _ _
              ((RL_mono n).1 v _ hrl _ (by omega))
              (wsOnly_append hw (wsOnly_append hcmt (wsOnly_of_all (by decide))))
              wsOnly_nil
              ((RL_mono nr).2.1 (z :: zs) _ hrlr _ (by omega))
          · rw [hsh]
            simp only [List.length_append, List.length_cons, List.length_nil,
              List.length_singleton]
            omega

/-- The ban comment appears verbatim in the rebuilt array-format text when
the target index is within range. -/
theorem asm_comment_present (banIdx : Nat) (C : String) : ∀ (vs : List JValue) (idx : Nat),
    idx ≤ banIdx → banIdx < idx + vs.length →
    ∃ pre post, (asmArrayItems banIdx C idx vs).data = pre ++ (C.data ++ post) := by
  intro vs
  induction vs with
  | nil => intro idx h1 h2; simp at h2; omega
  | cons v vs ih =>
      intro idx h1 h2
      by_cases hb : idx = banIdx
      · refine ⟨"  ".data, "\n".data ++ ("  " ++ String.mk (addIndent2 (jsonStringify v).data) ++
          (if vs.isEmpty then "" else ",") ++ "\n").data ++
          (asmArrayItems banIdx C (idx + 1) vs).data, ?_⟩
        show ((if idx = banIdx then "  " ++ C ++ "\n" else "") ++
          ("  " ++ String.mk (addIndent2 (jsonStringify v).data) ++
            (if vs.isEmpty then "" else ",") ++ "\n") ++
          asmArrayItems banIdx C (idx + 1) vs).data = _
        rw [if_pos hb]
        simp [String.data_append]
      · obtain ⟨pre, post, hpp⟩ := ih (idx + 1) (by omega) (by
          simp only [List.length_cons] at h2; omega)
        refine ⟨("  " ++ String.mk (addIndent2 (jsonStringify v).data) ++
          (if vs.isEmpty then "" else ",") ++ "\n").data ++ pre, post, ?_⟩
        show ((if idx = banIdx then "  " ++ C ++ "\n" else "") ++
          ("  " ++ String.mk (addIndent2 (jsonStringify v).data) ++
            (if vs.isEmpty then "" else ",") ++ "\n") ++
          asmArrayItems banIdx C (idx + 1) vs).data = _
        rw [if_neg hb]
        simp [String.data_append, hpp]

end RewardsBot

namespace RewardsBot

/-- The found account matches the email. -/
theorem findAccountIdx_getD (email : String) : ∀ (l : List JValue) (i : Nat),
    findAccountIdx email l = some i →
    accMatchesEmail email (l.getD i JValue.jnull) = true := by
  intro l
  induction l with
  | nil => intro i h; simp [findAccountIdx] at h
  | cons v vs ih =>
      intro i h
      simp only [findAccountIdx] at h
      split at h
      · next hm => injection h with h2; subst h2; exact hm
      · rcases hf : findAccountIdx email vs with _ | j
        · rw [hf] at h; exact Option.noConfusion h
        · rw [hf] at h
          injection h with h2
          subst h2
          exact ih j hf

/-- A parsed document is well-formed. -/
theorem jsonParse_Jwf {s : String} {v : JValue} (h : jsonParse s = some v) : Jwf v := by
  simp only [jsonParse] at h
  split at h
  · next v2 rest heq =>
      split at h
      · injection h with h2; subst h2
        exact (parseJwf (s.data.length + 1)).1 s.data _ rest heq
      · exact Option.noConfusion h
  · exact Option.noConfusion h

/-- Elements of a well-formed array are well-formed. -/
theorem Jwf_arr_elem {l : List JValue} (h : Jwf (JValue.jarr l)) : ∀ v ∈ l, Jwf v := by
  cases h with
  | arr _ h2 => exact h2

/-- Parsing the comment-stripped array-format rebuild yields exactly the
item values. -/
theorem array_output_parse (accs2 : List JValue) (hne : accs2 ≠ [])
    (hwf : ∀ v ∈ accs2, Jwf v) (i : Nat) (d reason : String)
    (hd : ∀ c ∈ d.data, c ≠ '\n' ∧ c ≠ '\r')
    (hr : ∀ c ∈ reason.data, c ≠ '\n' ∧ c ≠ '\r') :
    jsonParse (stripJsonComments
      ("[\n" ++ asmArrayItems i (banComment d reason) 0 accs2 ++ "]\n")) =
      some (JValue.jarr accs2) := by
  have hdata : ("[\n" ++ asmArrayItems i (banComment d reason) 0 accs2 ++ "]\n").data =
      '[' :: '\n' :: ((asmArrayItems i (banComment d reason) 0 accs2).data ++
        (']' :: ['\n'])) := by
    simp [String.data_append]
  have hstrip : (stripJsonComments
      ("[\n" ++ asmArrayItems i (banComment d reason) 0 accs2 ++ "]\n")).data =
      '[' :: '\n' :: (asmStripped i 0 accs2 ++ (']' :: ['\n'])) := by
    show stripGo StripMode.normal _ = _
    rw [hdata]
    rw [show ('[' :: '\n' :: ((asmArrayItems i (banComment d reason) 0 accs2).data ++
        (']' :: ['\n']))) = ['[', '\n'] ++
        ((asmArrayItems i (banComment d reason) 0 accs2).data ++ (']' :: ['\n'])) from rfl]
    rw [stripGo_normal_plain ['[', '\n'] (by decide),
      asm_items_strip i d reason hd hr accs2 hwf 0 (']' :: ['\n'])]
    rfl
  obtain ⟨n, hitems, hlen⟩ := asm_items_RL i accs2 hne hwf 0 ['\n']
    (wsOnly_of_all (by decide))
  have hRL : RL (n + 1) (JValue.jarr accs2)
      ('[' :: (['\n'] ++ (asmStripped i 0 accs2 ++ [']']))) :=
    RL.rarr n accs2 _ hitems
  have hshape : ('[' :: '\n' :: (asmStripped i 0 accs2 ++ (']' :: ['\n']))) =
      ('[' :: (['\n'] ++ (asmStripped i 0 accs2 ++ [']']))) ++ ['\n'] := by simp
  have hfuel : n + 1 <
      ('[' :: '\n' :: (asmStripped i 0 accs2 ++ (']' :: ['\n']))).length + 1 := by
    simp only [List.length_append, List.length_cons, List.length_nil,
      List.length_singleton] at hlen ⊢
    omega
  have hparse := (parseRL (n + 1)).1 _ _ hRL
    (('[' :: '\n' :: (asmStripped i 0 accs2 ++ (']' :: ['\n']))).length + 1) ['\n']
    hfuel ⟨by decide, by decide, by decide, by decide⟩
  rw [← hshape] at hparse
  simp only [jsonParse, hstrip, hparse]
  rw [show skipJsonWs ['\n'] = [] from by decide]
  simp

end RewardsBot

namespace RewardsBot

/-- The second run on an array-format rebuild finds the account already
disabled and leaves the file unchanged. -/
theorem disableRun_array_second (accs : List JValue) (i : Nat) (email d reason : String)
    (hwf0 : ∀ v ∈ accs, Jwf v) (hfind : findAccountIdx email accs = some i)
    (hd : ∀ c ∈ d.data, c ≠ '\n' ∧ c ≠ '\r')
    (hr : ∀ c ∈ reason.data, c ≠ '\n' ∧ c ≠ '\r') :
    disableRun ("[\n" ++ asmArrayItems i (banComment d reason) 0
        (accs.set i (setEnabledFalse (accs.getD i JValue.jnull))) ++ "]\n") email d reason =
      "[\n" ++ asmArrayItems i (banComment d reason) 0
        (accs.set i (setEnabledFalse (accs.getD i JValue.jnull))) ++ "]\n" := by
  have hlt : i < accs.length := findAccountIdx_lt email accs i hfind
  have hne : accs.set i (setEnabledFalse (accs.getD i JValue.jnull)) ≠ [] := by
    intro h
    have h2 : (accs.set i (setEnabledFalse (accs.getD i JValue.jnull))).length = 0 := by
      rw [h]; rfl
    rw [List.length_set] at h2
    omega
  have hwf2 : ∀ v ∈ accs.set i (setEnabledFalse (accs.getD i JValue.jnull)), Jwf v := by
    intro v hv
    rcases mem_set_or accs i _ v hv with h | h
    · exact hwf0 v h
    · subst h
      refine Jwf_setEnabledFalse (hwf0 _ ?_)
      rw [List.getD_eq_getElem accs JValue.jnull hlt]
      exact List.getElem_mem hlt
  have hfind2 : findAccountIdx email
      (accs.set i (setEnabledFalse (accs.getD i JValue.jnull))) = some i :=
    findAccountIdx_set email accs i hfind
  have hdis : isDisabled ((accs.set i (setEnabledFalse (accs.getD i JValue.jnull))).getD i
      JValue.jnull) = true := by
    rw [getD_set_self accs i _ hlt]
    exact isDisabled_setEnabledFalse (findAccountIdx_getD email accs i hfind)
  have hparse := array_output_parse _ hne hwf2 i d reason hd hr
  simp only [disableRun]
  rw [hparse]
  simp only [hfind2, hdis]
  rfl

end RewardsBot

namespace RewardsBot

/-- Whole-input parse of a whitespace-padded `RL` text with a trailing
newline. -/
theorem jsonParse_of_RL_ws {v : JValue} {S w : List Char} {n : Nat} (hw : wsOnly w)
    (hRL : RL n v S) (hlen : n + 1 ≤ S.length) :
    jsonParse (String.mk (w ++ (S ++ ['\n']))) = some v := by
  have hfuel : n < (w ++ (S ++ ['\n'])).length + 1 := by
    simp only [List.length_append, List.length_singleton]
    omega
  have hparse := (parseRL n).1 v S hRL ((w ++ (S ++ ['\n'])).length + 1) ['\n']
    hfuel ⟨by decide, by decide, by decide, by decide⟩
  simp only [jsonParse]
  rw [show parseValueF ((w ++ (S ++ ['\n'])).length + 1) (w ++ (S ++ ['\n'])) =
      parseValueF ((w ++ (S ++ ['\n'])).length + 1) (S ++ ['\n']) from
    parseValueF_ws_append _ w _ hw]
  rw [hparse]
  simp +decide [skipJsonWs]

/-- An insert never yields the empty member list. -/
theorem objInsert_ne_nil (o : List (String × JValue)) (k : String) (v : JValue) :
    objInsert o k v ≠ [] := by
  cases o with
  | nil => simp [objInsert]
  | cons m rest =>
      obtain ⟨k2, v2⟩ := m
      by_cases hk : k2 = k <;> simp [objInsert, hk]

/-- The first line of a rendered nonempty object is the opening brace. -/
theorem splitLines_render_obj (X : List Char) :
    splitLines (String.mk ('{' :: '\n' :: X)) =
      "\x7b" :: (splitAtChar '\n' X).map (fun l => String.mk l) := by
  show ((splitAtChar '\n' ('{' :: '\n' :: X)).map (fun l => String.mk l)) = _
  have h1 : splitAtChar '\n' ('{' :: '\n' :: X) = ['{'] :: splitAtChar '\n' X := by
    show (if '{' = '\n' then [] :: splitAtChar '\n' ('\n' :: X)
      else match splitAtChar '\n' ('\n' :: X) with
        | [] => [['{']]
        | t :: ts => ('{' :: t) :: ts) = _
    rw [if_neg (by decide)]
    have h2 : splitAtChar '\n' ('\n' :: X) = [] :: splitAtChar '\n' X := by
      simp [splitAtChar]
    rw [h2]
  rw [h1]
  rfl

end RewardsBot

namespace RewardsBot

/-- Parsing a stripped rebuild text: the render with a whitespace-producing
interruption spliced in after an interior newline still parses to the
original value. -/
theorem splice_parse {v : JValue} {n : Nat} {P Q : List Char}
    (hRL : RL n v (renderV 0 v))
    (hlen : n + 1 ≤ (renderV 0 v).length)
    (hsplit : renderV 0 v = P ++ '\n' :: Q)
    (I J : List Char) (hJ : wsOnly J)
    (HI : ∀ t, stripGo StripMode.normal (I ++ t) = J ++ stripGo StripMode.normal t) :
    jsonParse (String.mk (stripGo StripMode.normal
      (P ++ ('\n' :: (I ++ (Q ++ ['\n'])))))) = some v := by
  rw [(stripSplice n).1 v _ hRL P Q hsplit I J HI ['\n'],
    show stripGo StripMode.normal ['\n'] = ['\n'] from by decide]
  have hRL2 := (RLsplice n).1 v _ hRL P Q J hsplit hJ
  have hlen2 : n + 1 ≤ (P ++ '\n' :: (J ++ Q)).length := by
    rw [hsplit] at hlen
    simp only [List.length_append, List.length_cons] at hlen ⊢
    omega
  have hfinal := jsonParse_of_RL_ws wsOnly_nil hRL2 hlen2
  rw [show ([] : List Char) ++ ((P ++ '\n' :: (J ++ Q)) ++ ['\n']) =
      P ++ ('\n' :: (J ++ (Q ++ ['\n']))) from by simp] at hfinal
  exact hfinal

/-- Parsing the comment-stripped object-format rebuild yields exactly the
updated root object, whichever line the ban comment was inserted at. -/
theorem object_branch_parse (o : List (String × JValue)) (accs2 : List JValue)
    (email d reason : String)
    (hupd : Jwf (JValue.jobj (objInsert o "accounts" (JValue.jarr accs2))))
    (hd : ∀ c ∈ d.data, c ≠ '\n' ∧ c ≠ '\r')
    (hr : ∀ c ∈ reason.data, c ≠ '\n' ∧ c ≠ '\r') :
    jsonParse (stripJsonComments (objectBranchContent o accs2 email d reason)) =
      some (JValue.jobj (objInsert o "accounts" (JValue.jarr accs2))) := by
  obtain ⟨n, hRL, hlen⟩ := renderRL hupd 0
  set U := objInsert o "accounts" (JValue.jarr accs2) with hU
  set S := jsonStringify (JValue.jobj U) with hS
  set L := splitLines S with hL
  obtain ⟨m2, ms2, hcons⟩ : ∃ m2 ms2, U = m2 :: ms2 := by
    rw [hU]
    rcases h : objInsert o "accounts" (JValue.jarr accs2) with _ | ⟨m2, ms2⟩
    · exact absurd h (objInsert_ne_nil o _ _)
    · exact ⟨m2, ms2, rfl⟩
  have hrender : S.data = renderV 0 (JValue.jobj U) := by rw [hS]; rfl
  have hrv : renderV 0 (JValue.jobj U) = '{' :: '\n' :: renderMembers 0 (m2 :: ms2) := by
    rw [hcons]; simp [renderV]
  have hstr : S = String.mk ('{' :: '\n' :: renderMembers 0 (m2 :: ms2)) := by
    rw [hS]
    show String.mk (renderV 0 _) = _
    rw [show renderV 0 (JValue.jobj U) = '{' :: '\n' :: renderMembers 0 (m2 :: ms2) from hrv]
  have hlines : L = "\x7b" :: (splitAtChar '\n' (renderMembers 0 (m2 :: ms2))).map
      (fun l => String.mk l) := by
    rw [hL, hstr, splitLines_render_obj]
  have hlines_ne : L ≠ [] := by rw [hlines]; simp
  have h0brace : trimStartsWithBrace (L.getD 0 "") = true := by
    rw [hlines]; rfl
  have hjoin : joinNl L = S := by rw [hL]; exact joinNl_splitLines S
  have hplain : jsonParse (stripJsonComments (joinNl L ++ "\n")) =
      some (JValue.jobj U) := by
    rw [hjoin]
    have hdata : (S ++ "\n").data = renderV 0 (JValue.jobj U) ++ ['\n'] := by
      rw [String.data_append, hrender]
    have hstrip : stripJsonComments (S ++ "\n") =
        String.mk (renderV 0 (JValue.jobj U) ++ ['\n']) := by
      show String.mk (stripGo StripMode.normal ((S ++ "\n").data)) = _
      rw [hdata, (stripRL n).1 _ _ hRL,
        show stripGo StripMode.normal ['\n'] = ['\n'] from by decide]
    rw [hstrip]
    exact jsonParse_of_RL_ws wsOnly_nil hRL hlen
  rcases hfind : findLineIdx ("\"email\": \"" ++ email ++ "\"") L with _ | eIdx
  · simp only [objectBranchContent]
    rw [← hU, ← hS, ← hL, hfind]
    exact hplain
  · simp only [objectBranchContent]
    rw [← hU, ← hS, ← hL, hfind]
    show jsonParse (stripJsonComments (if 0 < eIdx then
        joinNl (insertAt L ((walkBackToBrace L eIdx).getD eIdx)
          ((if leadingWs (L.getD ((walkBackToBrace L eIdx).getD eIdx) "") = ""
              then "    "
              else leadingWs (L.getD ((walkBackToBrace L eIdx).getD eIdx) "")) ++
            banComment d reason)) ++ "\n"
      else joinNl L ++ "\n")) = some (JValue.jobj U)
    by_cases h0e : 0 < eIdx
    · rw [if_pos h0e]
      have heIdx_lt := findLineIdx_lt _ L eIdx hfind
      obtain ⟨j, hwb, hjle, hjbrace⟩ := walkBackToBrace_spec L h0brace eIdx
      rw [hwb]
      simp only [Option.getD_some]
      by_cases hj0 : j = 0
      · subst hj0
        have htarget : L.getD 0 "" = "\x7b" := by rw [hlines]; rfl
        rw [htarget, show leadingWs "\x7b" = "" from by decide, if_pos rfl]
        have hins : insertAt L 0 ("    " ++ banComment d reason) =
            ("    " ++ banComment d reason) :: L := by simp [insertAt]
        rw [hins]
        have hcontent : ((joinNl (("    " ++ banComment d reason) :: L)) ++ "\n").data =
            "    ".data ++ ((banComment d reason).data ++ ('\n' ::
              (renderV 0 (JValue.jobj U) ++ ['\n']))) := by
          rw [String.data_append, joinNl_data_cons _ _ hlines_ne, hjoin, hrender,
            String.data_append]
          simp
        have hstrip : stripJsonComments ((joinNl (("    " ++ banComment d reason) :: L))
            ++ "\n") =
            String.mk (("    ".data ++ ['\n']) ++
              (renderV 0 (JValue.jobj U) ++ ['\n'])) := by
          show String.mk (stripGo StripMode.normal _) = _
          rw [hcontent, stripGo_normal_plain ("    ".data) (by decide),
            stripGo_banComment d reason hd hr, (stripRL n).1 _ _ hRL,
            show stripGo StripMode.normal ['\n'] = ['\n'] from by decide]
          simp
        rw [hstrip]
        exact jsonParse_of_RL_ws (wsOnly_of_all (by decide)) hRL hlen
      · have h0j : 0 < j := Nat.pos_of_ne_zero hj0
        have hj_lt : j < L.length := lt_of_le_of_lt hjle heIdx_lt
        obtain ⟨conj1, conj2⟩ := joinNl_insertAt L j
          ((if leadingWs (L.getD j "") = "" then "    " else leadingWs (L.getD j "")) ++
            banComment d reason) h0j hj_lt
        rw [hjoin, hrender] at conj1
        obtain ⟨w, c, t, hQ, hw, hcws⟩ := (RL_lead n).1 _ _ hRL _ _ conj1
        have hindent : wsOnly (if leadingWs (L.getD j "") = "" then "    "
            else leadingWs (L.getD j "")).data := by
          split
          · exact wsOnly_of_all (by decide)
          · intro x hx
            obtain ⟨R, hpre⟩ := line_prefix L j hj_lt
            have hx2 := mem_takeWhile_of_prefix _ R x hx
            rw [← hpre] at hx2
            rw [hQ, takeWhile_ws_stop hw hcws] at hx2
            exact hw x hx2
        have HI : ∀ t2, stripGo StripMode.normal
            (((if leadingWs (L.getD j "") = "" then "    "
              else leadingWs (L.getD j "")).data ++
              ((banComment d reason).data ++ ['\n'])) ++ t2) =
            ((if leadingWs (L.getD j "") = "" then "    "
              else leadingWs (L.getD j "")).data ++ ['\n']) ++
              stripGo StripMode.normal t2 := by
          intro t2
          rw [List.append_assoc,
            stripGo_normal_plain _ (wsOnly_plain hindent),
            show ((banComment d reason).data ++ ['\n']) ++ t2 =
              (banComment d reason).data ++ ('\n' :: t2) from by simp,
            stripGo_banComment d reason hd hr]
          simp
        have hcd : ((joinNl (insertAt L j
            ((if leadingWs (L.getD j "") = "" then "    "
              else leadingWs (L.getD j "")) ++ banComment d reason))) ++ "\n").data =
            (joinNl (L.take j)).data ++ ('\n' ::
              (((if leadingWs (L.getD j "") = "" then "    "
                else leadingWs (L.getD j "")).data ++
                ((banComment d reason).data ++ ['\n'])) ++
                ((joinNl (L.drop j)).data ++ ['\n']))) := by
          rw [String.data_append, conj2, String.data_append,
            show ("\n" : String).data = ['\n'] from rfl]
          simp
        have hstrip : stripJsonComments ((joinNl (insertAt L j
            ((if leadingWs (L.getD j "") = "" then "    "
              else leadingWs (L.getD j "")) ++ banComment d reason))) ++ "\n") =
            String.mk (stripGo StripMode.normal ((joinNl (L.take j)).data ++ ('\n' ::
              (((if leadingWs (L.getD j "") = "" then "    "
                else leadingWs (L.getD j "")).data ++
                ((banComment d reason).data ++ ['\n'])) ++
                ((joinNl (L.drop j)).data ++ ['\n']))))) := by
          show String.mk (stripGo StripMode.normal _) = _
          rw [hcd]
        rw [hstrip]
        exact splice_parse hRL hlen conj1 _ _
          (wsOnly_append hindent (wsOnly_of_all (by decide))) HI
    · rw [if_neg h0e]
      exact hplain

end RewardsBot

namespace RewardsBot

/-- A value found by `objGet` is a member value. -/
theorem objGet_mem : ∀ (ms : List (String × JValue)) (k : String) (v : JValue),
    objGet ms k = some v → ∃ k2, (k2, v) ∈ ms := by
  intro ms
  induction ms with
  | nil => intro k v h; simp [objGet] at h
  | cons m rest ih =>
      intro k v h
      obtain ⟨k2, v2⟩ := m
      simp only [objGet] at h
      split at h
      · injection h with h2
        subst h2
        exact ⟨k2, List.mem_cons_self _ _⟩
      · obtain ⟨k3, hk3⟩ := ih k v h
        exact ⟨k3, List.mem_cons_of_mem _ hk3⟩

/-- Member values of a well-formed object are well-formed. -/
theorem Jwf_objGet {o : List (String × JValue)} {k : String} {v : JValue}
    (ho : Jwf (JValue.jobj o)) (h : objGet o k = some v) : Jwf v := by
  cases ho with
  | obj ms hnd hm =>
      obtain ⟨k2, hmem⟩ := objGet_mem o k v h
      exact hm (k2, v) hmem

/-- The second run on an object-format rebuild finds the account already
disabled and leaves the file unchanged. -/
theorem disableRun_object_second (o : List (String × JValue)) (accs : List JValue)
    (i : Nat) (email d reason : String)
    (hwfo : Jwf (JValue.jobj o))
    (hwf0 : ∀ v ∈ accs, Jwf v)
    (hfind : findAccountIdx email accs = some i)
    (hd : ∀ c ∈ d.data, c ≠ '\n' ∧ c ≠ '\r')
    (hr : ∀ c ∈ reason.data, c ≠ '\n' ∧ c ≠ '\r') :
    disableRun (objectBranchContent o
        (accs.set i (setEnabledFalse (accs.getD i JValue.jnull))) email d reason)
        email d reason =
      objectBranchContent o
        (accs.set i (setEnabledFalse (accs.getD i JValue.jnull))) email d reason := by
  have hlt : i < accs.length := findAccountIdx_lt email accs i hfind
  have hwf2 : ∀ v ∈ accs.set i (setEnabledFalse (accs.getD i JValue.jnull)), Jwf v := by
    intro v hv
    rcases mem_set_or accs i _ v hv with h | h
    · exact hwf0 v h
    · subst h
      refine Jwf_setEnabledFalse (hwf0 _ ?_)
      rw [List.getD_eq_getElem accs JValue.jnull hlt]
      exact List.getElem_mem hlt
  have hupd : Jwf (JValue.jobj (objInsert o "accounts"
      (JValue.jarr (accs.set i (setEnabledFalse (accs.getD i JValue.jnull)))))) :=
    Jwf_objInsert hwfo (Jwf.arr _ hwf2)
  have hfind2 : findAccountIdx email
      (accs.set i (setEnabledFalse (accs.getD i JValue.jnull))) = some i :=
    findAccountIdx_set email accs i hfind
  have hdis : isDisabled ((accs.set i (setEnabledFalse (accs.getD i JValue.jnull))).getD i
      JValue.jnull) = true := by
    rw [getD_set_self accs i _ hlt]
    exact isDisabled_setEnabledFalse (findAccountIdx_getD email accs i hfind)
  have hparse := object_branch_parse o _ email d reason hupd hd hr
  simp only [disableRun]
  rw [hparse]
  simp only [objGet_objInsert_self, hfind2, hdis]
  rfl

end RewardsBot

namespace RewardsBot

/-- Claim C7 amended: `disableBannedAccount` is idempotent whenever the
date and reason contain no line terminator: the second run either fails at
the same guard as the first, or finds the target account already disabled
and returns without writing.  (Unrestricted, the claim is false: see the
accompanying counterexample.) -/
theorem disableRun_idem (content email d reason : String)
    (hd : ∀ c ∈ d.data, c ≠ '\n' ∧ c ≠ '\r')
    (hr : ∀ c ∈ reason.data, c ≠ '\n' ∧ c ≠ '\r') :
    disableRun (disableRun content email d reason) email d reason =
      disableRun content email d reason := by
  rcases hp : jsonParse (stripJsonComments content) with _ | parsed
  · have h1 : disableRun content email d reason = content := by
      simp only [disableRun, hp]
    rw [h1]
    exact h1
  · have hwfp := jsonParse_Jwf hp
    cases parsed with
    | jnull =>
        have h1 : disableRun content email d reason = content := by
          simp only [disableRun, hp]
        rw [h1]
        exact h1
    | jbool b =>
        have h1 : disableRun content email d reason = content := by
          simp only [disableRun, hp]
        rw [h1]
        exact h1
    | jnum k =>
        have h1 : disableRun content email d reason = content := by
          simp only [disableRun, hp]
        rw [h1]
        exact h1
    | jstr s =>
        have h1 : disableRun content email d reason = content := by
          simp only [disableRun, hp]
        rw [h1]
        exact h1
    | jarr l =>
        rcases hf : findAccountIdx email l with _ | i
        · have h1 : disableRun content email d reason = content := by
            simp only [disableRun, hp, hf]
          rw [h1]
          exact h1
        · by_cases hdis : isDisabled (l.getD i JValue.jnull) = true
          · have h1 : disableRun content email d reason = content := by
              simp only [disableRun, hp, hf]
              rw [if_pos hdis]
            rw [h1]
            exact h1
          · have h1 : disableRun content email d reason =
                "[\n" ++ asmArrayItems i (banComment d reason) 0
                  (l.set i (setEnabledFalse (l.getD i JValue.jnull))) ++ "]\n" := by
              simp only [disableRun, hp, hf]
              rw [if_neg hdis]
            rw [h1]
            exact disableRun_array_second l i email d reason
              (Jwf_arr_elem hwfp) hf hd hr
    | jobj ob =>
        rcases hg : objGet ob "accounts" with _ | av
        · have h1 : disableRun content email d reason = content := by
            simp only [disableRun, hp, hg]
          rw [h1]
          exact h1
        · cases av with
          | jnull =>
              have h1 : disableRun content email d reason = content := by
                simp only [disableRun, hp, hg]
              rw [h1]
              exact h1
          | jbool b =>
              have h1 : disableRun content email d reason = content := by
                simp only [disableRun, hp, hg]
              rw [h1]
              exact h1
          | jnum k =>
              have h1 : disableRun content email d reason = content := by
                simp only [disableRun, hp, hg]
              rw [h1]
              exact h1
          | jstr s =>
              have h1 : disableRun content email d reason = content := by
                simp only [disableRun, hp, hg]
              rw [h1]
              exact h1
          | jobj ob2 =>
              have h1 : disableRun content email d reason = content := by
                simp only [disableRun, hp, hg]
              rw [h1]
              exact h1
          | jarr l =>
              rcases hf : findAccountIdx email l with _ | i
              · have h1 : disableRun content email d reason = content := by
                  simp only [disableRun, hp, hg, hf]
                rw [h1]
                exact h1
              · by_cases hdis : isDisabled (l.getD i JValue.jnull) = true
                · have h1 : disableRun content email d reason = content := by
                    simp only [disableRun, hp, hg, hf]
                    rw [if_pos hdis]
                  rw [h1]
                  exact h1
                · have h1 : disableRun content email d reason =
                      objectBranchContent ob
                        (l.set i (setEnabledFalse (l.getD i JValue.jnull)))
                        email d reason := by
                    simp only [disableRun, hp, hg, hf]
                    rw [if_neg hdis]
                  rw [h1]
                  exact disableRun_object_second ob l i email d reason hwfp
                    (Jwf_arr_elem (Jwf_objGet hwfp hg)) hf hd hr

end RewardsBot

namespace RewardsBot

/-- Claim C7, exactly as stated ("for every accounts file and email"), is
false: a reason containing a newline spills the rest of the ban comment
onto a fresh line that survives comment stripping, so the second run sees
an extra enabled account object with the same email and rewrites the file
again.  Concrete input: accounts file `[\x7b"email": "a"\x7d]`, email
`a`, reason `\n\x7b"email": "a"\x7d,`. -/
theorem disableRun_not_idempotent :
    ∃ content email d reason,
      disableRun (disableRun content email d reason) email d reason ≠
        disableRun content email d reason :=
  ⟨"[\x7b\"email\": \"a\"\x7d]", "a", "D", "\n\x7b\"email\": \"a\"\x7d,", by decide⟩

/-- Witness for the amended C7 theorem at concrete inputs. -/
theorem disableRun_idem_witness :
    (∀ c ∈ ("2026-01-01" : String).data, c ≠ '\n' ∧ c ≠ '\r') ∧
    (∀ c ∈ ("spam" : String).data, c ≠ '\n' ∧ c ≠ '\r') ∧
    disableRun (disableRun "[\x7b\"email\": \"b\"\x7d]" "b" "2026-01-01" "spam")
        "b" "2026-01-01" "spam" =
      disableRun "[\x7b\"email\": \"b\"\x7d]" "b" "2026-01-01" "spam" :=
  ⟨by decide, by decide,
    disableRun_idem "[\x7b\"email\": \"b\"\x7d]" "b" "2026-01-01" "spam"
      (by decide) (by decide)⟩

end RewardsBot

namespace RewardsBot

/-- Claim C2, exactly as stated, is false: the rewrite re-renders the
whole accounts file from the parsed value, so a pre-existing comment is
destroyed rather than preserved.  Concrete input: accounts file
`[` newline `// keep` newline `\x7b"email": "a"\x7d]`: the rewrite does
happen (output differs from input) yet `// keep` is gone from the
output. -/
theorem disableRun_frame_claim_false :
    ∃ content email d reason,
      containsSub ("// keep").data content.data = true ∧
      containsSub ("// keep").data (disableRun content email d reason).data = false ∧
      disableRun content email d reason ≠ content :=
  ⟨"[\n// keep\n\x7b\"email\": \"a\"\x7d]", "a", "D", "r",
    by decide, by decide, by decide⟩

/-- Claim C2 amended: for an array-format accounts file the frame property
holds at the parsed-value level, not at the text level: when the stripped
file parses to an account array containing a not-yet-disabled account with
the given email, the rewritten file parses to exactly the same array with
only that account's `enabled` set to `false`, and the rewritten text
contains the inserted `// BANNED <date>: <reason>` comment.  Pre-existing
comments are destroyed by the re-render (see the counterexample). -/
theorem disableRun_frame (content email d reason : String) (accs : List JValue) (i : Nat)
    (hp : jsonParse (stripJsonComments content) = some (JValue.jarr accs))
    (hf : findAccountIdx email accs = some i)
    (hdis : isDisabled (accs.getD i JValue.jnull) = false)
    (hd : ∀ c ∈ d.data, c ≠ '\n' ∧ c ≠ '\r')
    (hr : ∀ c ∈ reason.data, c ≠ '\n' ∧ c ≠ '\r') :
    jsonParse (stripJsonComments (disableRun content email d reason)) =
      some (JValue.jarr (accs.set i (setEnabledFalse (accs.getD i JValue.jnull)))) ∧
    ∃ pre post, (disableRun content email d reason).data =
      pre ++ ((banComment d reason).data ++ post) := by
  have hlt : i < accs.length := findAccountIdx_lt email accs i hf
  have h1 : disableRun content email d reason =
      "[\n" ++ asmArrayItems i (banComment d reason) 0
        (accs.set i (setEnabledFalse (accs.getD i JValue.jnull))) ++ "]\n" := by
    simp only [disableRun, hp, hf]
    rw [if_neg (by rw [hdis]; exact Bool.false_ne_true)]
  have hne : accs.set i (setEnabledFalse (accs.getD i JValue.jnull)) ≠ [] := by
    intro h
    have h2 : (accs.set i (setEnabledFalse (accs.getD i JValue.jnull))).length = 0 := by
      rw [h]; rfl
    rw [List.length_set] at h2
    omega
  have hwf0 : ∀ v ∈ accs, Jwf v := Jwf_arr_elem (jsonParse_Jwf hp)
  have hwf2 : ∀ v ∈ accs.set i (setEnabledFalse (accs.getD i JValue.jnull)), Jwf v := by
    intro v hv
    rcases mem_set_or accs i _ v hv with h | h
    · exact hwf0 v h
    · subst h
      refine Jwf_setEnabledFalse (hwf0 _ ?_)
      rw [List.getD_eq_getElem accs JValue.jnull hlt]
      exact List.getElem_mem hlt
  constructor
  · rw [h1]
    exact array_output_parse _ hne hwf2 i d reason hd hr
  · rw [h1]
    have hbound : i < 0 + (accs.set i (setEnabledFalse (accs.getD i JValue.jnull))).length := by
      rw [List.length_set]
      omega
    obtain ⟨pre, post, hA⟩ := asm_comment_present i (banComment d reason)
      (accs.set i (setEnabledFalse (accs.getD i JValue.jnull))) 0 (Nat.zero_le i) hbound
    refine ⟨("[\n").data ++ pre, post ++ ("]\n").data, ?_⟩
    rw [String.data_append, String.data_append, hA]
    simp

/-- Witness for the amended C2 theorem at concrete inputs. -/
theorem disableRun_frame_witness :
    jsonParse (stripJsonComments "[\x7b\"email\": \"a\"\x7d]") =
      some (JValue.jarr [JValue.jobj [("email", JValue.jstr "a")]]) ∧
    findAccountIdx "a" [JValue.jobj [("email", JValue.jstr "a")]] = some 0 ∧
    isDisabled ([JValue.jobj [("email", JValue.jstr "a")]].getD 0 JValue.jnull) = false ∧
    (jsonParse (stripJsonComments
        (disableRun "[\x7b\"email\": \"a\"\x7d]" "a" "2026-01-01" "spam")) =
      some (JValue.jarr ([JValue.jobj [("email", JValue.jstr "a")]].set 0
        (setEnabledFalse ([JValue.jobj [("email", JValue.jstr "a")]].getD 0
          JValue.jnull)))) ∧
    ∃ pre post,
      (disableRun "[\x7b\"email\": \"a\"\x7d]" "a" "2026-01-01" "spam").data =
        pre ++ ((banComment "2026-01-01" "spam").data ++ post)) :=
  ⟨by rfl, by decide, by decide,
    disableRun_frame "[\x7b\"email\": \"a\"\x7d]" "a" "2026-01-01" "spam"
      [JValue.jobj [("email", JValue.jstr "a")]] 0
      (by rfl) (by decide) (by decide) (by decide) (by decide)⟩

end RewardsBot

namespace RewardsBot

/-- A successful `eatChar` exposes the head. -/
theorem eatChar_eq {c : Char} {l r : List Char} (h : eatChar c l = some r) :
    l = c :: r := by
  cases l with
  | nil => exact Option.noConfusion h
  | cons x t =>
      simp only [eatChar] at h
      split at h
      · next hx => injection h with h2; subst h2; subst hx; rfl
      · exact Option.noConfusion h

/-- A successful `eatChar` on an extended input. -/
theorem eatChar_append {c : Char} {l r : List Char} (h : eatChar c l = some r)
    (s : List Char) : eatChar c (l ++ s) = some (r ++ s) := by
  rw [eatChar_eq h]
  simp [eatChar]

/-- `eatDigitN` returns a suffix. -/
theorem eatDigitN_sfx : ∀ (n : Nat) (l r : List Char),
    eatDigitN n l = some r → r.length ≤ l.length ∧ (∀ c, c ∈ r → c ∈ l) := by
  intro n
  induction n with
  | zero =>
      intro l r h
      simp only [eatDigitN] at h
      injection h with h2
      subst h2
      exact ⟨le_refl _, fun c hc => hc⟩
  | succ n ih =>
      intro l r h
      cases l with
      | nil => exact Option.noConfusion h
      | cons x t =>
          simp only [eatDigitN] at h
          split at h
          · obtain ⟨h1, h2⟩ := ih t r h
            exact ⟨by simp; omega, fun c hc => List.mem_cons_of_mem _ (h2 c hc)⟩
          · exact Option.noConfusion h

/-- A successful `eatDigitN` on an extended input. -/
theorem eatDigitN_append : ∀ (n : Nat) (l r : List Char),
    eatDigitN n l = some r → ∀ s, eatDigitN n (l ++ s) = some (r ++ s) := by
  intro n
  induction n with
  | zero =>
      intro l r h s
      simp only [eatDigitN] at h ⊢
      injection h with h2
      subst h2
      rfl
  | succ n ih =>
      intro l r h s
      cases l with
      | nil => exact Option.noConfusion h
      | cons x t =>
          simp only [eatDigitN] at h ⊢
          split at h
          · next hx => rw [if_pos hx]; exact ih t r h s
          · exact Option.noConfusion h

/-- Shape of a successful greedy digit run. -/
theorem eatDigitsPlus_shape {l r : List Char} (h : eatDigitsPlus l = some r) :
    ∃ x t, l = x :: t ∧ isDigitChar x = true ∧ r = t.dropWhile isDigitChar := by
  cases l with
  | nil => exact Option.noConfusion h
  | cons x t =>
      simp only [eatDigitsPlus] at h
      split at h
      · next hx => injection h with h2; exact ⟨x, t, rfl, hx, h2.symm⟩
      · exact Option.noConfusion h

/-- A greedy digit run with a leftover continues past an append. -/
theorem eatDigitsPlus_append_ne {l : List Char} {x : Char} {r : List Char}
    (h : eatDigitsPlus l = some (x :: r)) (s : List Char) :
    eatDigitsPlus (l ++ s) = some (x :: (r ++ s)) := by
  obtain ⟨y, t, hl, hy, hr⟩ := eatDigitsPlus_shape h
  subst hl
  simp only [List.cons_append, eatDigitsPlus, hy, if_pos]
  rw [List.dropWhile_append]
  rw [← hr]
  simp

/-- A fully consuming greedy digit run stops at a non-digit head. -/
theorem eatDigitsPlus_append_nil {l : List Char}
    (h : eatDigitsPlus l = some []) (s : List Char)
    (hs : headNotB isDigitChar s = true) : eatDigitsPlus (l ++ s) = some s := by
  obtain ⟨y, t, hl, hy, hr⟩ := eatDigitsPlus_shape h
  subst hl
  simp only [List.cons_append, eatDigitsPlus, hy, if_pos]
  rw [List.dropWhile_append]
  rw [← hr]
  simp only [List.isEmpty_nil, if_true]
  cases s with
  | nil => rfl
  | cons c cs =>
      simp only [headNotB] at hs
      have hc : isDigitChar c = false := by simpa using hs
      simp [List.dropWhile, hc]

/-- Shape of a successful greedy hex run. -/
theorem eatHexPlus_shape {l r : List Char} (h : eatHexPlus l = some r) :
    ∃ x t, l = x :: t ∧ isHexDigitChar x = true ∧ r = t.dropWhile isHexDigitChar := by
  cases l with
  | nil => exact Option.noConfusion h
  | cons x t =>
      simp only [eatHexPlus] at h
      split at h
      · next hx => injection h with h2; exact ⟨x, t, rfl, hx, h2.symm⟩
      · exact Option.noConfusion h

/-- A fully consuming greedy hex run stops at a non-hex head. -/
theorem eatHexPlus_append_nil {l : List Char}
    (h : eatHexPlus l = some []) (s : List Char)
    (hs : headNotB isHexDigitChar s = true) : eatHexPlus (l ++ s) = some s := by
  obtain ⟨y, t, hl, hy, hr⟩ := eatHexPlus_shape h
  subst hl
  simp only [List.cons_append, eatHexPlus, hy, if_pos]
  rw [List.dropWhile_append]
  rw [← hr]
  simp only [List.isEmpty_nil, if_true]
  cases s with
  | nil => rfl
  | cons c cs =>
      simp only [headNotB] at hs
      have hc : isHexDigitChar c = false := by simpa using hs
      simp [List.dropWhile, hc]

end RewardsBot

namespace RewardsBot

/-- Dropping a prefix never lengthens a list. -/
theorem dropWhile_len_le (p : Char → Bool) : ∀ l : List Char,
    (l.dropWhile p).length ≤ l.length := by
  intro l
  induction l with
  | nil => simp
  | cons c cs ih =>
      by_cases hc : p c
      · simp only [List.dropWhile, hc]
        simp only [List.length_cons]
        omega
      · simp only [List.dropWhile]
        rw [show p c = false from by simpa using hc]

/-- A timestamp match consumes at least one character. -/
theorem matchTs_dec {l r : List Char} (h : matchTs l = some r) :
    r.length < l.length := by
  simp only [matchTs] at h
  rcases Option.bind_eq_some.mp h with ⟨m13, h13, hz⟩
  rcases Option.bind_eq_some.mp h13 with ⟨m12, h12, hdp⟩
  rcases Option.bind_eq_some.mp h12 with ⟨m11, h11, hdot⟩
  rcases Option.bind_eq_some.mp h11 with ⟨m10, h10, hd6⟩
  rcases Option.bind_eq_some.mp h10 with ⟨m9, h9, hc2⟩
  rcases Option.bind_eq_some.mp h9 with ⟨m8, h8, hd5⟩
  rcases Option.bind_eq_some.mp h8 with ⟨m7, h7, hc1⟩
  rcases Option.bind_eq_some.mp h7 with ⟨m6, h6, hd4⟩
  rcases Option.bind_eq_some.mp h6 with ⟨m5, h5, hT⟩
  rcases Option.bind_eq_some.mp h5 with ⟨m4, h4, hd3⟩
  rcases Option.bind_eq_some.mp h4 with ⟨m3, h3, hm2⟩
  rcases Option.bind_eq_some.mp h3 with ⟨m2, h2, hd2⟩
  rcases Option.bind_eq_some.mp h2 with ⟨m1, h1, hm1⟩
  have l1 := (eatDigitN_sfx 4 _ _ h1).1
  have l2 : m2.length < m1.length := by rw [eatChar_eq hm1]; simp
  have l3 := (eatDigitN_sfx 2 _ _ hd2).1
  have l4 : m4.length < m3.length := by rw [eatChar_eq hm2]; simp
  have l5 := (eatDigitN_sfx 2 _ _ hd3).1
  have l6 : m6.length < m5.length := by rw [eatChar_eq hT]; simp
  have l7 := (eatDigitN_sfx 2 _ _ hd4).1
  have l8 : m8.length < m7.length := by rw [eatChar_eq hc1]; simp
  have l9 := (eatDigitN_sfx 2 _ _ hd5).1
  have l10 : m10.length < m9.length := by rw [eatChar_eq hc2]; simp
  have l11 := (eatDigitN_sfx 2 _ _ hd6).1
  have l12 : m12.length < m11.length := by rw [eatChar_eq hdot]; simp
  have l13 : m13.length < m12.length := by
    obtain ⟨x, t, hl, hx, hr⟩ := eatDigitsPlus_shape hdp
    subst hl
    have := dropWhile_len_le isDigitChar t
    rw [hr]
    simp only [List.length_cons]
    omega
  have l14 : r.length < m13.length := by rw [eatChar_eq hz]; simp
  omega

/-- A timestamp match requires a dash. -/
theorem matchTs_dash {l r : List Char} (h : matchTs l = some r) : '-' ∈ l := by
  simp only [matchTs] at h
  rcases Option.bind_eq_some.mp h with ⟨m13, h13, hz⟩
  rcases Option.bind_eq_some.mp h13 with ⟨m12, h12, hdp⟩
  rcases Option.bind_eq_some.mp h12 with ⟨m11, h11, hdot⟩
  rcases Option.bind_eq_some.mp h11 with ⟨m10, h10, hd6⟩
  rcases Option.bind_eq_some.mp h10 with ⟨m9, h9, hc2⟩
  rcases Option.bind_eq_some.mp h9 with ⟨m8, h8, hd5⟩
  rcases Option.bind_eq_some.mp h8 with ⟨m7, h7, hc1⟩
  rcases Option.bind_eq_some.mp h7 with ⟨m6, h6, hd4⟩
  rcases Option.bind_eq_some.mp h6 with ⟨m5, h5, hT⟩
  rcases Option.bind_eq_some.mp h5 with ⟨m4, h4, hd3⟩
  rcases Option.bind_eq_some.mp h4 with ⟨m3, h3, hm2⟩
  rcases Option.bind_eq_some.mp h3 with ⟨m2, h2, hd2⟩
  rcases Option.bind_eq_some.mp h2 with ⟨m1, h1, hm1⟩
  have hmem : '-' ∈ m1 := by rw [eatChar_eq hm1]; simp
  exact (eatDigitN_sfx 4 _ _ h1).2 '-' hmem

/-- No timestamp match at a non-digit head. -/
theorem matchTs_none_of_head {c : Char} (hc : isDigitChar c = false)
    (t : List Char) : matchTs (c :: t) = none := by
  simp [matchTs, eatDigitN, hc]

/-- A full timestamp match extends over any appended text. -/
theorem matchTs_append {m : List Char} (h : matchTs m = some [])
    (s : List Char) : matchTs (m ++ s) = some s := by
  simp only [matchTs] at h
  rcases Option.bind_eq_some.mp h with ⟨m13, h13, hz⟩
  rcases Option.bind_eq_some.mp h13 with ⟨m12, h12, hdp⟩
  rcases Option.bind_eq_some.mp h12 with ⟨m11, h11, hdot⟩
  rcases Option.bind_eq_some.mp h11 with ⟨m10, h10, hd6⟩
  rcases Option.bind_eq_some.mp h10 with ⟨m9, h9, hc2⟩
  rcases Option.bind_eq_some.mp h9 with ⟨m8, h8, hd5⟩
  rcases Option.bind_eq_some.mp h8 with ⟨m7, h7, hc1⟩
  rcases Option.bind_eq_some.mp h7 with ⟨m6, h6, hd4⟩
  rcases Option.bind_eq_some.mp h6 with ⟨m5, h5, hT⟩
  rcases Option.bind_eq_some.mp h5 with ⟨m4, h4, hd3⟩
  rcases Option.bind_eq_some.mp h4 with ⟨m3, h3, hm2⟩
  rcases Option.bind_eq_some.mp h3 with ⟨m2, h2, hd2⟩
  rcases Option.bind_eq_some.mp h2 with ⟨m1, h1, hm1⟩
  have hzeq : m13 = ['Z'] := eatChar_eq hz
  subst hzeq
  simp only [matchTs]
  rw [eatDigitN_append 4 _ _ h1 s, Option.some_bind,
    eatChar_append hm1 s, Option.some_bind,
    eatDigitN_append 2 _ _ hd2 s, Option.some_bind,
    eatChar_append hm2 s, Option.some_bind,
    eatDigitN_append 2 _ _ hd3 s, Option.some_bind,
    eatChar_append hT s, Option.some_bind,
    eatDigitN_append 2 _ _ hd4 s, Option.some_bind,
    eatChar_append hc1 s, Option.some_bind,
    eatDigitN_append 2 _ _ hd5 s, Option.some_bind,
    eatChar_append hc2 s, Option.some_bind,
    eatDigitN_append 2 _ _ hd6 s, Option.some_bind,
    eatChar_append hdot s, Option.some_bind,
    eatDigitsPlus_append_ne hdp s, Option.some_bind]
  simp [eatChar]

end RewardsBot

namespace RewardsBot

/-- A hex-address match consumes at least one character. -/
theorem matchHex_dec {l r : List Char} (h : matchHex l = some r) :
    r.length < l.length := by
  simp only [matchHex] at h
  rcases Option.bind_eq_some.mp h with ⟨m2, h2, hhp⟩
  rcases Option.bind_eq_some.mp h2 with ⟨m1, h1, hx⟩
  obtain ⟨y, t, hl, hy, hr⟩ := eatHexPlus_shape hhp
  have e1 := eatChar_eq h1
  have e2 := eatChar_eq hx
  have := dropWhile_len_le isHexDigitChar t
  rw [e1, e2, hl]
  rw [hr]
  simp only [List.length_cons]
  omega

/-- Every character of a full hex-address match is `0`, `x`, or a hex
digit. -/
theorem matchHex_chars {l : List Char} (h : matchHex l = some []) :
    ∀ c ∈ l, c = '0' ∨ c = 'x' ∨ isHexDigitChar c = true := by
  simp only [matchHex] at h
  rcases Option.bind_eq_some.mp h with ⟨m2, h2, hhp⟩
  rcases Option.bind_eq_some.mp h2 with ⟨m1, h1, hx⟩
  obtain ⟨y, t, hl, hy, hr⟩ := eatHexPlus_shape hhp
  have ht : ∀ c ∈ t, isHexDigitChar c = true := by
    intro c hc
    have h3 := List.dropWhile_eq_nil_iff.mp hr.symm
    simpa using h3 c hc
  rw [eatChar_eq h1, eatChar_eq hx, hl]
  intro c hc
  rcases List.mem_cons.mp hc with rfl | hc
  · exact Or.inl rfl
  rcases List.mem_cons.mp hc with rfl | hc
  · exact Or.inr (Or.inl rfl)
  rcases List.mem_cons.mp hc with rfl | hc
  · exact Or.inr (Or.inr hy)
  · exact Or.inr (Or.inr (ht c hc))

/-- No hex-address match at a head other than `0`. -/
theorem matchHex_none_of_head {c : Char} (hc : c ≠ '0') (t : List Char) :
    matchHex (c :: t) = none := by
  simp [matchHex, eatChar, hc]

/-- A full hex-address match extends over text not starting with a hex
digit. -/
theorem matchHex_append {m : List Char} (h : matchHex m = some [])
    {s : List Char} (hs : headNotB isHexDigitChar s = true) :
    matchHex (m ++ s) = some s := by
  simp only [matchHex] at h
  rcases Option.bind_eq_some.mp h with ⟨m2, h2, hhp⟩
  rcases Option.bind_eq_some.mp h2 with ⟨m1, h1, hx⟩
  simp only [matchHex]
  rw [eatChar_append h1 s, Option.some_bind, eatChar_append hx s,
    Option.some_bind, eatHexPlus_append_nil hhp s hs]

/-- A line-column match consumes at least one character. -/
theorem matchLC_dec {l r : List Char} (h : matchLC l = some r) :
    r.length < l.length := by
  simp only [matchLC] at h
  rcases hf : (eatChar ':' l).bind eatDigitsPlus with _ | r1
  · rw [hf] at h; exact Option.noConfusion h
  · simp only [hf] at h
    rcases Option.bind_eq_some.mp hf with ⟨m1, h1, hdp⟩
    have e1 := eatChar_eq h1
    obtain ⟨y, t, hl, hy, hr⟩ := eatDigitsPlus_shape hdp
    have hd1 := dropWhile_len_le isDigitChar t
    have hlen1 : r1.length < l.length := by
      rw [e1, hl, hr]
      simp only [List.length_cons]
      omega
    rcases hg : (eatChar ':' r1).bind eatDigitsPlus with _ | r2
    · simp only [hg] at h
      injection h with hinj
      subst hinj
      exact hlen1
    · simp only [hg] at h
      injection h with hinj
      subst hinj
      rcases Option.bind_eq_some.mp hg with ⟨m2, h2, hdp2⟩
      have e2 := eatChar_eq h2
      obtain ⟨y2, t2, hl2, hy2, hr2⟩ := eatDigitsPlus_shape hdp2
      have hd2 := dropWhile_len_le isDigitChar t2
      have : r2.length < r1.length := by
        rw [e2, hl2, hr2]
        simp only [List.length_cons]
        omega
      omega

/-- Every character of a full line-column match is `:` or a digit. -/
theorem matchLC_chars {l : List Char} (h : matchLC l = some []) :
    ∀ c ∈ l, c = ':' ∨ isDigitChar c = true := by
  simp only [matchLC] at h
  rcases hf : (eatChar ':' l).bind eatDigitsPlus with _ | r1
  · rw [hf] at h; exact Option.noConfusion h
  · simp only [hf] at h
    rcases Option.bind_eq_some.mp hf with ⟨m1, h1, hdp⟩
    obtain ⟨y, t, hl, hy, hr⟩ := eatDigitsPlus_shape hdp
    rcases hg : (eatChar ':' r1).bind eatDigitsPlus with _ | r2
    · simp only [hg] at h
      injection h with hinj
      subst hinj
      have ht : ∀ c ∈ t, isDigitChar c = true := by
        intro c hc
        have h3 := List.dropWhile_eq_nil_iff.mp hr.symm
        simpa using h3 c hc
      rw [eatChar_eq h1, hl]
      intro c hc
      rcases List.mem_cons.mp hc with rfl | hc
      · exact Or.inl rfl
      rcases List.mem_cons.mp hc with rfl | hc
      · exact Or.inr hy
      · exact Or.inr (ht c hc)
    · simp only [hg] at h
      injection h with hinj
      subst hinj
      rcases Option.bind_eq_some.mp hg with ⟨m2, h2, hdp2⟩
      obtain ⟨y2, t2, hl2, hy2, hr2⟩ := eatDigitsPlus_shape hdp2
      have ht2 : ∀ c ∈ t2, isDigitChar c = true := by
        intro c hc
        have h3 := List.dropWhile_eq_nil_iff.mp hr2.symm
        simpa using h3 c hc
      have hmid : ∀ c ∈ t, c ∈ (t.takeWhile isDigitChar) ∨ c ∈ r1 := by
        intro c hc
        rw [← List.takeWhile_append_dropWhile (p := isDigitChar) (l := t)] at hc
        rw [← hr] at hc
        exact List.mem_append.mp hc
      rw [eatChar_eq h1, hl]
      intro c hc
      rcases List.mem_cons.mp hc with rfl | hc
      · exact Or.inl rfl
      rcases List.mem_cons.mp hc with rfl | hc
      · exact Or.inr hy
      · rcases hmid c hc with h4 | h4
        · exact Or.inr (List.mem_takeWhile_imp h4)
        · rw [eatChar_eq h2, hl2] at h4
          rcases List.mem_cons.mp h4 with rfl | h4
          · exact Or.inl rfl
          rcases List.mem_cons.mp h4 with rfl | h4
          · exact Or.inr hy2
          · exact Or.inr (ht2 c h4)

/-- No line-column match at a head other than `:`. -/
theorem matchLC_none_of_head {c : Char} (hc : c ≠ ':') (t : List Char) :
    matchLC (c :: t) = none := by
  simp [matchLC, eatChar, hc]

/-- A full line-column match extends over text not starting with a digit
or `:`. -/
theorem matchLC_append {m : List Char} (h : matchLC m = some [])
    {s : List Char} (hs : headNotB (fun c => isDigitChar c || c == ':') s = true) :
    matchLC (m ++ s) = some s := by
  have hsd : headNotB isDigitChar s = true := by
    cases s with
    | nil => rfl
    | cons c cs =>
        simp only [headNotB] at hs ⊢
        simp only [Bool.not_eq_true'] at hs ⊢
        simp only [Bool.or_eq_false_iff] at hs
        exact hs.1
  have hsc : eatChar ':' s = none := by
    cases s with
    | nil => rfl
    | cons c cs =>
        simp only [headNotB] at hs
        have : (c == ':') = false := by
          simp only [Bool.not_eq_true'] at hs
          exact (Bool.or_eq_false_iff.mp hs).2
        simp only [eatChar]
        rw [if_neg (by simpa using this)]
  simp only [matchLC] at h
  rcases hf : (eatChar ':' m).bind eatDigitsPlus with _ | r1
  · rw [hf] at h; exact Option.noConfusion h
  · simp only [hf] at h
    rcases Option.bind_eq_some.mp hf with ⟨m1, h1, hdp⟩
    rcases hg : (eatChar ':' r1).bind eatDigitsPlus with _ | r2
    · simp only [hg] at h
      injection h with hinj
      subst hinj
      have hA : (eatChar ':' (m ++ s)).bind eatDigitsPlus = some s := by
        rw [eatChar_append h1 s, Option.some_bind,
          eatDigitsPlus_append_nil hdp s hsd]
      have hB : (eatChar ':' s).bind eatDigitsPlus = none := by
        rw [hsc]; rfl
      simp only [matchLC, hA, hB]
    · simp only [hg] at h
      injection h with hinj
      subst hinj
      rcases Option.bind_eq_some.mp hg with ⟨m2, h2, hdp2⟩
      have e2 := eatChar_eq h2
      subst e2
      have hA : (eatChar ':' (m ++ s)).bind eatDigitsPlus =
          some (':' :: (m2 ++ s)) := by
        rw [eatChar_append h1 s, Option.some_bind,
          eatDigitsPlus_append_ne hdp s]
      have hB : (eatChar ':' (':' :: (m2 ++ s))).bind eatDigitsPlus =
          some s := by
        rw [show eatChar ':' (':' :: (m2 ++ s)) = some (m2 ++ s) from by
          simp [eatChar]]
        rw [Option.some_bind, eatDigitsPlus_append_nil hdp2 s hsd]
      simp only [matchLC, hA, hB]

end RewardsBot
